import Mathlib

/-!
# Markov-chain queue simulator (`src/main.cpp`)

A shallow embedding of the simulation core of `main`:

* the state-graph builder (lines 103-138),
* the initial condition (lines 158-164),
* the walker step and the event loop of one generation (lines 176-190),
* the settle phase with the convergence measure (lines 192-211),
* the `do ... while` generation loop with the clamp of `max_gens` (lines 59, 174-222),
* the aggregate statistics (lines 246-255).

Modelling conventions.

* `double` values are exact rationals (`ℚ`): rounding is not modelled, except in
  the rounded settle phase `settleLoopDbl` and the run built on it
  (`generationStepDbl`, `doWhileDbl`, `simulateDbl`), where every operation of
  lines 198-208 is rounded to the nearest `double`.  The statements whose truth
  depends on that rounding (how `conv` compares with `eps` after line 208, the sum
  of the cached probabilities) are made about the rounded run.  The
  quotient `lambda / (lambda + mu)` of lines 113 and 120 is the rational quotient,
  which agrees with the source for `lambda + mu ≠ 0`; the statements about the
  table and about whole runs assume `lambda + mu > 0`.  The divisors of lines 198-203 are not zero on a
  run without overflow.  The quotient of line 255 (mean sojourn time) is modelled
  by `fdiv`, which keeps the IEEE outcome of a division by zero (`NaN`, `±Inf`)
  apart from finite values.  The virtual convergence time of line 232 is only
  printed and is not modelled.
* `int` counters are integers reduced to the 32-bit two's-complement range by
  `wrap32` after every addition.
* A pointer `&states[i]` is `some i`, `nullptr` is `none`.  Reading or writing
  `states[i]` with `i` outside the allocated array makes the model return `none`.
* The random source is a stream `draws : ℕ → ℚ`; `drawn` counts the draws taken so
  far.  As in the source (short-circuit `||`), no draw is taken when
  `probup == 1.0`.
* Printing is not modelled.
-/

namespace Markov

/-! ## Data model -/

/-- Single-up, single-down Markov state (`struct state_t`). -/
structure state_t where
  probup : ℚ
  next_up : Option ℕ
  next_down : Option ℕ
  arrivals_gen : ℤ
  arrivals_tot : ℤ
  oldp : ℚ
deriving DecidableEq

/-- The array `states`. -/
abbrev Mem := List state_t

/-- Largest value of a 32-bit `int`. -/
def INT_MAX : ℤ := 2147483647

/-- Reduction of an integer to the 32-bit two's-complement range. -/
def wrap32 (x : ℤ) : ℤ := (x + 2147483648) % 4294967296 - 2147483648

/-- Content of a freshly allocated cell of `new struct state_t[total_states]`.
Every field is assigned by the program before it is read. -/
def fresh : state_t :=
  { probup := 0, next_up := none, next_down := none,
    arrivals_gen := 0, arrivals_tot := 0, oldp := 0 }

/-- Update of `states[i]` in place; `none` when `i` is outside the array. -/
def store (m : Mem) (i : ℕ) (f : state_t → state_t) : Option Mem :=
  match m[i]? with
  | some s => some (m.set i (f s))
  | none => none

/-- The loop `for (int i = lo; i < lo + n; ++i) body`, with a body that may fail. -/
def forLoop {α : Type} (body : ℕ → α → Option α) : ℕ → ℕ → α → Option α
  | 0, _, a => some a
  | n + 1, i, a =>
    match body i a with
    | some b => forLoop body n (i + 1) b
    | none => none

/-! ## State graph builder (lines 103-138) -/

/-- The five assignments made to one cell by the builder: `probup`, `next_up`,
`next_down`, `arrivals_tot = 0`, `oldp = 1.0`.  The field `arrivals_gen` is not
touched. -/
def initCell (p : ℚ) (up down : Option ℕ) (s : state_t) : state_t :=
  { s with probup := p, next_up := up, next_down := down, arrivals_tot := 0, oldp := 1 }

/-- Lines 103-138: allocation of `N + K` cells followed by the five blocks of
assignments, in source order. -/
def buildStates (N K : ℕ) (lam mu : ℚ) : Option Mem :=
  let total_states := N + K
  let states : Mem := List.replicate total_states fresh
  (store states 0 (initCell 1 (if K ≤ 1 then some 1 else some (N + 1)) none)).bind fun m1 =>
  (forLoop (fun i m => store m i (initCell (lam / (lam + mu)) (some (i + 1)) (some (i - 1))))
      (N - 1) 1 m1).bind fun m2 =>
  (store m2 N (initCell (lam / (lam + mu)) (some N) (some (N - 1)))).bind fun m3 =>
  (forLoop (fun i m => store m i (initCell 1 (some (i + 1)) none))
      (N + K - 1 - (N + 1)) (N + 1) m3).bind fun m4 =>
  store m4 (N + K - 1) (initCell 1 (some K) none)

/-! ## Simulation state -/

/-- The variables of `main` that live across generations. -/
structure Sim where
  states : Mem
  cur : Option ℕ
  arrivals_tot : ℤ
  generation : ℤ
  conv : ℚ
  drawn : ℕ

/-- The variables of one run phase: the array, the cursor, the scalar
`arrivals_gen` of the generation and the position in the random stream. -/
structure Walk where
  states : Mem
  cur : Option ℕ
  arrivals_gen : ℤ
  drawn : ℕ

/-- Lines 158-164: `arrivals_tot = 1`, `++states[0].arrivals_tot`,
`cur = &states[1]`, `generation = 0`.  `conv` is assigned before it is read. -/
def initSim (states : Mem) : Option Sim :=
  (store states 0 (fun s => { s with arrivals_tot := wrap32 (s.arrivals_tot + 1) })).map fun m =>
    { states := m, cur := some 1, arrivals_tot := 1, generation := 0, conv := 0, drawn := 0 }

/-! ## Stochastic walker (lines 182-190) -/

/-- The body of the event loop (lines 183-189). -/
def walkerStep (draws : ℕ → ℚ) (w : Walk) : Option Walk :=
  match w.cur with
  | none => none
  | some c =>
    match w.states[c]? with
    | none => none
    | some s =>
      if s.probup = 1 then
        some { states := w.states.set c { s with arrivals_gen := wrap32 (s.arrivals_gen + 1) }
               cur := s.next_up
               arrivals_gen := wrap32 (w.arrivals_gen + 1)
               drawn := w.drawn }
      else if draws w.drawn < s.probup then
        some { states := w.states.set c { s with arrivals_gen := wrap32 (s.arrivals_gen + 1) }
               cur := s.next_up
               arrivals_gen := wrap32 (w.arrivals_gen + 1)
               drawn := w.drawn + 1 }
      else
        some { states := w.states
               cur := s.next_down
               arrivals_gen := w.arrivals_gen
               drawn := w.drawn + 1 }

/-- The loop `for (int e = 0; e < events_per_gen; ++e)` (line 182). -/
def eventsLoop (draws : ℕ → ℚ) : ℕ → Walk → Option Walk
  | 0, w => some w
  | n + 1, w =>
    match walkerStep draws w with
    | some v => eventsLoop draws n v
    | none => none

/-! ## Settle phase (lines 192-211) -/

/-- The loop of lines 195-210 over the cells in index order, threading `conv`.
`tot` is the scalar `arrivals_tot` after line 193. -/
def settleLoop (tot : ℤ) (eps : ℚ) : Mem → ℚ → Mem × ℚ
  | [], conv => ([], conv)
  | s :: rest, conv =>
    let t := wrap32 (s.arrivals_tot + s.arrivals_gen)
    if 0 < t then
      let newp : ℚ := (t : ℚ) / (tot : ℚ)
      let r := settleLoop tot eps rest (max conv |(newp - s.oldp) / s.oldp|)
      ({ s with arrivals_tot := t, oldp := newp } :: r.1, r.2)
    else
      let r := settleLoop tot eps rest (eps + 1)
      ({ s with arrivals_tot := t } :: r.1, r.2)

/-- The array at the start of a generation (lines 176-178). -/
def clearGen (m : Mem) : Mem := m.map fun c => { c with arrivals_gen := 0 }

/-- One pass through the body of the `do ... while` loop (lines 175-211). -/
def generationStep (E : ℕ) (eps : ℚ) (draws : ℕ → ℚ) (s : Sim) : Option Sim :=
  match eventsLoop draws E
      { states := clearGen s.states, cur := s.cur, arrivals_gen := 0, drawn := s.drawn } with
  | none => none
  | some w =>
    let tot := wrap32 (s.arrivals_tot + w.arrivals_gen)
    let r := settleLoop tot eps w.states 0
    some { states := r.1, cur := w.cur, arrivals_tot := tot
           generation := wrap32 (s.generation + 1), conv := r.2, drawn := w.drawn }

/-! ## Generation loop (lines 59, 174-222) -/

/-- Line 59: `max_gens = min(max_gens, INT_MAX / events_per_gen - 1)`. -/
def clampMaxGens (max_gens : ℤ) (E : ℕ) : ℤ :=
  min max_gens (INT_MAX / (E : ℤ) - 1)

/-- The `do ... while (conv >= eps && generation < max_gens)` loop.  The first
argument bounds the number of further passes; `simulate` supplies a bound the
loop cannot exhaust. -/
def doWhile (E : ℕ) (eps : ℚ) (max_gens : ℤ) (draws : ℕ → ℚ) : ℕ → Sim → Option Sim
  | fuel, s =>
    match generationStep E eps draws s with
    | none => none
    | some t =>
      if eps ≤ t.conv ∧ t.generation < max_gens then
        match fuel with
        | 0 => none
        | f + 1 => doWhile E eps max_gens draws f t
      else some t

/-- Parameters after the parsing and clamping of lines 49-56. -/
structure Params where
  N : ℕ
  K : ℕ
  lam : ℚ
  mu : ℚ
  events_per_gen : ℕ
  max_gens : ℤ
  eps : ℚ

/-- The state of the simulation before the first generation. -/
def startSim (p : Params) : Option Sim :=
  (buildStates p.N p.K p.lam p.mu).bind initSim

/-- The simulation of `main` up to the exit of the generation loop. -/
def simulate (p : Params) (draws : ℕ → ℚ) : Option Sim :=
  let max_gens := clampMaxGens p.max_gens p.events_per_gen
  (startSim p).bind
    (doWhile p.events_per_gen p.eps max_gens draws max_gens.toNat)

/-- The loop body repeated `g` times from `s`, without the exit test. -/
def gensFrom (E : ℕ) (eps : ℚ) (draws : ℕ → ℚ) : ℕ → Sim → Option Sim
  | 0, s => some s
  | g + 1, s =>
    match generationStep E eps draws s with
    | some t => gensFrom E eps draws g t
    | none => none

/-- The state after `g` passes through the loop body, without the exit test. -/
def afterGens (p : Params) (draws : ℕ → ℚ) (g : ℕ) : Option Sim :=
  (startSim p).bind (gensFrom p.events_per_gen p.eps draws g)

/-! ## Statistics aggregator (lines 246-255) -/

/-- Outcome of a `double` division whose divisor may be zero. -/
inductive Dbl where
  | finite (q : ℚ)
  | posInf
  | negInf
  | nan
deriving DecidableEq

/-- IEEE division `a / b` of two finite values, the divisor taken as `+0` when
it is zero. -/
def fdiv (a b : ℚ) : Dbl :=
  if b = 0 then
    if a = 0 then Dbl.nan else if 0 < a then Dbl.posInf else Dbl.negInf
  else Dbl.finite (a / b)

/-- The aggregate results printed under "Model statistics". -/
structure Report where
  pbl : ℚ
  meanpackets : ℚ
  gamma : ℚ
  meantime : Dbl
deriving DecidableEq

/-- The body of the loop of lines 249-253. -/
def meanBody (N : ℕ) (states : Mem) (i : ℕ) (meanpackets : ℚ) : Option ℚ :=
  match states[i]? with
  | some s =>
    some (meanpackets + (if N < i then ((i : ℚ) - (N : ℚ)) * s.oldp else (i : ℚ) * s.oldp))
  | none => none

/-- Lines 247-255. -/
def aggregate (N K : ℕ) (lam : ℚ) (states : Mem) : Option Report :=
  let total_states := N + K
  match states[N]? with
  | none => none
  | some sN =>
    let pbl := sN.oldp
    match forLoop (meanBody N states) (total_states - 1) 1 0 with
    | none => none
    | some meanpackets =>
      let gamma := lam * (1 - pbl)
      some { pbl := pbl, meanpackets := meanpackets, gamma := gamma
             meantime := fdiv meanpackets gamma }

/-! ## Auxiliary definitions used by the statements -/

/-- The triple the topology table speaks about, read at index `i`. -/
def rowOf (m : Mem) (i : ℕ) : Option (ℚ × Option ℕ × Option ℕ) :=
  (m[i]?).map fun s => (s.probup, s.next_up, s.next_down)

/-- Table row `i = 0` (empty). -/
def EmptyRow (N K : ℕ) (m : Mem) : Prop :=
  rowOf m 0 = some (1, some (if K ≤ 1 then 1 else N + 1), none)

/-- Table rows `1 ≤ i < N` (ordinary). -/
def OrdinaryRows (N : ℕ) (lam mu : ℚ) (m : Mem) : Prop :=
  ∀ i, 1 ≤ i → i < N → rowOf m i = some (lam / (lam + mu), some (i + 1), some (i - 1))

/-- Table row `i = N` (full). -/
def FullRow (N : ℕ) (lam mu : ℚ) (m : Mem) : Prop :=
  rowOf m N = some (lam / (lam + mu), some N, some (N - 1))

/-- Table rows `N+1 ≤ i < N+K-1` (buffering). -/
def BufferingRows (N K : ℕ) (m : Mem) : Prop :=
  ∀ i, N + 1 ≤ i → i < N + K - 1 → rowOf m i = some (1, some (i + 1), none)

/-- Table row `i = N+K-1` (service initiation). -/
def ServiceInitRow (N K : ℕ) (m : Mem) : Prop :=
  rowOf m (N + K - 1) = some (1, some K, none)

/-- The whole topology table of the specification, as stated there: the builder
returns an array of `N + K` cells and every row holds. -/
def GraphMatchesTable (N K : ℕ) (lam mu : ℚ) : Prop :=
  ∃ m, buildStates N K lam mu = some m ∧ m.length = N + K ∧
    EmptyRow N K m ∧ OrdinaryRows N lam mu m ∧ FullRow N lam mu m ∧
    BufferingRows N K m ∧ ServiceInitRow N K m

/-- What lines 196-209 do to one cell, `tot` being the scalar `arrivals_tot`. -/
def settleCell (tot : ℤ) (s : state_t) : state_t :=
  if 0 < wrap32 (s.arrivals_tot + s.arrivals_gen) then
    { s with arrivals_tot := wrap32 (s.arrivals_tot + s.arrivals_gen)
             oldp := (wrap32 (s.arrivals_tot + s.arrivals_gen) : ℚ) / (tot : ℚ) }
  else { s with arrivals_tot := wrap32 (s.arrivals_tot + s.arrivals_gen) }

/-- The second argument of `std::max` on lines 201-204 for one cell. -/
def relChange (tot : ℤ) (s : state_t) : ℚ :=
  |((wrap32 (s.arrivals_tot + s.arrivals_gen) : ℚ) / (tot : ℚ) - s.oldp) / s.oldp|

/-- The cell left at index `j` by the builder when `1 ≤ N` and `1 ≤ K`: the
last block of assignments that wrote index `j` decides. -/
def builtCell (N K : ℕ) (lam mu : ℚ) (j : ℕ) : state_t :=
  if j = N + K - 1 then initCell 1 (some K) none fresh
  else if N + 1 ≤ j then initCell 1 (some (j + 1)) none fresh
  else if j = N then initCell (lam / (lam + mu)) (some N) (some (N - 1)) fresh
  else if 1 ≤ j then initCell (lam / (lam + mu)) (some (j + 1)) (some (j - 1)) fresh
  else initCell 1 (if K ≤ 1 then some 1 else some (N + 1)) none fresh

/-- The fields of a cell that make up the graph. -/
def topo (s : state_t) : ℚ × Option ℕ × Option ℕ := (s.probup, s.next_up, s.next_down)

/-- Every arrival pointer points into the array, and so does the service pointer
of every cell whose `probup` is not `1.0`. -/
def Closed (m : Mem) : Prop :=
  ∀ s ∈ m, (∃ u, s.next_up = some u ∧ u < m.length) ∧
    (s.probup ≠ 1 → ∃ d, s.next_down = some d ∧ d < m.length)

/-- The cursor points into a closed graph. -/
def CursorOk (m : Mem) (cur : Option ℕ) : Prop :=
  Closed m ∧ ∃ c, cur = some c ∧ c < m.length

/-- The cached probability `states[i].oldp` (`0` when `i` is outside the array). -/
def prob (m : Mem) (i : ℕ) : ℚ := ((m[i]?).map fun s => s.oldp).getD 0

/-- The summand of line 250-252 for index `i`. -/
def meanTerm (N : ℕ) (m : Mem) (i : ℕ) : ℚ :=
  if N < i then ((i : ℚ) - (N : ℚ)) * prob m i else (i : ℚ) * prob m i

/-- The aggregator formulas of the specification for a final array `m`. -/
def AggregateMatchesSpec (N K : ℕ) (lam : ℚ) (m : Mem) : Prop :=
  ∃ r, aggregate N K lam m = some r ∧
    (m[N]?).map (fun s => s.oldp) = some r.pbl ∧
    r.meanpackets = (∑ i ∈ Finset.Icc 1 N, (i : ℚ) * prob m i)
      + ∑ i ∈ Finset.Icc (N + 1) (N + K - 1), ((i : ℚ) - (N : ℚ)) * prob m i ∧
    r.gamma = lam * (1 - r.pbl)

/-- A cell with a given cached probability, used to write down final arrays. -/
def cellWithProb (q : ℚ) : state_t := { fresh with oldp := q }

/-- Sum of the per-state `arrivals_gen` counters. -/
def sumGen (m : Mem) : ℤ := (m.map fun c => c.arrivals_gen).sum

/-- Sum of the per-state `arrivals_tot` counters. -/
def sumTot (m : Mem) : ℤ := (m.map fun c => c.arrivals_tot).sum

/-- The fields of a cell that the run phase does not touch. -/
def frozen (s : state_t) : ℤ × ℚ := (s.arrivals_tot, s.oldp)

/-- Counter consistency inside a run phase after at most `e` events: the
per-state `arrivals_gen` are non-negative and add up to the scalar `arrivals_gen`,
which is at most `e`. -/
def GenCounted (w : Walk) (e : ℤ) : Prop :=
  (∀ c ∈ w.states, 0 ≤ c.arrivals_gen) ∧ sumGen w.states = w.arrivals_gen ∧
    w.arrivals_gen ≤ e

/-- Counter consistency between generations: the per-state `arrivals_tot` are
non-negative and add up to the scalar `arrivals_tot`, which lies in `[1, B]`;
every cached probability lies in `(0, 1]`, and that of a visited state is its
share `arrivals_tot / (scalar arrivals_tot)`. -/
def TotCounted (s : Sim) (B : ℤ) : Prop :=
  (∀ c ∈ s.states, 0 ≤ c.arrivals_tot ∧ 0 < c.oldp ∧ c.oldp ≤ 1) ∧
    sumTot s.states = s.arrivals_tot ∧ 1 ≤ s.arrivals_tot ∧ s.arrivals_tot ≤ B ∧
    ∀ c ∈ s.states, 0 < c.arrivals_tot →
      c.oldp = (c.arrivals_tot : ℚ) / (s.arrivals_tot : ℚ)

/-! ## Concrete inputs used to instantiate the statements -/

/-- A two-state array used to instantiate the statements: an empty state and a
state with both transitions. -/
def demoStates : Mem :=
  [{ probup := 1, next_up := some 1, next_down := none, arrivals_gen := 0,
     arrivals_tot := 1, oldp := 1 },
   { probup := 1 / 2, next_up := some 1, next_down := some 0, arrivals_gen := 0,
     arrivals_tot := 0, oldp := 1 }]

/-- A simulation state over `demoStates` with the cursor on state 1. -/
def demoSim : Sim :=
  { states := demoStates, cur := some 1, arrivals_tot := 1, generation := 0, conv := 0,
    drawn := 0 }

/-- A run-phase state over `demoStates` with the cursor on state 1. -/
def demoWalk : Walk :=
  { states := demoStates, cur := some 1, arrivals_gen := 0, drawn := 0 }

/-- The run-phase state after one arrival at state 1 of `demoWalk`. -/
def demoWalkArrived : Walk :=
  { states :=
      [{ probup := 1, next_up := some 1, next_down := none, arrivals_gen := 0,
         arrivals_tot := 1, oldp := 1 },
       { probup := 1 / 2, next_up := some 1, next_down := some 0, arrivals_gen := 1,
         arrivals_tot := 0, oldp := 1 }]
    cur := some 1, arrivals_gen := 1, drawn := 1 }

/-- The run-phase state after one service completion at state 1 of `demoWalk`. -/
def demoWalkServed : Walk :=
  { states := demoStates, cur := some 0, arrivals_gen := 0, drawn := 1 }

/-- A draw stream that is constantly `q`. -/
def constDraws (q : ℚ) : ℕ → ℚ := fun _ => q

/-- Parameters `N = 1`, `K = 1`, `λ = μ = 1`, `E = 4`, `max_gens = 3`, `ε = 0.01`. -/
def demoParams : Params :=
  { N := 1, K := 1, lam := 1, mu := 1, events_per_gen := 4, max_gens := 3, eps := 1 / 100 }

/-! ## Auxiliary definitions for the statements about whole runs -/

/-- The event budget as the specification states it: the run returns after `G`
generations of `events_per_gen` events each, and `G × events_per_gen` is at most
`max_gens × events_per_gen` for the requested `max_gens`. -/
def EventsWithinBudget (p : Params) (draws : ℕ → ℚ) : Prop :=
  ∃ (G : ℕ) (r : Sim), simulate p draws = some r ∧ afterGens p draws G = some r ∧
    r.generation = (G : ℤ) ∧
    (G : ℤ) * (p.events_per_gen : ℤ) ≤ p.max_gens * (p.events_per_gen : ℤ)

/-- State `i` of the array `m` has an arrival transition to itself. -/
def SelfLoop (m : Mem) (i : ℕ) : Prop :=
  (m[i]?).bind (fun s => s.next_up) = some i

/-- The self-loop invariant as the specification states it: the built graph has
exactly one state with an arrival transition to itself, the full state `N`. -/
def SelfLoopOnlyAtFull (N K : ℕ) (lam mu : ℚ) : Prop :=
  ∃ m, buildStates N K lam mu = some m ∧ m.length = N + K ∧
    ∀ i, i < N + K → (SelfLoop m i ↔ i = N)

/-- The service-initiation invariant as the specification states it: state
`N+K-1` has no service transition, its arrival target is `K`, and `K` is an
ordinary-region index. -/
def ServiceInitLeavesChain (N K : ℕ) (lam mu : ℚ) : Prop :=
  ∃ m, buildStates N K lam mu = some m ∧ ServiceInitRow N K m ∧ 1 ≤ K ∧ K ≤ N

/-- A cell that can never take its arrival transition (`probup = 0`) has counted no
arrival and still carries the initial probability `1.0`. -/
def Idle (c : state_t) : Prop :=
  c.probup = 0 → c.arrivals_gen = 0 ∧ c.arrivals_tot = 0 ∧ c.oldp = 1

/-- The report for `λ = 0` as the specification states it: only state 0 ever counts
an arrival, its probability is `1`, every other probability is `0`, the overflow
probability is `0` and the throughput is `0`. -/
def ZeroRateReport (p : Params) (draws : ℕ → ℚ) : Prop :=
  ∃ r rep, simulate p draws = some r ∧ aggregate p.N p.K p.lam r.states = some rep ∧
    (∀ (i : ℕ) (c : state_t), 1 ≤ i → r.states[i]? = some c → c.arrivals_tot = 0) ∧
    prob r.states 0 = 1 ∧
    (∀ i, 1 ≤ i → i < p.N + p.K → prob r.states i = 0) ∧
    rep.pbl = 0 ∧ rep.gamma = 0

/-- Shape of the simulation state for `N = 1`, `K = 1` once `T` arrivals have been
counted at state 1: state 0 holds the seeded arrival, the cursor is on state 1, and
the cached probabilities are the shares `1/(1+T)` and `T/(1+T)`. -/
def LoopShape (t : Sim) (T : ℤ) : Prop :=
  ∃ a b : ℤ,
    t.states =
      [{ probup := 1, next_up := some 1, next_down := none, arrivals_gen := a,
         arrivals_tot := 1, oldp := 1 / ((1 + T : ℤ) : ℚ) },
       { probup := 1, next_up := some 1, next_down := none, arrivals_gen := b,
         arrivals_tot := T, oldp := ((T : ℤ) : ℚ) / ((1 + T : ℤ) : ℚ) }] ∧
    t.cur = some 1 ∧ t.arrivals_tot = 1 + T

/-- Every state `1..N` of the array is certain to take its arrival transition, which
leads one state up, or from `N` to `N` itself. -/
def UpwardOnly (N : ℕ) (m : Mem) : Prop :=
  ∀ j, 1 ≤ j → j ≤ N →
    ∃ c, m[j]? = some c ∧ c.probup = 1 ∧ c.next_up = some (min (j + 1) N)

/-- Sum of the cached probabilities of the visited states (`arrivals_tot > 0`). -/
def visitedProbSum (m : Mem) : ℚ :=
  ((m.filter fun c => decide (0 < c.arrivals_tot)).map fun c => c.oldp).sum

/-! ## Rounded `double` arithmetic (lines 198-208)

The quotient of line 198, the relative change of line 203 and the sum `eps + 1`
of line 208 are `double` operations, each rounded to the nearest `double`, ties
to the even significand (IEEE 754 binary64, the default rounding mode).  The
definitions of this section repeat the settle phase and the generation loop with
these roundings, for the statements whose truth depends on them.  `roundDouble`
keeps 53 significant bits at every magnitude: exponent overflow and subnormal
values are not modelled.  The operands of lines 198-208 stay far inside the normal
range on a run (`int` counters below `2^31`, quotients of such counters, their
differences, and `eps + 1 ≥ 1`). -/

/-- Nearest integer to `x`, ties to the even one. -/
def rne (x : ℚ) : ℤ :=
  if x - ⌊x⌋ < 1 / 2 then ⌊x⌋
  else if 1 / 2 < x - ⌊x⌋ then ⌊x⌋ + 1
  else if ⌊x⌋ % 2 = 0 then ⌊x⌋ else ⌊x⌋ + 1

/-- Spacing of the `double` values in the binade `[2^e, 2^(e+1))` of `|x|`: a
`double` has 53 significant bits, so the spacing is `2^(e-52)`. -/
def ulp (x : ℚ) : ℚ := (2 : ℚ) ^ (Int.log 2 |x| - 52)

/-- The `double` nearest to `x`, ties to even. -/
def roundDouble (x : ℚ) : ℚ := (rne (x / ulp x) : ℚ) * ulp x

/-- Sum of two `double` values. -/
def dadd (a b : ℚ) : ℚ := roundDouble (a + b)

/-- Difference of two `double` values. -/
def dsub (a b : ℚ) : ℚ := roundDouble (a - b)

/-- Quotient of two `double` values, the divisor not zero. -/
def ddiv (a b : ℚ) : ℚ := roundDouble (a / b)

/-- The loop of lines 195-210 with rounded `double` operations.  The conversions
of the `int` counters to `double` (line 198) are exact, and so are `std::abs` and
`std::max`. -/
def settleLoopDbl (tot : ℤ) (eps : ℚ) : Mem → ℚ → Mem × ℚ
  | [], conv => ([], conv)
  | s :: rest, conv =>
    let t := wrap32 (s.arrivals_tot + s.arrivals_gen)
    if 0 < t then
      let newp : ℚ := ddiv (t : ℚ) (tot : ℚ)
      let r := settleLoopDbl tot eps rest (max conv |ddiv (dsub newp s.oldp) s.oldp|)
      ({ s with arrivals_tot := t, oldp := newp } :: r.1, r.2)
    else
      let r := settleLoopDbl tot eps rest (dadd eps 1)
      ({ s with arrivals_tot := t } :: r.1, r.2)

/-- One pass through the body of the `do ... while` loop (lines 175-211) with the
rounded settle phase. -/
def generationStepDbl (E : ℕ) (eps : ℚ) (draws : ℕ → ℚ) (s : Sim) : Option Sim :=
  match eventsLoop draws E
      { states := clearGen s.states, cur := s.cur, arrivals_gen := 0, drawn := s.drawn } with
  | none => none
  | some w =>
    let tot := wrap32 (s.arrivals_tot + w.arrivals_gen)
    let r := settleLoopDbl tot eps w.states 0
    some { states := r.1, cur := w.cur, arrivals_tot := tot
           generation := wrap32 (s.generation + 1), conv := r.2, drawn := w.drawn }

/-- The `do ... while (conv >= eps && generation < max_gens)` loop over the
rounded generation step. -/
def doWhileDbl (E : ℕ) (eps : ℚ) (max_gens : ℤ) (draws : ℕ → ℚ) : ℕ → Sim → Option Sim
  | fuel, s =>
    match generationStepDbl E eps draws s with
    | none => none
    | some t =>
      if eps ≤ t.conv ∧ t.generation < max_gens then
        match fuel with
        | 0 => none
        | f + 1 => doWhileDbl E eps max_gens draws f t
      else some t

/-- The simulation of `main` up to the exit of the generation loop, with the
rounded settle phase. -/
def simulateDbl (p : Params) (draws : ℕ → ℚ) : Option Sim :=
  let max_gens := clampMaxGens p.max_gens p.events_per_gen
  (startSim p).bind
    (doWhileDbl p.events_per_gen p.eps max_gens draws max_gens.toNat)

/-- The rounded loop body repeated `g` times from `s`, without the exit test. -/
def gensFromDbl (E : ℕ) (eps : ℚ) (draws : ℕ → ℚ) : ℕ → Sim → Option Sim
  | 0, s => some s
  | g + 1, s =>
    match generationStepDbl E eps draws s with
    | some t => gensFromDbl E eps draws g t
    | none => none

/-- The state after `g` passes through the rounded loop body. -/
def afterGensDbl (p : Params) (draws : ℕ → ℚ) (g : ℕ) : Option Sim :=
  (startSim p).bind (gensFromDbl p.events_per_gen p.eps draws g)

/-- Effect of the rounded settle phase on one cell (lines 196-206). -/
def settleCellDbl (tot : ℤ) (s : state_t) : state_t :=
  if 0 < wrap32 (s.arrivals_tot + s.arrivals_gen) then
    { s with arrivals_tot := wrap32 (s.arrivals_tot + s.arrivals_gen)
             oldp := ddiv ((wrap32 (s.arrivals_tot + s.arrivals_gen) : ℤ) : ℚ) (tot : ℚ) }
  else { s with arrivals_tot := wrap32 (s.arrivals_tot + s.arrivals_gen) }

/-- Counter consistency between generations of the rounded run: the per-state
`arrivals_tot` are non-negative and add up to the scalar `arrivals_tot`, which lies
in `[1, B]`, and the cached probability of a visited state is its share
`arrivals_tot / (scalar arrivals_tot)` rounded to a `double`. -/
def TotCountedDbl (s : Sim) (B : ℤ) : Prop :=
  (∀ c ∈ s.states, 0 ≤ c.arrivals_tot) ∧
    sumTot s.states = s.arrivals_tot ∧ 1 ≤ s.arrivals_tot ∧ s.arrivals_tot ≤ B ∧
    ∀ c ∈ s.states, 0 < c.arrivals_tot →
      c.oldp = roundDouble ((c.arrivals_tot : ℚ) / (s.arrivals_tot : ℚ))

/-- Sum of the exact shares `arrivals_tot[i] / tot` of the visited states. -/
def visitedShareSum (m : Mem) (tot : ℤ) : ℚ :=
  ((m.filter fun c => decide (0 < c.arrivals_tot)).map
    fun c => (c.arrivals_tot : ℚ) / (tot : ℚ)).sum

/-- The property of C4 as stated: when a cell is still unvisited after the settle
phase of a generation, the `conv` of the generation is strictly greater than
`eps`. -/
def UnvisitedExceedsTolerance (E : ℕ) (eps : ℚ) (draws : ℕ → ℚ) (s : Sim) : Prop :=
  ∃ t, generationStepDbl E eps draws s = some t ∧
    ((∃ d ∈ t.states, d.arrivals_tot = 0) → eps < t.conv)

/-- Parameters `N = 2`, `K = 2`, `λ = μ = 1`, `E = 1`, `max_gens = 1` and the
tolerance `ε = 2^53` (command line `2 1 1 2 1 1 900719925474099200 0`). -/
def hugeTolParams : Params :=
  { N := 2, K := 2, lam := 1, mu := 1, events_per_gen := 1, max_gens := 1
    eps := 9007199254740992 }

/-- Parameters `N = 2`, `K = 2`, `λ = μ = 1`, `E = 7`, `max_gens = 1`, `ε = 0.25`. -/
def thirdsParams : Params :=
  { N := 2, K := 2, lam := 1, mu := 1, events_per_gen := 7, max_gens := 1, eps := 1 / 4 }

/-- A draw stream whose first and third draws are `3/4` and all others `1/4`. -/
def thirdsDraws : ℕ → ℚ := fun k => if k = 0 ∨ k = 2 then 3 / 4 else 1 / 4

/-- The array built for `N = 2`, `K = 2`, `λ = μ = 1` with the counters
`arrivals_gen`, `arrivals_tot` and the cached probabilities given per state. -/
def twoTwoStates (g0 g1 g2 g3 t0 t1 t2 t3 : ℤ) (p0 p1 p2 p3 : ℚ) : Mem :=
  [{ probup := 1, next_up := some 3, next_down := none, arrivals_gen := g0,
     arrivals_tot := t0, oldp := p0 },
   { probup := 1 / 2, next_up := some 2, next_down := some 0, arrivals_gen := g1,
     arrivals_tot := t1, oldp := p1 },
   { probup := 1 / 2, next_up := some 2, next_down := some 1, arrivals_gen := g2,
     arrivals_tot := t2, oldp := p2 },
   { probup := 1, next_up := some 2, next_down := none, arrivals_gen := g3,
     arrivals_tot := t3, oldp := p3 }]

/-! ## Lemmas on the array operations and the builder -/

theorem store_some {m : Mem} {i : ℕ} (f : state_t → state_t) (h : i < m.length) :
    store m i f = some (m.set i (f m[i])) := by
  simp [store, List.getElem?_eq_getElem h]

theorem store_none {m : Mem} {i : ℕ} (f : state_t → state_t) (h : m.length ≤ i) :
    store m i f = none := by
  simp [store, List.getElem?_eq_none h]

theorem store_spec {m m' : Mem} {i : ℕ} {f : state_t → state_t} (h : store m i f = some m') :
    m'.length = m.length ∧ ∀ j, m'[j]? = if j = i then (m[j]?).map f else m[j]? := by
  by_cases hi : i < m.length
  · rw [store_some f hi] at h
    cases h
    refine ⟨by simp, fun j => ?_⟩
    by_cases hj : j = i
    · subst hj
      rw [if_pos rfl, List.getElem?_eq_getElem hi]
      simp [List.getElem?_set, hi]
    · have : i ≠ j := fun e => hj e.symm
      simp [hj, List.getElem?_set_ne this]
  · rw [store_none f (Nat.le_of_not_lt hi)] at h
    cases h

theorem forLoop_store (g : ℕ → state_t → state_t) :
    ∀ (n lo : ℕ) (m : Mem), lo + n ≤ m.length →
      ∃ m', forLoop (fun i m => store m i (g i)) n lo m = some m' ∧
        m'.length = m.length ∧
        ∀ j, m'[j]? = if lo ≤ j ∧ j < lo + n then (m[j]?).map (g j) else m[j]? := by
  intro n
  induction n with
  | zero =>
    intro lo m _
    refine ⟨m, rfl, rfl, fun j => ?_⟩
    have : ¬ (lo ≤ j ∧ j < lo + 0) := by omega
    rw [if_neg this]
  | succ n ih =>
    intro lo m h
    have hlo : lo < m.length := by omega
    obtain ⟨m1, h1⟩ : ∃ m1, store m lo (g lo) = some m1 := ⟨_, store_some _ hlo⟩
    obtain ⟨hlen1, hget1⟩ := store_spec h1
    obtain ⟨m2, h2, hlen2, hget2⟩ := ih (lo + 1) m1 (by omega)
    refine ⟨m2, ?_, by omega, fun j => ?_⟩
    · simp only [forLoop, h1]
      exact h2
    · rw [hget2 j, hget1 j]
      by_cases c1 : j = lo
      · subst c1
        have : ¬ (j + 1 ≤ j ∧ j < j + 1 + n) := by omega
        simp [this]
      · by_cases c2 : lo + 1 ≤ j ∧ j < lo + 1 + n
        · have : lo ≤ j ∧ j < lo + (n + 1) := by omega
          simp [c2, this, c1]
        · have : ¬ (lo ≤ j ∧ j < lo + (n + 1)) := by omega
          simp [c2, this, c1]

theorem buildStates_cells (N K : ℕ) (lam mu : ℚ) (hN : 1 ≤ N) (hK : 1 ≤ K) :
    ∃ m, buildStates N K lam mu = some m ∧ m.length = N + K ∧
      ∀ j, j < N + K → m[j]? = some (builtCell N K lam mu j) := by
  have h0len : (List.replicate (N + K) fresh : Mem).length = N + K := by simp
  obtain ⟨m1, h1⟩ : ∃ m1, store (List.replicate (N + K) fresh) 0
      (initCell 1 (if K ≤ 1 then some 1 else some (N + 1)) none) = some m1 :=
    ⟨_, store_some _ (by rw [h0len]; omega)⟩
  obtain ⟨l1, g1⟩ := store_spec h1
  obtain ⟨m2, h2, l2, g2⟩ := forLoop_store
    (fun i => initCell (lam / (lam + mu)) (some (i + 1)) (some (i - 1))) (N - 1) 1 m1
    (by rw [l1, h0len]; omega)
  obtain ⟨m3, h3⟩ : ∃ m3, store m2 N
      (initCell (lam / (lam + mu)) (some N) (some (N - 1))) = some m3 :=
    ⟨_, store_some _ (by rw [l2, l1, h0len]; omega)⟩
  obtain ⟨l3, g3⟩ := store_spec h3
  obtain ⟨m4, h4, l4, g4⟩ := forLoop_store
    (fun i => initCell 1 (some (i + 1)) none) (N + K - 1 - (N + 1)) (N + 1) m3
    (by rw [l3, l2, l1, h0len]; omega)
  obtain ⟨m5, h5⟩ : ∃ m5, store m4 (N + K - 1) (initCell 1 (some K) none) = some m5 :=
    ⟨_, store_some _ (by rw [l4, l3, l2, l1, h0len]; omega)⟩
  obtain ⟨l5, g5⟩ := store_spec h5
  refine ⟨m5, ?_, by rw [l5, l4, l3, l2, l1, h0len], fun j hj => ?_⟩
  · simp only [buildStates, h1, h2, h3, h4, h5, Option.bind]
  · have hfresh : (List.replicate (N + K) fresh : Mem)[j]? = some fresh := by
      simp [List.getElem?_replicate, hj]
    rw [g5 j, g4 j, g3 j, g2 j, g1 j, hfresh]
    unfold builtCell
    by_cases c5 : j = N + K - 1
    · simp only [if_pos c5]
      split_ifs <;> rfl
    · simp only [if_neg c5]
      by_cases c4 : N + 1 ≤ j
      · have c4' : N + 1 ≤ j ∧ j < N + 1 + (N + K - 1 - (N + 1)) := by omega
        simp only [if_pos c4, if_pos c4']
        split_ifs <;> rfl
      · have c4' : ¬ (N + 1 ≤ j ∧ j < N + 1 + (N + K - 1 - (N + 1))) := by omega
        simp only [if_neg c4, if_neg c4']
        by_cases c3 : j = N
        · simp only [if_pos c3]
          split_ifs <;> simp [initCell]
        · simp only [if_neg c3]
          by_cases c2 : 1 ≤ j
          · have c2' : 1 ≤ j ∧ j < 1 + (N - 1) := by omega
            simp only [if_pos c2, if_pos c2']
            split_ifs <;> rfl
          · have c2' : ¬ (1 ≤ j ∧ j < 1 + (N - 1)) := by omega
            have c1 : j = 0 := by omega
            simp only [if_neg c2, if_neg c2', if_pos c1]
            rfl

theorem wrap32_of_range {x : ℤ} (h1 : -2147483648 ≤ x) (h2 : x ≤ INT_MAX) : wrap32 x = x := by
  unfold INT_MAX at h2
  unfold wrap32
  omega

/-! ## Lemmas on the settle phase -/

theorem settleLoop_states (tot : ℤ) (eps : ℚ) :
    ∀ (m : Mem) (c : ℚ), (settleLoop tot eps m c).1 = m.map (settleCell tot) := by
  intro m
  induction m with
  | nil => intro c; rfl
  | cons s rest ih =>
    intro c
    by_cases h : 0 < wrap32 (s.arrivals_tot + s.arrivals_gen)
    · simp only [settleLoop, if_pos h, List.map_cons, settleCell, ih]
    · simp only [settleLoop, if_neg h, List.map_cons, settleCell, ih]

theorem settleLoop_conv_floor (tot : ℤ) (eps : ℚ) :
    ∀ (m : Mem) (c : ℚ), eps + 1 ≤ c → eps + 1 ≤ (settleLoop tot eps m c).2 := by
  intro m
  induction m with
  | nil => intro c hc; exact hc
  | cons s rest ih =>
    intro c hc
    by_cases h : 0 < wrap32 (s.arrivals_tot + s.arrivals_gen)
    · simp only [settleLoop, if_pos h]
      exact ih _ (le_trans hc (le_max_left _ _))
    · simp only [settleLoop, if_neg h]
      exact ih _ (le_refl _)

theorem settleLoop_conv_unvisited (tot : ℤ) (eps : ℚ) :
    ∀ (m : Mem) (c : ℚ), (∃ s ∈ m, ¬ 0 < wrap32 (s.arrivals_tot + s.arrivals_gen)) →
      eps + 1 ≤ (settleLoop tot eps m c).2 := by
  intro m
  induction m with
  | nil => rintro c ⟨s, hs, -⟩; cases hs
  | cons s rest ih =>
    rintro c ⟨x, hx, hxu⟩
    by_cases h : 0 < wrap32 (s.arrivals_tot + s.arrivals_gen)
    · simp only [settleLoop, if_pos h]
      rcases List.mem_cons.mp hx with e | hmem
      · subst e; exact absurd h hxu
      · exact ih _ ⟨x, hmem, hxu⟩
    · simp only [settleLoop, if_neg h]
      exact settleLoop_conv_floor tot eps rest _ (le_refl _)

theorem settleLoop_conv_ge (tot : ℤ) (eps : ℚ) :
    ∀ (m : Mem) (c : ℚ), (∀ s ∈ m, 0 < wrap32 (s.arrivals_tot + s.arrivals_gen)) →
      c ≤ (settleLoop tot eps m c).2 ∧
      ∀ s ∈ m, relChange tot s ≤ (settleLoop tot eps m c).2 := by
  intro m
  induction m with
  | nil => intro c _; exact ⟨le_refl _, fun s hs => by cases hs⟩
  | cons s rest ih =>
    intro c hall
    have h : 0 < wrap32 (s.arrivals_tot + s.arrivals_gen) := hall s (List.mem_cons_self _ _)
    obtain ⟨h1, h2⟩ := ih (max c (relChange tot s))
      (fun x hx => hall x (List.mem_cons_of_mem _ hx))
    simp only [settleLoop, if_pos h]
    refine ⟨le_trans (le_max_left _ _) h1, fun x hx => ?_⟩
    rcases List.mem_cons.mp hx with e | hmem
    · subst e; exact le_trans (le_max_right _ _) h1
    · exact h2 x hmem

theorem settleLoop_conv_attained (tot : ℤ) (eps : ℚ) :
    ∀ (m : Mem) (c : ℚ), (∀ s ∈ m, 0 < wrap32 (s.arrivals_tot + s.arrivals_gen)) →
      (settleLoop tot eps m c).2 = c ∨
      ∃ s ∈ m, (settleLoop tot eps m c).2 = relChange tot s := by
  intro m
  induction m with
  | nil => intro c _; exact Or.inl rfl
  | cons s rest ih =>
    intro c hall
    have h : 0 < wrap32 (s.arrivals_tot + s.arrivals_gen) := hall s (List.mem_cons_self _ _)
    simp only [settleLoop, if_pos h]
    rcases ih (max c (relChange tot s)) (fun x hx => hall x (List.mem_cons_of_mem _ hx)) with
      e | ⟨x, hx, e⟩
    · rcases max_choice c (relChange tot s) with e' | e'
      · left; exact e.trans e'
      · right; exact ⟨s, List.mem_cons_self _ _, e.trans e'⟩
    · right; exact ⟨x, List.mem_cons_of_mem _ hx, e⟩

theorem generationStep_of_run {E : ℕ} {eps : ℚ} {draws : ℕ → ℚ} {s : Sim} {w : Walk}
    (hrun : eventsLoop draws E
      { states := clearGen s.states, cur := s.cur, arrivals_gen := 0, drawn := s.drawn }
        = some w) :
    generationStep E eps draws s = some
      { states := w.states.map (settleCell (wrap32 (s.arrivals_tot + w.arrivals_gen)))
        cur := w.cur
        arrivals_tot := wrap32 (s.arrivals_tot + w.arrivals_gen)
        generation := wrap32 (s.generation + 1)
        conv := (settleLoop (wrap32 (s.arrivals_tot + w.arrivals_gen)) eps w.states 0).2
        drawn := w.drawn } := by
  simp only [generationStep, hrun, settleLoop_states]

/-! ## The walker never follows a dangling pointer in a closed graph -/

theorem closed_of_topo_eq {m m' : Mem} (h : m'.map topo = m.map topo) (hc : Closed m) :
    Closed m' := by
  have hlen : m'.length = m.length := by
    have := congrArg List.length h
    simpa using this
  intro s' hs'
  have : topo s' ∈ m.map topo := by
    rw [← h]
    exact List.mem_map_of_mem topo hs'
  obtain ⟨s, hs, e⟩ := List.mem_map.mp this
  have e1 : s.probup = s'.probup := congrArg Prod.fst e
  have e2 : s.next_up = s'.next_up := congrArg (fun x => x.2.1) e
  have e3 : s.next_down = s'.next_down := congrArg (fun x => x.2.2) e
  obtain ⟨hu, hd⟩ := hc s hs
  rw [hlen, ← e1, ← e2, ← e3]
  exact ⟨hu, hd⟩

theorem map_set_same {β : Type} (f : state_t → β) {m : Mem} {c : ℕ} {s s' : state_t}
    (hs : m[c]? = some s) (e : f s' = f s) : (m.set c s').map f = m.map f := by
  apply List.ext_getElem?
  intro j
  rw [List.getElem?_map, List.getElem?_map, List.getElem?_set]
  by_cases hj : c = j
  · subst hj
    have hc : c < m.length := by
      rcases List.getElem?_eq_some.mp hs with ⟨h, -⟩
      exact h
    simp [hc, hs, e]
  · simp [hj]

theorem map_topo_set {m : Mem} {c : ℕ} {s s' : state_t} (hs : m[c]? = some s)
    (e : topo s' = topo s) : (m.set c s').map topo = m.map topo :=
  map_set_same topo hs e

theorem map_topo_map {m : Mem} {f : state_t → state_t} (hf : ∀ s, topo (f s) = topo s) :
    (m.map f).map topo = m.map topo := by
  rw [List.map_map]
  apply List.map_congr_left
  intro s _
  exact hf s

theorem topo_settleCell (tot : ℤ) (s : state_t) : topo (settleCell tot s) = topo s := by
  unfold settleCell
  split_ifs <;> rfl

theorem walkerStep_ok (draws : ℕ → ℚ) (w : Walk) (h : CursorOk w.states w.cur) :
    ∃ v, walkerStep draws w = some v ∧ CursorOk v.states v.cur ∧
      v.states.map topo = w.states.map topo := by
  obtain ⟨hclosed, c, hcur, hc⟩ := h
  have hs : w.states[c]? = some w.states[c] := List.getElem?_eq_getElem hc
  have hmem : w.states[c] ∈ w.states := List.getElem_mem hc
  obtain ⟨⟨u, hu, hul⟩, hdown⟩ := hclosed _ hmem
  have key : ∀ v : Walk, v.states.map topo = w.states.map topo →
      (∃ x, v.cur = some x ∧ x < w.states.length) →
      CursorOk v.states v.cur ∧ v.states.map topo = w.states.map topo := by
    intro v hv ⟨x, hx, hxl⟩
    have hlen : v.states.length = w.states.length := by
      have := congrArg List.length hv
      simpa using this
    exact ⟨⟨closed_of_topo_eq hv hclosed, x, hx, by rw [hlen]; exact hxl⟩, hv⟩
  by_cases h1 : w.states[c].probup = 1
  · refine ⟨_, by simp only [walkerStep, hcur, hs, if_pos h1]; rfl, ?_⟩
    exact key _ (map_topo_set hs rfl) ⟨u, hu, hul⟩
  · by_cases h2 : draws w.drawn < w.states[c].probup
    · refine ⟨_, by simp only [walkerStep, hcur, hs, if_neg h1, if_pos h2]; rfl, ?_⟩
      exact key _ (map_topo_set hs rfl) ⟨u, hu, hul⟩
    · refine ⟨_, by simp only [walkerStep, hcur, hs, if_neg h1, if_neg h2]; rfl, ?_⟩
      obtain ⟨d, hd, hdl⟩ := hdown h1
      exact key _ rfl ⟨d, hd, hdl⟩

theorem eventsLoop_ok (draws : ℕ → ℚ) :
    ∀ (n : ℕ) (w : Walk), CursorOk w.states w.cur →
      ∃ v, eventsLoop draws n w = some v ∧ CursorOk v.states v.cur ∧
        v.states.map topo = w.states.map topo := by
  intro n
  induction n with
  | zero => intro w h; exact ⟨w, rfl, h, rfl⟩
  | succ n ih =>
    intro w h
    obtain ⟨v, hv, hvok, hvt⟩ := walkerStep_ok draws w h
    obtain ⟨u, hu, huok, hut⟩ := ih v hvok
    refine ⟨u, ?_, huok, hut.trans hvt⟩
    simp only [eventsLoop, hv]
    exact hu

theorem generationStep_ok (E : ℕ) (eps : ℚ) (draws : ℕ → ℚ) (s : Sim)
    (h : CursorOk s.states s.cur) :
    ∃ t, generationStep E eps draws s = some t ∧ CursorOk t.states t.cur ∧
      t.states.map topo = s.states.map topo ∧
      t.generation = wrap32 (s.generation + 1) := by
  have hclear : (clearGen s.states).map topo = s.states.map topo :=
    map_topo_map (fun _ => rfl)
  have hlen : (clearGen s.states).length = s.states.length := by simp [clearGen]
  have h0 : CursorOk (clearGen s.states) s.cur := by
    obtain ⟨hc, c, hcur, hcl⟩ := h
    exact ⟨closed_of_topo_eq hclear hc, c, hcur, by rw [hlen]; exact hcl⟩
  obtain ⟨w, hw, ⟨hwc, c, hwcur, hwl⟩, hwt⟩ := eventsLoop_ok draws E
    { states := clearGen s.states, cur := s.cur, arrivals_gen := 0, drawn := s.drawn } h0
  have ht : (w.states.map (settleCell (wrap32 (s.arrivals_tot + w.arrivals_gen)))).map topo
      = w.states.map topo := map_topo_map (topo_settleCell _)
  refine ⟨_, generationStep_of_run hw, ⟨closed_of_topo_eq ht hwc, c, hwcur, ?_⟩, ?_, rfl⟩
  · simpa using hwl
  · exact ht.trans (hwt.trans hclear)

theorem builtCell_closed (N K : ℕ) (lam mu : ℚ) (hN : 1 ≤ N) (hK : 1 ≤ K) (j : ℕ)
    (hj : j < N + K) :
    (∃ u, (builtCell N K lam mu j).next_up = some u ∧ u < N + K) ∧
    ((builtCell N K lam mu j).probup ≠ 1 →
      ∃ d, (builtCell N K lam mu j).next_down = some d ∧ d < N + K) := by
  unfold builtCell
  split_ifs with h1 h2 h3 h4 h5
  · exact ⟨⟨K, rfl, by omega⟩, fun h => absurd rfl h⟩
  · exact ⟨⟨j + 1, rfl, by omega⟩, fun h => absurd rfl h⟩
  · exact ⟨⟨N, rfl, by omega⟩, fun _ => ⟨N - 1, rfl, by omega⟩⟩
  · exact ⟨⟨j + 1, rfl, by omega⟩, fun _ => ⟨j - 1, rfl, by omega⟩⟩
  · exact ⟨⟨1, rfl, by omega⟩, fun h => absurd rfl h⟩
  · exact ⟨⟨N + 1, rfl, by omega⟩, fun h => absurd rfl h⟩

theorem buildStates_closed (N K : ℕ) (lam mu : ℚ) (hN : 1 ≤ N) (hK : 1 ≤ K) :
    ∃ m, buildStates N K lam mu = some m ∧ m.length = N + K ∧ Closed m ∧
      ∀ j, j < N + K → m[j]? = some (builtCell N K lam mu j) := by
  obtain ⟨m, hm, hlen, hcells⟩ := buildStates_cells N K lam mu hN hK
  refine ⟨m, hm, hlen, ?_, hcells⟩
  intro s hs
  obtain ⟨j, hj⟩ := List.mem_iff_getElem?.mp hs
  have hjl : j < N + K := by
    rcases List.getElem?_eq_some.mp hj with ⟨h, -⟩
    rw [hlen] at h
    exact h
  rw [hcells j hjl] at hj
  cases hj
  rw [hlen]
  exact builtCell_closed N K lam mu hN hK j hjl

theorem startSim_ok (p : Params) (hN : 1 ≤ p.N) (hK : 1 ≤ p.K) :
    ∃ s, startSim p = some s ∧ CursorOk s.states s.cur ∧ s.generation = 0 ∧
      s.arrivals_tot = 1 ∧ s.cur = some 1 ∧ s.states.length = p.N + p.K := by
  obtain ⟨m, hm, hlen, hclosed, -⟩ := buildStates_closed p.N p.K p.lam p.mu hN hK
  have h0 : 0 < m.length := by omega
  have hst := store_some (fun s => { s with arrivals_tot := wrap32 (s.arrivals_tot + 1) }) h0
  have htopo : (m.set 0 { m[0] with arrivals_tot := wrap32 (m[0].arrivals_tot + 1) }).map topo
      = m.map topo := map_topo_set (List.getElem?_eq_getElem h0) rfl
  refine ⟨_, by simp only [startSim, hm, Option.bind, initSim, hst, Option.map]; rfl,
    ⟨closed_of_topo_eq htopo hclosed, 1, rfl, ?_⟩, rfl, rfl, rfl, ?_⟩
  · simp only [List.length_set]
    omega
  · simp only [List.length_set]
    exact hlen

/-! ## Lemmas on the aggregator -/

theorem forLoop_meanBody (N : ℕ) (m : Mem) :
    ∀ (n lo : ℕ) (acc : ℚ), lo + n ≤ m.length →
      forLoop (meanBody N m) n lo acc
        = some (acc + ∑ i ∈ Finset.Ico lo (lo + n), meanTerm N m i) := by
  intro n
  induction n with
  | zero => intro lo acc _; simp [forLoop]
  | succ n ih =>
    intro lo acc h
    have hlo : lo < m.length := by omega
    have hb : meanBody N m lo acc = some (acc + meanTerm N m lo) := by
      simp only [meanBody, meanTerm, prob, List.getElem?_eq_getElem hlo, Option.map, Option.getD]
    simp only [forLoop, hb]
    rw [ih (lo + 1) _ (by omega)]
    rw [Finset.sum_eq_sum_Ico_succ_bot (by omega : lo < lo + (n + 1))]
    have : lo + 1 + n = lo + (n + 1) := by omega
    rw [this, add_assoc]

theorem meanTerm_sum_split (N K : ℕ) (m : Mem) (hK : 1 ≤ K) :
    ∑ i ∈ Finset.Ico 1 (1 + (N + K - 1)), meanTerm N m i
      = (∑ i ∈ Finset.Icc 1 N, (i : ℚ) * prob m i)
        + ∑ i ∈ Finset.Icc (N + 1) (N + K - 1), ((i : ℚ) - (N : ℚ)) * prob m i := by
  have e1 : 1 + (N + K - 1) = (N + K - 1) + 1 := by omega
  rw [e1, ← Finset.sum_Ico_consecutive (meanTerm N m) (by omega : 1 ≤ N + 1)
    (by omega : N + 1 ≤ N + K - 1 + 1), Nat.Ico_succ_right, Nat.Ico_succ_right]
  congr 1
  · apply Finset.sum_congr rfl
    intro i hi
    have : ¬ N < i := by
      have := (Finset.mem_Icc.mp hi).2
      omega
    simp only [meanTerm, if_neg this]
  · apply Finset.sum_congr rfl
    intro i hi
    have : N < i := by
      have := (Finset.mem_Icc.mp hi).1
      omega
    simp only [meanTerm, if_pos this]

theorem aggregate_eq (N K : ℕ) (lam : ℚ) (m : Mem) (hK : 1 ≤ K) (hlen : m.length = N + K) :
    aggregate N K lam m = some
      { pbl := prob m N
        meanpackets := (∑ i ∈ Finset.Icc 1 N, (i : ℚ) * prob m i)
          + ∑ i ∈ Finset.Icc (N + 1) (N + K - 1), ((i : ℚ) - (N : ℚ)) * prob m i
        gamma := lam * (1 - prob m N)
        meantime := fdiv ((∑ i ∈ Finset.Icc 1 N, (i : ℚ) * prob m i)
          + ∑ i ∈ Finset.Icc (N + 1) (N + K - 1), ((i : ℚ) - (N : ℚ)) * prob m i)
          (lam * (1 - prob m N)) } := by
  have hN : N < m.length := by omega
  have hloop := forLoop_meanBody N m (N + K - 1) 1 0 (by omega)
  rw [zero_add, meanTerm_sum_split N K m hK] at hloop
  simp only [aggregate, List.getElem?_eq_getElem hN, hloop, prob, Option.map, Option.getD]

/-! ## Lemmas on the generation loop -/

theorem clampMaxGens_le (max_gens : ℤ) (E : ℕ) (_hE : 1 ≤ E) :
    clampMaxGens max_gens E < INT_MAX := by
  have h1 : INT_MAX / (E : ℤ) ≤ INT_MAX := by
    apply Int.ediv_le_self
    unfold INT_MAX
    norm_num
  have h2 : clampMaxGens max_gens E ≤ INT_MAX / (E : ℤ) - 1 := min_le_right _ _
  omega

theorem doWhile_spec (E : ℕ) (eps : ℚ) (max_gens : ℤ) (draws : ℕ → ℚ)
    (hmax : max_gens < INT_MAX) :
    ∀ (fuel : ℕ) (s : Sim), CursorOk s.states s.cur → 0 ≤ s.generation →
      s.generation < INT_MAX → (max_gens - (s.generation + 1)).toNat ≤ fuel →
      ∃ (k : ℕ) (r : Sim), 1 ≤ k ∧ doWhile E eps max_gens draws fuel s = some r ∧
        gensFrom E eps draws k s = some r ∧ r.generation = s.generation + k ∧
        (∀ j : ℕ, 1 ≤ j → j < k → ∃ t, gensFrom E eps draws j s = some t ∧
          eps ≤ t.conv ∧ s.generation + (j : ℤ) < max_gens) ∧
        (r.conv < eps ∨ max_gens ≤ r.generation) := by
  intro fuel
  induction fuel with
  | zero =>
    intro s hs h0 h1 hf
    obtain ⟨t, ht, -, -, hg⟩ := generationStep_ok E eps draws s hs
    have hg' : t.generation = s.generation + 1 := by
      rw [hg]
      exact wrap32_of_range (by omega) (by omega)
    have hstop : ¬ (eps ≤ t.conv ∧ t.generation < max_gens) := by
      rintro ⟨-, h⟩
      rw [hg'] at h
      have : 0 < (max_gens - (s.generation + 1)).toNat := by omega
      omega
    refine ⟨1, t, le_refl 1, ?_, ?_, ?_, ?_, ?_⟩
    · unfold doWhile
      simp only [ht, if_neg hstop]
    · simp only [gensFrom, ht]
    · rw [hg']; norm_num
    · intro j hj1 hj2; omega
    · by_cases hc : eps ≤ t.conv
      · right
        exact not_lt.mp (fun h => hstop ⟨hc, h⟩)
      · left
        exact not_le.mp hc
  | succ f ih =>
    intro s hs h0 h1 hf
    obtain ⟨t, ht, htok, -, hg⟩ := generationStep_ok E eps draws s hs
    have hg' : t.generation = s.generation + 1 := by
      rw [hg]
      exact wrap32_of_range (by omega) (by omega)
    by_cases hcont : eps ≤ t.conv ∧ t.generation < max_gens
    · have hlt : t.generation < INT_MAX := lt_trans hcont.2 hmax
      obtain ⟨k, r, hk, hr, hgr, hrg, hbefore, hlast⟩ :=
        ih t htok (by omega) hlt (by rw [hg']; omega)
      refine ⟨k + 1, r, by omega, ?_, ?_, ?_, ?_, hlast⟩
      · unfold doWhile
        simp only [ht, if_pos hcont]
        exact hr
      · simp only [gensFrom, ht]
        exact hgr
      · rw [hrg, hg']; push_cast; ring
      · intro j hj1 hj2
        by_cases hj : j = 1
        · subst hj
          refine ⟨t, by simp only [gensFrom, ht], hcont.1, ?_⟩
          have := hcont.2
          rw [hg'] at this
          exact_mod_cast this
        · obtain ⟨i, rfl⟩ : ∃ i, j = i + 1 := ⟨j - 1, by omega⟩
          obtain ⟨u, hu, hconv, hlt⟩ := hbefore i (by omega) (by omega)
          refine ⟨u, by simp only [gensFrom, ht]; exact hu, hconv, ?_⟩
          rw [hg'] at hlt
          push_cast
          omega
    · refine ⟨1, t, le_refl 1, ?_, ?_, ?_, ?_, ?_⟩
      · unfold doWhile
        simp only [ht, if_neg hcont]
      · simp only [gensFrom, ht]
      · rw [hg']; norm_num
      · intro j hj1 hj2; omega
      · by_cases hc : eps ≤ t.conv
        · right
          exact not_lt.mp (fun h => hcont ⟨hc, h⟩)
        · left
          exact not_le.mp hc

/-! ## Counter consistency on runs without overflow -/

theorem sum_map_set (f : state_t → ℤ) :
    ∀ (m : Mem) (c : ℕ) (s s' : state_t), m[c]? = some s →
      ((m.set c s').map f).sum = (m.map f).sum - f s + f s' := by
  intro m
  induction m with
  | nil => intro c s s' h; simp at h
  | cons a m ih =>
    intro c s s' h
    cases c with
    | zero =>
      simp only [List.getElem?_cons_zero, Option.some.injEq] at h
      subst h
      simp only [List.set_cons_zero, List.map_cons, List.sum_cons]
      omega
    | succ c =>
      simp only [List.getElem?_cons_succ] at h
      simp only [List.set_cons_succ, List.map_cons, List.sum_cons, ih c s s' h]
      omega

theorem le_sum_of_mem (f : state_t → ℤ) (m : Mem) (h : ∀ c ∈ m, 0 ≤ f c) :
    ∀ c ∈ m, f c ≤ (m.map f).sum := by
  intro c hc
  apply List.single_le_sum
  · intro x hx
    obtain ⟨y, hy, rfl⟩ := List.mem_map.mp hx
    exact h y hy
  · exact List.mem_map_of_mem f hc

theorem walkerStep_counted (draws : ℕ → ℚ) (w v : Walk) (e : ℤ) (h : GenCounted w e)
    (he : e < INT_MAX) (hv : walkerStep draws w = some v) :
    GenCounted v (e + 1) ∧ v.states.map frozen = w.states.map frozen := by
  obtain ⟨hnn, hsum, hle⟩ := h
  unfold walkerStep at hv
  cases hcur : w.cur with
  | none => simp [hcur] at hv
  | some c =>
    cases hs : w.states[c]? with
    | none => simp [hcur, hs] at hv
    | some s =>
      have hmem : s ∈ w.states := List.mem_iff_getElem?.mpr ⟨c, hs⟩
      have hs0 : 0 ≤ s.arrivals_gen := hnn s hmem
      have hsle : s.arrivals_gen ≤ sumGen w.states :=
        le_sum_of_mem (fun c => c.arrivals_gen) w.states hnn s hmem
      have hw0 : 0 ≤ w.arrivals_gen := by omega
      have e1 : wrap32 (s.arrivals_gen + 1) = s.arrivals_gen + 1 :=
        wrap32_of_range (by omega) (by omega)
      have e2 : wrap32 (w.arrivals_gen + 1) = w.arrivals_gen + 1 :=
        wrap32_of_range (by omega) (by omega)
      have arrival : GenCounted
          { states := w.states.set c { s with arrivals_gen := s.arrivals_gen + 1 }
            cur := s.next_up, arrivals_gen := w.arrivals_gen + 1, drawn := w.drawn } (e + 1)
          ∧ (w.states.set c { s with arrivals_gen := s.arrivals_gen + 1 }).map frozen
              = w.states.map frozen := by
        refine ⟨⟨?_, ?_, ?_⟩, map_set_same frozen hs rfl⟩
        · intro x hx
          rcases List.mem_or_eq_of_mem_set hx with h1 | h1
          · exact hnn x h1
          · subst h1
            show 0 ≤ s.arrivals_gen + 1
            omega
        · show sumGen _ = w.arrivals_gen + 1
          unfold sumGen at hsum ⊢
          rw [sum_map_set (fun c => c.arrivals_gen) w.states c s _ hs, hsum]
          show w.arrivals_gen - s.arrivals_gen + (s.arrivals_gen + 1) = w.arrivals_gen + 1
          omega
        · show w.arrivals_gen + 1 ≤ e + 1
          omega
      simp only [hcur, hs] at hv
      split_ifs at hv with h1 h2
      · cases hv
        simp only [e1, e2]
        exact arrival
      · cases hv
        simp only [e1, e2]
        exact arrival
      · cases hv
        exact ⟨⟨hnn, hsum, by show w.arrivals_gen ≤ e + 1; omega⟩, rfl⟩

theorem eventsLoop_counted (draws : ℕ → ℚ) :
    ∀ (n : ℕ) (w v : Walk) (e : ℤ), GenCounted w e → e + n ≤ INT_MAX →
      eventsLoop draws n w = some v →
      GenCounted v (e + n) ∧ v.states.map frozen = w.states.map frozen := by
  intro n
  induction n with
  | zero =>
    intro w v e h _ hv
    simp only [eventsLoop, Option.some.injEq] at hv
    subst hv
    simpa using h
  | succ n ih =>
    intro w v e h he hv
    push_cast at he
    simp only [eventsLoop] at hv
    cases hstep : walkerStep draws w with
    | none => simp [hstep] at hv
    | some u =>
      simp only [hstep] at hv
      obtain ⟨hu, hfu⟩ := walkerStep_counted draws w u e h (by omega) hstep
      obtain ⟨hv', hfv⟩ := ih u v (e + 1) hu (by omega) hv
      refine ⟨?_, hfv.trans hfu⟩
      have : e + 1 + (n : ℤ) = e + ((n + 1 : ℕ) : ℤ) := by push_cast; ring
      rw [← this]
      exact hv'

theorem sumGen_clearGen (m : Mem) : sumGen (clearGen m) = 0 := by
  unfold sumGen clearGen
  apply List.sum_eq_zero
  intro x hx
  simp only [List.map_map, List.mem_map, Function.comp] at hx
  obtain ⟨_, _, rfl⟩ := hx
  rfl

theorem frozen_transfer {m m' : Mem} (h : m'.map frozen = m.map frozen) :
    sumTot m' = sumTot m ∧
    ((∀ c ∈ m, 0 ≤ c.arrivals_tot ∧ 0 < c.oldp ∧ c.oldp ≤ 1) →
      ∀ c ∈ m', 0 ≤ c.arrivals_tot ∧ 0 < c.oldp ∧ c.oldp ≤ 1) := by
  constructor
  · have e : ∀ l : Mem, sumTot l = ((l.map frozen).map Prod.fst).sum := by
      intro l
      unfold sumTot
      rw [List.map_map]
      rfl
    rw [e, e, h]
  · intro hall c hc
    have : frozen c ∈ m.map frozen := by
      rw [← h]
      exact List.mem_map_of_mem frozen hc
    obtain ⟨c', hc', e⟩ := List.mem_map.mp this
    have e1 : c'.arrivals_tot = c.arrivals_tot := congrArg Prod.fst e
    have e2 : c'.oldp = c.oldp := congrArg Prod.snd e
    rw [← e1, ← e2]
    exact hall c' hc'

theorem generationStep_counted (E : ℕ) (eps : ℚ) (draws : ℕ → ℚ) (s t : Sim) (B : ℤ)
    (h : TotCounted s B) (hB : B + E ≤ INT_MAX)
    (ht : generationStep E eps draws s = some t) : TotCounted t (B + E) := by
  obtain ⟨hcells, hsum, h1, hle, -⟩ := h
  cases hrun : eventsLoop draws E
      { states := clearGen s.states, cur := s.cur, arrivals_gen := 0, drawn := s.drawn } with
  | none => simp [generationStep, hrun] at ht
  | some w =>
    rw [generationStep_of_run hrun] at ht
    cases ht
    -- the run phase
    have hstart : GenCounted
        { states := clearGen s.states, cur := s.cur, arrivals_gen := 0, drawn := s.drawn } 0 := by
      refine ⟨?_, sumGen_clearGen s.states, le_refl 0⟩
      intro c hc
      obtain ⟨c', -, rfl⟩ := List.mem_map.mp hc
      exact le_refl 0
    have hE0 : (0 : ℤ) ≤ E := Int.natCast_nonneg E
    obtain ⟨⟨hgnn, hgsum, hgle⟩, hfro⟩ :=
      eventsLoop_counted draws E _ w 0 hstart (by omega) hrun
    rw [zero_add] at hgle
    have hclear : (clearGen s.states).map frozen = s.states.map frozen := by
      unfold clearGen
      rw [List.map_map]
      rfl
    obtain ⟨hwsum, hwcells⟩ := frozen_transfer (hfro.trans hclear)
    have hwc := hwcells hcells
    have hg0 : 0 ≤ w.arrivals_gen := by
      rw [← hgsum]
      unfold sumGen
      apply List.sum_nonneg
      intro x hx
      obtain ⟨y, hy, rfl⟩ := List.mem_map.mp hx
      exact hgnn y hy
    -- the scalar total does not overflow
    have eT : wrap32 (s.arrivals_tot + w.arrivals_gen) = s.arrivals_tot + w.arrivals_gen :=
      wrap32_of_range (by omega) (by omega)
    have hT1 : 1 ≤ s.arrivals_tot + w.arrivals_gen := by omega
    -- nor do the per-state totals
    have hadd : (w.states.map fun c => c.arrivals_tot + c.arrivals_gen).sum
        = s.arrivals_tot + w.arrivals_gen := by
      rw [List.sum_map_add]
      have e1 : (w.states.map fun c => c.arrivals_tot).sum = sumTot w.states := rfl
      have e2 : (w.states.map fun c => c.arrivals_gen).sum = sumGen w.states := rfl
      rw [e1, e2, hwsum, hsum, hgsum]
    have hcell0 : ∀ c ∈ w.states, 0 ≤ c.arrivals_tot + c.arrivals_gen := by
      intro c hc
      have := (hwc c hc).1
      have := hgnn c hc
      omega
    have hcellle : ∀ c ∈ w.states,
        c.arrivals_tot + c.arrivals_gen ≤ s.arrivals_tot + w.arrivals_gen := by
      intro c hc
      rw [← hadd]
      exact le_sum_of_mem (fun c => c.arrivals_tot + c.arrivals_gen) w.states hcell0 c hc
    have ecell : ∀ c ∈ w.states,
        wrap32 (c.arrivals_tot + c.arrivals_gen) = c.arrivals_tot + c.arrivals_gen := by
      intro c hc
      have := hcell0 c hc
      have := hcellle c hc
      exact wrap32_of_range (by omega) (by omega)
    have hTq : (0 : ℚ) < ((s.arrivals_tot + w.arrivals_gen : ℤ) : ℚ) := by
      exact_mod_cast (by omega : 0 < s.arrivals_tot + w.arrivals_gen)
    simp only [eT]
    refine ⟨?_, ?_, hT1, by show s.arrivals_tot + w.arrivals_gen ≤ B + E; omega, ?_⟩
    · intro d hd
      obtain ⟨c, hc, rfl⟩ := List.mem_map.mp hd
      have hc0 := hcell0 c hc
      have hcl := hcellle c hc
      have hold := (hwc c hc).2
      unfold settleCell
      rw [ecell c hc]
      split_ifs with hpos
      · refine ⟨hc0, ?_, ?_⟩
        · show (0 : ℚ) < ((c.arrivals_tot + c.arrivals_gen : ℤ) : ℚ)
            / ((s.arrivals_tot + w.arrivals_gen : ℤ) : ℚ)
          apply div_pos _ hTq
          exact_mod_cast hpos
        · show ((c.arrivals_tot + c.arrivals_gen : ℤ) : ℚ)
            / ((s.arrivals_tot + w.arrivals_gen : ℤ) : ℚ) ≤ 1
          rw [div_le_one hTq]
          exact_mod_cast hcl
      · exact ⟨hc0, hold⟩
    · show sumTot (w.states.map (settleCell (s.arrivals_tot + w.arrivals_gen)))
        = s.arrivals_tot + w.arrivals_gen
      refine Eq.trans ?_ hadd
      unfold sumTot
      rw [List.map_map]
      apply congrArg List.sum
      apply List.map_congr_left
      intro c hc
      show (settleCell (s.arrivals_tot + w.arrivals_gen) c).arrivals_tot
        = c.arrivals_tot + c.arrivals_gen
      unfold settleCell
      split_ifs <;> exact ecell c hc
    · intro d hd hvis
      obtain ⟨c, hc, rfl⟩ := List.mem_map.mp hd
      unfold settleCell at hvis ⊢
      split_ifs at hvis ⊢ with hpos
      · rfl
      · exact absurd hvis hpos

theorem gensFrom_counted (E : ℕ) (eps : ℚ) (draws : ℕ → ℚ) :
    ∀ (g : ℕ) (s t : Sim) (B : ℤ), TotCounted s B → B + (g : ℤ) * E ≤ INT_MAX →
      gensFrom E eps draws g s = some t → TotCounted t (B + (g : ℤ) * E) := by
  intro g
  induction g with
  | zero =>
    intro s t B h _ ht
    simp only [gensFrom, Option.some.injEq] at ht
    subst ht
    simpa using h
  | succ g ih =>
    intro s t B h hB ht
    push_cast at hB
    have hE0 : (0 : ℤ) ≤ E := Int.natCast_nonneg E
    have hgE : (0 : ℤ) ≤ (g : ℤ) * E := mul_nonneg (Int.natCast_nonneg g) hE0
    simp only [gensFrom] at ht
    cases hstep : generationStep E eps draws s with
    | none => simp [hstep] at ht
    | some u =>
      simp only [hstep] at ht
      have hu := generationStep_counted E eps draws s u B h (by nlinarith) hstep
      have := ih u t (B + E) hu (by nlinarith) ht
      have e : B + (E : ℤ) + (g : ℤ) * E = B + ((g + 1 : ℕ) : ℤ) * E := by push_cast; ring
      rw [← e]
      exact this

theorem startSim_counted (p : Params) (s : Sim) (hN : 1 ≤ p.N) (hK : 1 ≤ p.K)
    (hs : startSim p = some s) : TotCounted s 1 := by
  obtain ⟨m, hm, hlen, hcells⟩ := buildStates_cells p.N p.K p.lam p.mu hN hK
  have h0 : 0 < m.length := by omega
  have hst := store_some (fun s => { s with arrivals_tot := wrap32 (s.arrivals_tot + 1) }) h0
  simp only [startSim, hm, Option.bind, initSim, hst, Option.map, Option.some.injEq] at hs
  subst hs
  have hcell : ∀ c ∈ m, c.arrivals_tot = 0 ∧ c.oldp = 1 := by
    intro c hc
    obtain ⟨j, hj⟩ := List.mem_iff_getElem?.mp hc
    have hjl : j < p.N + p.K := by
      rcases List.getElem?_eq_some.mp hj with ⟨h, -⟩
      rw [hlen] at h
      exact h
    rw [hcells j hjl] at hj
    cases hj
    unfold builtCell
    split_ifs <;> exact ⟨rfl, rfl⟩
  have hm0 : m[0] ∈ m := List.getElem_mem h0
  have e0 : wrap32 (m[0].arrivals_tot + 1) = 1 := by
    rw [(hcell _ hm0).1]
    rfl
  refine ⟨?_, ?_, le_refl 1, le_refl 1, ?_⟩
  · intro c hc
    rcases List.mem_or_eq_of_mem_set hc with h1 | h1
    · obtain ⟨a, b⟩ := hcell c h1
      rw [a, b]
      norm_num
    · subst h1
      refine ⟨?_, ?_, ?_⟩
      · show 0 ≤ wrap32 (m[0].arrivals_tot + 1)
        rw [e0]
        norm_num
      · show (0 : ℚ) < m[0].oldp
        rw [(hcell _ hm0).2]
        norm_num
      · show m[0].oldp ≤ 1
        rw [(hcell _ hm0).2]
  · show sumTot _ = 1
    unfold sumTot
    rw [sum_map_set (fun c => c.arrivals_tot) m 0 m[0] _ (List.getElem?_eq_getElem h0)]
    have hz : (m.map fun c => c.arrivals_tot).sum = 0 := by
      apply List.sum_eq_zero
      intro x hx
      obtain ⟨y, hy, rfl⟩ := List.mem_map.mp hx
      exact (hcell y hy).1
    show (m.map fun c => c.arrivals_tot).sum - m[0].arrivals_tot
      + wrap32 (m[0].arrivals_tot + 1) = 1
    rw [e0, hz, (hcell _ hm0).1]
    norm_num
  · intro c hc hvis
    rcases List.mem_or_eq_of_mem_set hc with h1 | h1
    · rw [(hcell c h1).1] at hvis
      exact absurd hvis (lt_irrefl 0)
    · subst h1
      show m[0].oldp = ((wrap32 (m[0].arrivals_tot + 1) : ℤ) : ℚ) / ((1 : ℤ) : ℚ)
      rw [e0, (hcell _ hm0).2]
      norm_num

theorem gensFrom_ok (E : ℕ) (eps : ℚ) (draws : ℕ → ℚ) :
    ∀ (g : ℕ) (s : Sim), CursorOk s.states s.cur →
      ∃ t, gensFrom E eps draws g s = some t ∧ CursorOk t.states t.cur ∧
        t.states.length = s.states.length := by
  intro g
  induction g with
  | zero => intro s h; exact ⟨s, rfl, h, rfl⟩
  | succ g ih =>
    intro s h
    obtain ⟨u, hu, huok, htopo, -⟩ := generationStep_ok E eps draws s h
    obtain ⟨t, ht, htok, hlen⟩ := ih u huok
    have hl : u.states.length = s.states.length := by
      have := congrArg List.length htopo
      simpa using this
    exact ⟨t, by simp only [gensFrom, hu]; exact ht, htok, hlen.trans hl⟩

theorem visited_probabilities_sum (s : Sim) (B : ℤ) (h : TotCounted s B)
    (hall : ∀ c ∈ s.states, 0 < c.arrivals_tot) :
    (s.states.map fun c => c.oldp).sum = 1 := by
  obtain ⟨-, hsum, h1, -, hshare⟩ := h
  have hT : ((s.arrivals_tot : ℤ) : ℚ) ≠ 0 := by
    have : (0 : ℚ) < ((s.arrivals_tot : ℤ) : ℚ) := by exact_mod_cast (by omega : 0 < s.arrivals_tot)
    exact ne_of_gt this
  have e1 : (s.states.map fun c => c.oldp)
      = s.states.map fun c => ((c.arrivals_tot : ℤ) : ℚ) * ((s.arrivals_tot : ℤ) : ℚ)⁻¹ := by
    apply List.map_congr_left
    intro c hc
    rw [hshare c hc (hall c hc), div_eq_mul_inv]
  rw [e1, List.sum_map_mul_right]
  have e2 : (s.states.map fun c => ((c.arrivals_tot : ℤ) : ℚ)).sum
      = ((sumTot s.states : ℤ) : ℚ) := by
    unfold sumTot
    rw [Int.cast_list_sum, List.map_map]
    rfl
  rw [e2, hsum]
  exact mul_inv_cancel₀ hT

/-- On a run with `N ≥ 1`, `K ≥ 1` and `1 ≤ E < INT_MAX` no counter overflows: the
loop returns after `G ≥ 1` generations, and after every generation `g ≤ G` the
per-state totals add up to the scalar `arrivals_tot`, every cached probability lies
in `(0, 1]` and that of a visited state is its share of the arrivals. -/
theorem run_counted (p : Params) (draws : ℕ → ℚ) (hN : 1 ≤ p.N) (hK : 1 ≤ p.K)
    (hE1 : 1 ≤ p.events_per_gen) (hE : (p.events_per_gen : ℤ) < INT_MAX) :
    ∃ (G : ℕ) (r : Sim), 1 ≤ G ∧ simulate p draws = some r ∧
      afterGens p draws G = some r ∧
      ∀ g : ℕ, g ≤ G → ∃ t, afterGens p draws g = some t ∧
        TotCounted t (1 + (g : ℤ) * p.events_per_gen) := by
  obtain ⟨s, hs, hok, hgen, -, -, -⟩ := startSim_ok p hN hK
  have hs1 := startSim_counted p s hN hK hs
  have hmax := clampMaxGens_le p.max_gens p.events_per_gen hE1
  obtain ⟨k, r, hk, hr, hgr, -, hbefore, -⟩ :=
    doWhile_spec p.events_per_gen p.eps (clampMaxGens p.max_gens p.events_per_gen) draws hmax
      (clampMaxGens p.max_gens p.events_per_gen).toNat s hok (by omega)
      (by rw [hgen]; unfold INT_MAX; norm_num) (by rw [hgen]; omega)
  have hEpos : (0 : ℤ) < p.events_per_gen := by exact_mod_cast hE1
  -- the event budget of the whole run fits in an `int`
  have hbound : 1 + (k : ℤ) * p.events_per_gen ≤ INT_MAX := by
    by_cases hk1 : k = 1
    · subst hk1
      push_cast
      omega
    · obtain ⟨-, -, -, hlt⟩ := hbefore (k - 1) (by omega) (by omega)
      rw [hgen, zero_add] at hlt
      have hcl : clampMaxGens p.max_gens p.events_per_gen
          ≤ INT_MAX / (p.events_per_gen : ℤ) - 1 := min_le_right _ _
      have hk' : ((k - 1 : ℕ) : ℤ) = (k : ℤ) - 1 := by
        have : 1 ≤ k := hk
        push_cast [Nat.cast_sub this]
        ring
      rw [hk'] at hlt
      have h2 : (k : ℤ) + 1 ≤ INT_MAX / (p.events_per_gen : ℤ) := by omega
      have h3 : INT_MAX / (p.events_per_gen : ℤ) * p.events_per_gen ≤ INT_MAX :=
        Int.ediv_mul_le _ (ne_of_gt hEpos)
      have h4 : ((k : ℤ) + 1) * p.events_per_gen
          ≤ INT_MAX / (p.events_per_gen : ℤ) * p.events_per_gen :=
        mul_le_mul_of_nonneg_right h2 (le_of_lt hEpos)
      nlinarith
  refine ⟨k, r, hk, by simp only [simulate, hs, Option.bind]; exact hr,
    by simp only [afterGens, hs, Option.bind]; exact hgr, ?_⟩
  intro g hg
  obtain ⟨t, ht, -, -⟩ := gensFrom_ok p.events_per_gen p.eps draws g s hok
  refine ⟨t, by simp only [afterGens, hs, Option.bind]; exact ht, ?_⟩
  have hgk : (g : ℤ) * p.events_per_gen ≤ (k : ℤ) * p.events_per_gen :=
    mul_le_mul_of_nonneg_right (by exact_mod_cast hg) (le_of_lt hEpos)
  exact gensFrom_counted p.events_per_gen p.eps draws g s t 1 hs1 (by omega) ht

/-! ## A run in which the scalar `arrivals_tot` overflows -/

theorem eventsLoop_selfloop (draws : ℕ → ℚ) (a b : state_t) (hb : b.probup = 1)
    (hup : b.next_up = some 1) :
    ∀ (n : ℕ) (g k : ℤ) (d : ℕ), 0 ≤ g → g + n ≤ INT_MAX → 0 ≤ k → k + n ≤ INT_MAX →
      eventsLoop draws n
        { states := [a, { b with arrivals_gen := g }], cur := some 1, arrivals_gen := k,
          drawn := d }
      = some { states := [a, { b with arrivals_gen := g + n }], cur := some 1,
               arrivals_gen := k + n, drawn := d } := by
  intro n
  induction n with
  | zero =>
    intro g k d _ _ _ _
    simp [eventsLoop]
  | succ n ih =>
    intro g k d hg0 hg hk0 hk
    push_cast at hg hk
    have e1 : wrap32 (g + 1) = g + 1 := wrap32_of_range (by omega) (by omega)
    have e2 : wrap32 (k + 1) = k + 1 := wrap32_of_range (by omega) (by omega)
    have hstep : walkerStep draws
        { states := [a, { b with arrivals_gen := g }], cur := some 1, arrivals_gen := k,
          drawn := d }
        = some { states := [a, { b with arrivals_gen := g + 1 }], cur := some 1,
                 arrivals_gen := k + 1, drawn := d } := by
      simp [walkerStep, hb, hup, e1, e2]
    simp only [eventsLoop, hstep]
    rw [ih (g + 1) (k + 1) d (by omega) (by omega) (by omega) (by omega)]
    push_cast
    simp only [add_assoc, add_comm (1 : ℤ)]

/-- The state before the first generation for `N = 1`, `K = 1`, `λ = 1`, `μ = 0`. -/
theorem startSim_one_one (E : ℕ) (G : ℤ) (eps : ℚ) :
    startSim ⟨1, 1, 1, 0, E, G, eps⟩ = some
      { states := [{ probup := 1, next_up := some 1, next_down := none, arrivals_gen := 0,
                     arrivals_tot := 1, oldp := 1 },
                   { probup := 1, next_up := some 1, next_down := none, arrivals_gen := 0,
                     arrivals_tot := 0, oldp := 1 }]
        cur := some 1, arrivals_tot := 1, generation := 0, conv := 0, drawn := 0 } := by
  simp [startSim, buildStates, store, forLoop, initCell, fresh, List.replicate, initSim,
    wrap32]

theorem generation_overflow (n : ℕ) (hn : (n : ℤ) = 2147483647) (eps : ℚ) (draws : ℕ → ℚ) :
    generationStep n eps draws
      { states := [{ probup := 1, next_up := some 1, next_down := none, arrivals_gen := 0,
                     arrivals_tot := 1, oldp := 1 },
                   { probup := 1, next_up := some 1, next_down := none, arrivals_gen := 0,
                     arrivals_tot := 0, oldp := 1 }]
        cur := some 1, arrivals_tot := 1, generation := 0, conv := 0, drawn := 0 }
    = some
      { states := [{ probup := 1, next_up := some 1, next_down := none, arrivals_gen := 0,
                     arrivals_tot := 1, oldp := 1 / (-2147483648) },
                   { probup := 1, next_up := some 1, next_down := none,
                     arrivals_gen := 2147483647, arrivals_tot := 2147483647,
                     oldp := 2147483647 / (-2147483648) }]
        cur := some 1, arrivals_tot := -2147483648, generation := 1
        conv := 4294967295 / 2147483648, drawn := 0 } := by
  have hrun := eventsLoop_selfloop draws
    { probup := 1, next_up := some 1, next_down := none, arrivals_gen := 0,
      arrivals_tot := 1, oldp := 1 }
    { probup := 1, next_up := some 1, next_down := none, arrivals_gen := 0,
      arrivals_tot := 0, oldp := 1 } rfl rfl n 0 0 0 (le_refl 0)
    (by rw [hn]; unfold INT_MAX; norm_num) (le_refl 0) (by rw [hn]; unfold INT_MAX; norm_num)
  rw [hn] at hrun
  have hgen := @generationStep_of_run n eps draws
    { states := [{ probup := 1, next_up := some 1, next_down := none, arrivals_gen := 0,
                   arrivals_tot := 1, oldp := 1 },
                 { probup := 1, next_up := some 1, next_down := none, arrivals_gen := 0,
                   arrivals_tot := 0, oldp := 1 }]
      cur := some 1, arrivals_tot := 1, generation := 0, conv := 0, drawn := 0 } _ hrun
  rw [hgen]
  simp only [zero_add, List.map, settleLoop, settleCell, wrap32]
  norm_num
  rw [abs_of_pos (show (0 : ℚ) < 2147483649 / 2147483648 by norm_num),
    abs_of_pos (show (0 : ℚ) < 4294967295 / 2147483648 by norm_num)]
  exact max_eq_right (by norm_num)

theorem simulate_overflow (n : ℕ) (hn : (n : ℤ) = 2147483647) (G : ℤ) (eps : ℚ)
    (draws : ℕ → ℚ) (hG : 0 ≤ G) :
    simulate ⟨1, 1, 1, 0, n, G, eps⟩ draws = some
      { states := [{ probup := 1, next_up := some 1, next_down := none, arrivals_gen := 0,
                     arrivals_tot := 1, oldp := 1 / (-2147483648) },
                   { probup := 1, next_up := some 1, next_down := none,
                     arrivals_gen := 2147483647, arrivals_tot := 2147483647,
                     oldp := 2147483647 / (-2147483648) }]
        cur := some 1, arrivals_tot := -2147483648, generation := 1
        conv := 4294967295 / 2147483648, drawn := 0 } := by
  have hclamp : clampMaxGens G n = 0 := by
    unfold clampMaxGens INT_MAX
    rw [hn]
    norm_num
    exact hG
  simp only [simulate, startSim_one_one, hclamp, Option.bind]
  unfold doWhile
  simp only [generation_overflow n hn]
  norm_num

/-! ## The number of generations of a run -/

theorem simulate_passes (p : Params) (draws : ℕ → ℚ) (hN : 1 ≤ p.N) (hK : 1 ≤ p.K)
    (hE : 1 ≤ p.events_per_gen) :
    ∃ (G : ℕ) (s r : Sim), startSim p = some s ∧ CursorOk s.states s.cur ∧ 1 ≤ G ∧
      simulate p draws = some r ∧
      gensFrom p.events_per_gen p.eps draws G s = some r ∧
      afterGens p draws G = some r ∧ r.generation = (G : ℤ) ∧
      (G = 1 ∨ (G : ℤ) ≤ clampMaxGens p.max_gens p.events_per_gen) ∧
      (∀ j : ℕ, 1 ≤ j → j < G →
        ∃ t, gensFrom p.events_per_gen p.eps draws j s = some t ∧ p.eps ≤ t.conv) ∧
      (r.conv < p.eps ∨ clampMaxGens p.max_gens p.events_per_gen ≤ (G : ℤ)) := by
  obtain ⟨s, hs, hok, hgen, -, -, -⟩ := startSim_ok p hN hK
  have hmax := clampMaxGens_le p.max_gens p.events_per_gen hE
  obtain ⟨k, r, hk, hr, hgr, hrg, hbefore, hlast⟩ :=
    doWhile_spec p.events_per_gen p.eps (clampMaxGens p.max_gens p.events_per_gen) draws hmax
      (clampMaxGens p.max_gens p.events_per_gen).toNat s hok (by omega)
      (by rw [hgen]; unfold INT_MAX; norm_num) (by rw [hgen]; omega)
  rw [hgen, zero_add] at hrg
  refine ⟨k, s, r, hs, hok, hk, ?_, hgr, ?_, hrg, ?_, ?_, ?_⟩
  · simp only [simulate, hs, Option.bind]
    exact hr
  · simp only [afterGens, hs, Option.bind]
    exact hgr
  · by_cases hk1 : k = 1
    · exact Or.inl hk1
    · right
      obtain ⟨-, -, -, hlt⟩ := hbefore (k - 1) (by omega) (by omega)
      rw [hgen, zero_add] at hlt
      have hk' : ((k - 1 : ℕ) : ℤ) = (k : ℤ) - 1 := by
        have : 1 ≤ k := hk
        push_cast [Nat.cast_sub this]
        ring
      rw [hk'] at hlt
      omega
  · intro j hj1 hj2
    obtain ⟨t, ht, hconv, -⟩ := hbefore j hj1 hj2
    exact ⟨t, ht, hconv⟩
  · rw [← hrg]
    exact hlast

theorem clamp_mul_le (max_gens : ℤ) (E : ℕ) (hE : 1 ≤ E) :
    (clampMaxGens max_gens E + 1) * (E : ℤ) ≤ INT_MAX := by
  have hEpos : (0 : ℤ) < E := by exact_mod_cast hE
  have hcl : clampMaxGens max_gens E ≤ INT_MAX / (E : ℤ) - 1 := min_le_right _ _
  have h3 : INT_MAX / (E : ℤ) * E ≤ INT_MAX := Int.ediv_mul_le _ (ne_of_gt hEpos)
  have h4 : (clampMaxGens max_gens E + 1) * (E : ℤ) ≤ INT_MAX / (E : ℤ) * E :=
    mul_le_mul_of_nonneg_right (by omega) (le_of_lt hEpos)
  omega

/-! ## Lemmas on the rounding to `double` -/

theorem floor_le_rne (x : ℚ) : ⌊x⌋ ≤ rne x := by
  unfold rne
  split_ifs <;> omega

theorem rne_le_floor_succ (x : ℚ) : rne x ≤ ⌊x⌋ + 1 := by
  unfold rne
  split_ifs <;> omega

theorem rne_intCast (n : ℤ) : rne (n : ℚ) = n := by
  unfold rne
  rw [Int.floor_intCast, sub_self, if_pos (by norm_num)]

theorem rne_mono {x y : ℚ} (h : x ≤ y) : rne x ≤ rne y := by
  have hf : ⌊x⌋ ≤ ⌊y⌋ := Int.floor_mono h
  rcases lt_or_eq_of_le hf with hlt | heq
  · have h1 := rne_le_floor_succ x
    have h2 := floor_le_rne y
    omega
  · unfold rne
    rw [← heq]
    split_ifs <;> first
      | omega
      | (exfalso; linarith)

theorem rne_near (x : ℚ) : |(rne x : ℚ) - x| ≤ 1 / 2 := by
  have h1 := Int.floor_le x
  have h2 := Int.lt_floor_add_one x
  rw [abs_le]
  unfold rne
  split_ifs with a b c
  · constructor <;> linarith
  · push_cast
    constructor <;> linarith
  · constructor <;> linarith
  · push_cast
    constructor <;> linarith

theorem two_zpow_log_le {x : ℚ} (hx : 0 < x) : (2 : ℚ) ^ Int.log 2 x ≤ x := by
  have h := @Int.zpow_log_le_self ℚ _ _ 2 x (by norm_num) hx
  exact_mod_cast h

theorem lt_two_zpow_log_succ (x : ℚ) : x < (2 : ℚ) ^ (Int.log 2 x + 1) := by
  have h := @Int.lt_zpow_succ_log_self ℚ _ _ 2 (by norm_num) x
  exact_mod_cast h

theorem log_eq_of_binade {x : ℚ} {e : ℤ} (h1 : (2 : ℚ) ^ e ≤ x) (h2 : x < (2 : ℚ) ^ (e + 1)) :
    Int.log 2 x = e := by
  have hx : 0 < x := lt_of_lt_of_le (zpow_pos (by norm_num) e) h1
  have a : e ≤ Int.log 2 x :=
    (@Int.zpow_le_iff_le_log ℚ _ _ 2 (by norm_num) e x hx).mp (by exact_mod_cast h1)
  have b : Int.log 2 x < e + 1 :=
    (@Int.lt_zpow_iff_log_lt ℚ _ _ 2 (by norm_num) (e + 1) x hx).mp (by exact_mod_cast h2)
  omega

theorem ulp_pos (x : ℚ) : 0 < ulp x := zpow_pos (by norm_num) _

theorem ulp_eq {x : ℚ} (hx : 0 < x) : ulp x = (2 : ℚ) ^ Int.log 2 x / 2 ^ 52 := by
  unfold ulp
  rw [abs_of_pos hx, zpow_sub₀ (by norm_num : (2 : ℚ) ≠ 0)]
  norm_num

theorem ulp_le {x : ℚ} (hx : 0 < x) : ulp x ≤ x / 2 ^ 52 := by
  rw [ulp_eq hx]
  exact div_le_div_of_nonneg_right (two_zpow_log_le hx) (by norm_num)

theorem roundDouble_near (x : ℚ) : |roundDouble x - x| ≤ ulp x / 2 := by
  have hu := ulp_pos x
  have h := rne_near (x / ulp x)
  have e : roundDouble x - x = ((rne (x / ulp x) : ℚ) - x / ulp x) * ulp x := by
    unfold roundDouble
    field_simp
  rw [e, abs_mul, abs_of_pos hu]
  calc |(rne (x / ulp x) : ℚ) - x / ulp x| * ulp x ≤ 1 / 2 * ulp x :=
        mul_le_mul_of_nonneg_right h (le_of_lt hu)
    _ = ulp x / 2 := by ring

theorem roundDouble_ge_binade {x : ℚ} (hx : 0 < x) : (2 : ℚ) ^ Int.log 2 x ≤ roundDouble x := by
  have hP : (0 : ℚ) < (2 : ℚ) ^ Int.log 2 x := zpow_pos (by norm_num) _
  have hle := two_zpow_log_le hx
  have hu := ulp_pos x
  have hq : (((2 ^ 52 : ℤ)) : ℚ) ≤ x / ulp x := by
    rw [le_div_iff₀ hu, ulp_eq hx]
    push_cast
    have : (2 : ℚ) ^ 52 * ((2 : ℚ) ^ Int.log 2 x / 2 ^ 52) = (2 : ℚ) ^ Int.log 2 x := by
      field_simp
    linarith
  have hr : (2 ^ 52 : ℤ) ≤ rne (x / ulp x) := by
    have := rne_mono hq
    rwa [rne_intCast] at this
  have hr' : ((2 : ℚ) ^ 52) ≤ (rne (x / ulp x) : ℚ) := by exact_mod_cast hr
  unfold roundDouble
  calc (2 : ℚ) ^ Int.log 2 x = (2 : ℚ) ^ 52 * ulp x := by rw [ulp_eq hx]; field_simp
    _ ≤ (rne (x / ulp x) : ℚ) * ulp x := mul_le_mul_of_nonneg_right hr' (le_of_lt hu)

theorem roundDouble_le_binade {x : ℚ} (hx : 0 < x) :
    roundDouble x ≤ (2 : ℚ) ^ (Int.log 2 x + 1) := by
  have hP : (0 : ℚ) < (2 : ℚ) ^ Int.log 2 x := zpow_pos (by norm_num) _
  have hlt := lt_two_zpow_log_succ x
  rw [zpow_add_one₀ (by norm_num : (2 : ℚ) ≠ 0)] at hlt ⊢
  have hu := ulp_pos x
  have hq : x / ulp x ≤ (((2 ^ 53 : ℤ)) : ℚ) := by
    rw [div_le_iff₀ hu, ulp_eq hx]
    push_cast
    have : (2 : ℚ) ^ 53 * ((2 : ℚ) ^ Int.log 2 x / 2 ^ 52) = (2 : ℚ) ^ Int.log 2 x * 2 := by
      field_simp
      ring
    linarith
  have hr : rne (x / ulp x) ≤ (2 ^ 53 : ℤ) := by
    have := rne_mono hq
    rwa [rne_intCast] at this
  have hr' : (rne (x / ulp x) : ℚ) ≤ (2 : ℚ) ^ 53 := by exact_mod_cast hr
  unfold roundDouble
  calc (rne (x / ulp x) : ℚ) * ulp x ≤ (2 : ℚ) ^ 53 * ulp x :=
        mul_le_mul_of_nonneg_right hr' (le_of_lt hu)
    _ = (2 : ℚ) ^ Int.log 2 x * 2 := by rw [ulp_eq hx]; field_simp; ring

theorem roundDouble_pos {x : ℚ} (hx : 0 < x) : 0 < roundDouble x :=
  lt_of_lt_of_le (zpow_pos (by norm_num) _) (roundDouble_ge_binade hx)

theorem roundDouble_mono {x y : ℚ} (hx : 0 < x) (h : x ≤ y) : roundDouble x ≤ roundDouble y := by
  have hy : 0 < y := lt_of_lt_of_le hx h
  have hlog : Int.log 2 x ≤ Int.log 2 y := Int.log_mono_right hx h
  rcases lt_or_eq_of_le hlog with hlt | heq
  · calc roundDouble x ≤ (2 : ℚ) ^ (Int.log 2 x + 1) := roundDouble_le_binade hx
      _ ≤ (2 : ℚ) ^ Int.log 2 y := zpow_le_zpow_right₀ (by norm_num) (by omega)
      _ ≤ roundDouble y := roundDouble_ge_binade hy
  · have hu : ulp x = ulp y := by
      unfold ulp
      rw [abs_of_pos hx, abs_of_pos hy, heq]
    unfold roundDouble
    rw [hu]
    have hup := ulp_pos y
    apply mul_le_mul_of_nonneg_right _ (le_of_lt hup)
    have : rne (x / ulp y) ≤ rne (y / ulp y) :=
      rne_mono (div_le_div_of_nonneg_right h (le_of_lt hup))
    exact_mod_cast this

/-- The rounded sum `eps + 1` of line 208 is not below a `double` `eps ≥ 0`. -/
theorem dadd_one_ge {eps : ℚ} (h0 : 0 ≤ eps) (hd : roundDouble eps = eps) :
    eps ≤ dadd eps 1 := by
  unfold dadd
  rcases lt_or_eq_of_le h0 with hpos | hz
  · calc eps = roundDouble eps := hd.symm
      _ ≤ roundDouble (eps + 1) := roundDouble_mono hpos (by linarith)
  · rw [← hz]
    exact le_of_lt (roundDouble_pos (by norm_num))

/-- Below `2^53` the rounded sum `eps + 1` exceeds `eps`. -/
theorem dadd_one_gt {eps : ℚ} (h0 : 0 ≤ eps) (h : eps < 2 ^ 53) : eps < dadd eps 1 := by
  unfold dadd
  have hx : 0 < eps + 1 := by linarith
  by_cases hc : eps + 1 < 2 ^ 53
  · have hlog : Int.log 2 (eps + 1) < 53 :=
      (@Int.lt_zpow_iff_log_lt ℚ _ _ 2 (by norm_num) 53 (eps + 1) hx).mp (by
        norm_num
        linarith)
    have hu : ulp (eps + 1) ≤ 1 := by
      unfold ulp
      rw [abs_of_pos hx]
      have : (2 : ℚ) ^ (Int.log 2 (eps + 1) - 52) ≤ (2 : ℚ) ^ (0 : ℤ) :=
        zpow_le_zpow_right₀ (by norm_num) (by omega)
      simpa using this
    have hn := (abs_le.mp (roundDouble_near (eps + 1))).1
    linarith
  · have hlog : (53 : ℤ) ≤ Int.log 2 (eps + 1) :=
      (@Int.zpow_le_iff_le_log ℚ _ _ 2 (by norm_num) 53 (eps + 1) hx).mp (by
        norm_num
        linarith)
    have h1 : (2 : ℚ) ^ (53 : ℤ) ≤ (2 : ℚ) ^ Int.log 2 (eps + 1) :=
      zpow_le_zpow_right₀ (by norm_num) hlog
    have h2 := roundDouble_ge_binade hx
    have h3 : (2 : ℚ) ^ (53 : ℤ) = 2 ^ 53 := by norm_num
    linarith

/-- Evaluation of `roundDouble` in a known binade. -/
theorem roundDouble_of_binade {x : ℚ} (e n : ℤ) (h1 : (2 : ℚ) ^ e ≤ x)
    (h2 : x < (2 : ℚ) ^ (e + 1)) (hn : rne (x / (2 : ℚ) ^ (e - 52)) = n) :
    roundDouble x = (n : ℚ) * (2 : ℚ) ^ (e - 52) := by
  have hx : 0 < x := lt_of_lt_of_le (zpow_pos (by norm_num) e) h1
  unfold roundDouble ulp
  rw [abs_of_pos hx, log_eq_of_binade h1 h2, hn]

theorem rne_of_lt_half {x : ℚ} (n : ℤ) (h1 : (n : ℚ) ≤ x) (h2 : x - n < 1 / 2) : rne x = n := by
  have hf : ⌊x⌋ = n := Int.floor_eq_iff.mpr ⟨h1, by linarith⟩
  unfold rne
  rw [hf, if_pos h2]

theorem rne_of_tie_even {x : ℚ} (n : ℤ) (h : x - n = 1 / 2) (he : n % 2 = 0) : rne x = n := by
  have hf : ⌊x⌋ = n := Int.floor_eq_iff.mpr ⟨by linarith, by linarith⟩
  unfold rne
  rw [hf, if_neg (by rw [h]; exact lt_irrefl _), if_neg (by rw [h]; exact lt_irrefl _),
    if_pos he]

theorem roundDouble_zero : roundDouble 0 = 0 := by
  unfold roundDouble
  rw [zero_div]
  have : rne (0 : ℚ) = 0 := by
    have := rne_intCast 0
    simpa using this
  rw [this]
  simp

theorem roundDouble_one : roundDouble 1 = 1 := by
  rw [roundDouble_of_binade 0 (2 ^ 52) (by norm_num) (by norm_num)
    (rne_of_lt_half _ (by norm_num) (by norm_num))]
  norm_num

theorem roundDouble_two_pow_53 : roundDouble 9007199254740992 = 9007199254740992 := by
  rw [roundDouble_of_binade 53 (2 ^ 52) (by norm_num) (by norm_num)
    (rne_of_lt_half _ (by norm_num) (by norm_num))]
  norm_num

theorem roundDouble_two_pow_53_succ : roundDouble 9007199254740993 = 9007199254740992 := by
  rw [roundDouble_of_binade 53 (2 ^ 52) (by norm_num) (by norm_num)
    (rne_of_tie_even _ (by norm_num) (by norm_num))]
  norm_num

theorem roundDouble_third : roundDouble (1 / 3) = 6004799503160661 / 18014398509481984 := by
  rw [roundDouble_of_binade (-2) 6004799503160661 (by norm_num) (by norm_num)
    (rne_of_lt_half _ (by norm_num) (by norm_num))]
  norm_num

theorem roundDouble_sixth : roundDouble (1 / 6) = 6004799503160661 / 36028797018963968 := by
  rw [roundDouble_of_binade (-3) 6004799503160661 (by norm_num) (by norm_num)
    (rne_of_lt_half _ (by norm_num) (by norm_num))]
  norm_num

/-! ## Lemmas on the rounded settle phase and the rounded run -/

theorem frozen_nonneg {m m' : Mem} (h : m'.map frozen = m.map frozen)
    (hall : ∀ c ∈ m, 0 ≤ c.arrivals_tot) : ∀ c ∈ m', 0 ≤ c.arrivals_tot := by
  intro c hc
  have : frozen c ∈ m.map frozen := by
    rw [← h]
    exact List.mem_map_of_mem frozen hc
  obtain ⟨c', hc', e⟩ := List.mem_map.mp this
  have e1 : c'.arrivals_tot = c.arrivals_tot := congrArg Prod.fst e
  rw [← e1]
  exact hall c' hc'

theorem settleLoopDbl_states (tot : ℤ) (eps : ℚ) :
    ∀ (m : Mem) (c : ℚ), (settleLoopDbl tot eps m c).1 = m.map (settleCellDbl tot) := by
  intro m
  induction m with
  | nil => intro c; rfl
  | cons s rest ih =>
    intro c
    by_cases h : 0 < wrap32 (s.arrivals_tot + s.arrivals_gen)
    · simp only [settleLoopDbl, if_pos h, List.map_cons, settleCellDbl, ih]
    · simp only [settleLoopDbl, if_neg h, List.map_cons, settleCellDbl, ih]

theorem settleLoopDbl_conv_floor (tot : ℤ) (eps : ℚ) :
    ∀ (m : Mem) (c : ℚ), dadd eps 1 ≤ c → dadd eps 1 ≤ (settleLoopDbl tot eps m c).2 := by
  intro m
  induction m with
  | nil => intro c hc; exact hc
  | cons s rest ih =>
    intro c hc
    by_cases h : 0 < wrap32 (s.arrivals_tot + s.arrivals_gen)
    · simp only [settleLoopDbl, if_pos h]
      exact ih _ (le_trans hc (le_max_left _ _))
    · simp only [settleLoopDbl, if_neg h]
      exact ih _ (le_refl _)

theorem settleLoopDbl_conv_unvisited (tot : ℤ) (eps : ℚ) :
    ∀ (m : Mem) (c : ℚ), (∃ s ∈ m, ¬ 0 < wrap32 (s.arrivals_tot + s.arrivals_gen)) →
      dadd eps 1 ≤ (settleLoopDbl tot eps m c).2 := by
  intro m
  induction m with
  | nil => rintro c ⟨s, hs, -⟩; cases hs
  | cons s rest ih =>
    rintro c ⟨x, hx, hxu⟩
    by_cases h : 0 < wrap32 (s.arrivals_tot + s.arrivals_gen)
    · simp only [settleLoopDbl, if_pos h]
      rcases List.mem_cons.mp hx with e | hmem
      · subst e; exact absurd h hxu
      · exact ih _ ⟨x, hmem, hxu⟩
    · simp only [settleLoopDbl, if_neg h]
      exact settleLoopDbl_conv_floor tot eps rest _ (le_refl _)

theorem generationStepDbl_of_run {E : ℕ} {eps : ℚ} {draws : ℕ → ℚ} {s : Sim} {w : Walk}
    (hrun : eventsLoop draws E
      { states := clearGen s.states, cur := s.cur, arrivals_gen := 0, drawn := s.drawn }
        = some w) :
    generationStepDbl E eps draws s = some
      { states := w.states.map (settleCellDbl (wrap32 (s.arrivals_tot + w.arrivals_gen)))
        cur := w.cur
        arrivals_tot := wrap32 (s.arrivals_tot + w.arrivals_gen)
        generation := wrap32 (s.generation + 1)
        conv := (settleLoopDbl (wrap32 (s.arrivals_tot + w.arrivals_gen)) eps w.states 0).2
        drawn := w.drawn } := by
  simp only [generationStepDbl, hrun, settleLoopDbl_states]

theorem topo_settleCellDbl (tot : ℤ) (s : state_t) : topo (settleCellDbl tot s) = topo s := by
  unfold settleCellDbl
  split_ifs <;> rfl

theorem generationStepDbl_ok (E : ℕ) (eps : ℚ) (draws : ℕ → ℚ) (s : Sim)
    (h : CursorOk s.states s.cur) :
    ∃ t, generationStepDbl E eps draws s = some t ∧ CursorOk t.states t.cur ∧
      t.states.map topo = s.states.map topo ∧
      t.generation = wrap32 (s.generation + 1) := by
  have hclear : (clearGen s.states).map topo = s.states.map topo :=
    map_topo_map (fun _ => rfl)
  have hlen : (clearGen s.states).length = s.states.length := by simp [clearGen]
  have h0 : CursorOk (clearGen s.states) s.cur := by
    obtain ⟨hc, c, hcur, hcl⟩ := h
    exact ⟨closed_of_topo_eq hclear hc, c, hcur, by rw [hlen]; exact hcl⟩
  obtain ⟨w, hw, ⟨hwc, c, hwcur, hwl⟩, hwt⟩ := eventsLoop_ok draws E
    { states := clearGen s.states, cur := s.cur, arrivals_gen := 0, drawn := s.drawn } h0
  have ht : (w.states.map (settleCellDbl (wrap32 (s.arrivals_tot + w.arrivals_gen)))).map topo
      = w.states.map topo := map_topo_map (topo_settleCellDbl _)
  refine ⟨_, generationStepDbl_of_run hw, ⟨closed_of_topo_eq ht hwc, c, hwcur, ?_⟩, ?_, rfl⟩
  · simpa using hwl
  · exact ht.trans (hwt.trans hclear)

theorem doWhileDbl_spec (E : ℕ) (eps : ℚ) (max_gens : ℤ) (draws : ℕ → ℚ)
    (hmax : max_gens < INT_MAX) :
    ∀ (fuel : ℕ) (s : Sim), CursorOk s.states s.cur → 0 ≤ s.generation →
      s.generation < INT_MAX → (max_gens - (s.generation + 1)).toNat ≤ fuel →
      ∃ (k : ℕ) (r : Sim), 1 ≤ k ∧ doWhileDbl E eps max_gens draws fuel s = some r ∧
        gensFromDbl E eps draws k s = some r ∧ r.generation = s.generation + k ∧
        (∀ j : ℕ, 1 ≤ j → j < k → ∃ t, gensFromDbl E eps draws j s = some t ∧
          eps ≤ t.conv ∧ s.generation + (j : ℤ) < max_gens) ∧
        (r.conv < eps ∨ max_gens ≤ r.generation) := by
  intro fuel
  induction fuel with
  | zero =>
    intro s hs h0 h1 hf
    obtain ⟨t, ht, -, -, hg⟩ := generationStepDbl_ok E eps draws s hs
    have hg' : t.generation = s.generation + 1 := by
      rw [hg]
      exact wrap32_of_range (by omega) (by omega)
    have hstop : ¬ (eps ≤ t.conv ∧ t.generation < max_gens) := by
      rintro ⟨-, h⟩
      rw [hg'] at h
      have : 0 < (max_gens - (s.generation + 1)).toNat := by omega
      omega
    refine ⟨1, t, le_refl 1, ?_, ?_, ?_, ?_, ?_⟩
    · unfold doWhileDbl
      simp only [ht, if_neg hstop]
    · simp only [gensFromDbl, ht]
    · rw [hg']; norm_num
    · intro j hj1 hj2; omega
    · by_cases hc : eps ≤ t.conv
      · right
        exact not_lt.mp (fun h => hstop ⟨hc, h⟩)
      · left
        exact not_le.mp hc
  | succ f ih =>
    intro s hs h0 h1 hf
    obtain ⟨t, ht, htok, -, hg⟩ := generationStepDbl_ok E eps draws s hs
    have hg' : t.generation = s.generation + 1 := by
      rw [hg]
      exact wrap32_of_range (by omega) (by omega)
    by_cases hcont : eps ≤ t.conv ∧ t.generation < max_gens
    · have hlt : t.generation < INT_MAX := lt_trans hcont.2 hmax
      obtain ⟨k, r, hk, hr, hgr, hrg, hbefore, hlast⟩ :=
        ih t htok (by omega) hlt (by rw [hg']; omega)
      refine ⟨k + 1, r, by omega, ?_, ?_, ?_, ?_, hlast⟩
      · unfold doWhileDbl
        simp only [ht, if_pos hcont]
        exact hr
      · simp only [gensFromDbl, ht]
        exact hgr
      · rw [hrg, hg']; push_cast; ring
      · intro j hj1 hj2
        by_cases hj : j = 1
        · subst hj
          refine ⟨t, by simp only [gensFromDbl, ht], hcont.1, ?_⟩
          have := hcont.2
          rw [hg'] at this
          exact_mod_cast this
        · obtain ⟨i, rfl⟩ : ∃ i, j = i + 1 := ⟨j - 1, by omega⟩
          obtain ⟨u, hu, hconv, hlt⟩ := hbefore i (by omega) (by omega)
          refine ⟨u, by simp only [gensFromDbl, ht]; exact hu, hconv, ?_⟩
          rw [hg'] at hlt
          push_cast
          omega
    · refine ⟨1, t, le_refl 1, ?_, ?_, ?_, ?_, ?_⟩
      · unfold doWhileDbl
        simp only [ht, if_neg hcont]
      · simp only [gensFromDbl, ht]
      · rw [hg']; norm_num
      · intro j hj1 hj2; omega
      · by_cases hc : eps ≤ t.conv
        · right
          exact not_lt.mp (fun h => hcont ⟨hc, h⟩)
        · left
          exact not_le.mp hc

theorem gensFromDbl_ok (E : ℕ) (eps : ℚ) (draws : ℕ → ℚ) :
    ∀ (g : ℕ) (s : Sim), CursorOk s.states s.cur →
      ∃ t, gensFromDbl E eps draws g s = some t ∧ CursorOk t.states t.cur ∧
        t.states.length = s.states.length := by
  intro g
  induction g with
  | zero => intro s h; exact ⟨s, rfl, h, rfl⟩
  | succ g ih =>
    intro s h
    obtain ⟨u, hu, huok, htopo, -⟩ := generationStepDbl_ok E eps draws s h
    obtain ⟨t, ht, htok, hlen⟩ := ih u huok
    have hl : u.states.length = s.states.length := by
      have := congrArg List.length htopo
      simpa using this
    exact ⟨t, by simp only [gensFromDbl, hu]; exact ht, htok, hlen.trans hl⟩

theorem simulateDbl_passes (p : Params) (draws : ℕ → ℚ) (hN : 1 ≤ p.N) (hK : 1 ≤ p.K)
    (hE : 1 ≤ p.events_per_gen) :
    ∃ (G : ℕ) (s r : Sim), startSim p = some s ∧ CursorOk s.states s.cur ∧ 1 ≤ G ∧
      simulateDbl p draws = some r ∧
      gensFromDbl p.events_per_gen p.eps draws G s = some r ∧
      afterGensDbl p draws G = some r ∧ r.generation = (G : ℤ) ∧
      (G = 1 ∨ (G : ℤ) ≤ clampMaxGens p.max_gens p.events_per_gen) ∧
      (∀ j : ℕ, 1 ≤ j → j < G →
        ∃ t, gensFromDbl p.events_per_gen p.eps draws j s = some t ∧ p.eps ≤ t.conv) ∧
      (r.conv < p.eps ∨ clampMaxGens p.max_gens p.events_per_gen ≤ (G : ℤ)) := by
  obtain ⟨s, hs, hok, hgen, -, -, -⟩ := startSim_ok p hN hK
  have hmax := clampMaxGens_le p.max_gens p.events_per_gen hE
  obtain ⟨k, r, hk, hr, hgr, hrg, hbefore, hlast⟩ :=
    doWhileDbl_spec p.events_per_gen p.eps (clampMaxGens p.max_gens p.events_per_gen) draws hmax
      (clampMaxGens p.max_gens p.events_per_gen).toNat s hok (by omega)
      (by rw [hgen]; unfold INT_MAX; norm_num) (by rw [hgen]; omega)
  rw [hgen, zero_add] at hrg
  refine ⟨k, s, r, hs, hok, hk, ?_, hgr, ?_, hrg, ?_, ?_, ?_⟩
  · simp only [simulateDbl, hs, Option.bind]
    exact hr
  · simp only [afterGensDbl, hs, Option.bind]
    exact hgr
  · by_cases hk1 : k = 1
    · exact Or.inl hk1
    · right
      obtain ⟨-, -, -, hlt⟩ := hbefore (k - 1) (by omega) (by omega)
      rw [hgen, zero_add] at hlt
      have hk' : ((k - 1 : ℕ) : ℤ) = (k : ℤ) - 1 := by
        have : 1 ≤ k := hk
        push_cast [Nat.cast_sub this]
        ring
      rw [hk'] at hlt
      omega
  · intro j hj1 hj2
    obtain ⟨t, ht, hconv, -⟩ := hbefore j hj1 hj2
    exact ⟨t, ht, hconv⟩
  · rw [← hrg]
    exact hlast

theorem generationStepDbl_counted_pos (E : ℕ) (eps : ℚ) (draws : ℕ → ℚ) (s t : Sim) (B : ℤ)
    (h : TotCountedDbl s B) (hB : B ≤ INT_MAX) (hE : (E : ℤ) ≤ INT_MAX)
    (ht : generationStepDbl E eps draws s = some t) (hpos : 0 < t.arrivals_tot) :
    TotCountedDbl t (B + E) := by
  obtain ⟨hcells, hsum, h1, hle, -⟩ := h
  cases hrun : eventsLoop draws E
      { states := clearGen s.states, cur := s.cur, arrivals_gen := 0, drawn := s.drawn } with
  | none => simp [generationStepDbl, hrun] at ht
  | some w =>
    rw [generationStepDbl_of_run hrun] at ht
    cases ht
    -- the run phase
    have hstart : GenCounted
        { states := clearGen s.states, cur := s.cur, arrivals_gen := 0, drawn := s.drawn } 0 := by
      refine ⟨?_, sumGen_clearGen s.states, le_refl 0⟩
      intro c hc
      obtain ⟨c', -, rfl⟩ := List.mem_map.mp hc
      exact le_refl 0
    have hE0 : (0 : ℤ) ≤ E := Int.natCast_nonneg E
    obtain ⟨⟨hgnn, hgsum, hgle⟩, hfro⟩ :=
      eventsLoop_counted draws E _ w 0 hstart (by omega) hrun
    rw [zero_add] at hgle
    have hclear : (clearGen s.states).map frozen = s.states.map frozen := by
      unfold clearGen
      rw [List.map_map]
      rfl
    obtain ⟨hwsum, -⟩ := frozen_transfer (hfro.trans hclear)
    have hwc := frozen_nonneg (hfro.trans hclear) hcells
    have hg0 : 0 ≤ w.arrivals_gen := by
      rw [← hgsum]
      unfold sumGen
      apply List.sum_nonneg
      intro x hx
      obtain ⟨y, hy, rfl⟩ := List.mem_map.mp hx
      exact hgnn y hy
    -- a positive scalar total has not wrapped around
    have hno : s.arrivals_tot + w.arrivals_gen ≤ INT_MAX := by
      have hp : 0 < wrap32 (s.arrivals_tot + w.arrivals_gen) := hpos
      unfold wrap32 at hp
      unfold INT_MAX at hB hE ⊢
      omega
    have eT : wrap32 (s.arrivals_tot + w.arrivals_gen) = s.arrivals_tot + w.arrivals_gen :=
      wrap32_of_range (by omega) hno
    have hT1 : 1 ≤ s.arrivals_tot + w.arrivals_gen := by omega
    -- nor do the per-state totals
    have hadd : (w.states.map fun c => c.arrivals_tot + c.arrivals_gen).sum
        = s.arrivals_tot + w.arrivals_gen := by
      rw [List.sum_map_add]
      have e1 : (w.states.map fun c => c.arrivals_tot).sum = sumTot w.states := rfl
      have e2 : (w.states.map fun c => c.arrivals_gen).sum = sumGen w.states := rfl
      rw [e1, e2, hwsum, hsum, hgsum]
    have hcell0 : ∀ c ∈ w.states, 0 ≤ c.arrivals_tot + c.arrivals_gen := by
      intro c hc
      have := hwc c hc
      have := hgnn c hc
      omega
    have hcellle : ∀ c ∈ w.states,
        c.arrivals_tot + c.arrivals_gen ≤ s.arrivals_tot + w.arrivals_gen := by
      intro c hc
      rw [← hadd]
      exact le_sum_of_mem (fun c => c.arrivals_tot + c.arrivals_gen) w.states hcell0 c hc
    have ecell : ∀ c ∈ w.states,
        wrap32 (c.arrivals_tot + c.arrivals_gen) = c.arrivals_tot + c.arrivals_gen := by
      intro c hc
      have := hcell0 c hc
      have := hcellle c hc
      exact wrap32_of_range (by omega) (by omega)
    clear hpos
    simp only [eT]
    refine ⟨?_, ?_, hT1, by show s.arrivals_tot + w.arrivals_gen ≤ B + E; omega, ?_⟩
    · intro d hd
      obtain ⟨c, hc, rfl⟩ := List.mem_map.mp hd
      have hc0 := hcell0 c hc
      unfold settleCellDbl
      rw [ecell c hc]
      split_ifs with hpos
      · exact hc0
      · exact hc0
    · show sumTot (w.states.map (settleCellDbl (s.arrivals_tot + w.arrivals_gen)))
        = s.arrivals_tot + w.arrivals_gen
      refine Eq.trans ?_ hadd
      unfold sumTot
      rw [List.map_map]
      apply congrArg List.sum
      apply List.map_congr_left
      intro c hc
      show (settleCellDbl (s.arrivals_tot + w.arrivals_gen) c).arrivals_tot
        = c.arrivals_tot + c.arrivals_gen
      unfold settleCellDbl
      split_ifs <;> exact ecell c hc
    · intro d hd hvis
      obtain ⟨c, hc, rfl⟩ := List.mem_map.mp hd
      unfold settleCellDbl at hvis ⊢
      split_ifs at hvis ⊢ with hpos
      · rfl
      · exact absurd hvis hpos

theorem startSim_countedDbl (p : Params) (s : Sim) (hN : 1 ≤ p.N) (hK : 1 ≤ p.K)
    (hs : startSim p = some s) : TotCountedDbl s 1 := by
  obtain ⟨m, hm, hlen, hcells⟩ := buildStates_cells p.N p.K p.lam p.mu hN hK
  have h0 : 0 < m.length := by omega
  have hst := store_some (fun s => { s with arrivals_tot := wrap32 (s.arrivals_tot + 1) }) h0
  simp only [startSim, hm, Option.bind, initSim, hst, Option.map, Option.some.injEq] at hs
  subst hs
  have hcell : ∀ c ∈ m, c.arrivals_tot = 0 ∧ c.oldp = 1 := by
    intro c hc
    obtain ⟨j, hj⟩ := List.mem_iff_getElem?.mp hc
    have hjl : j < p.N + p.K := by
      rcases List.getElem?_eq_some.mp hj with ⟨h, -⟩
      rw [hlen] at h
      exact h
    rw [hcells j hjl] at hj
    cases hj
    unfold builtCell
    split_ifs <;> exact ⟨rfl, rfl⟩
  have hm0 : m[0] ∈ m := List.getElem_mem h0
  have e0 : wrap32 (m[0].arrivals_tot + 1) = 1 := by
    rw [(hcell _ hm0).1]
    rfl
  refine ⟨?_, ?_, le_refl 1, le_refl 1, ?_⟩
  · intro c hc
    rcases List.mem_or_eq_of_mem_set hc with h1 | h1
    · rw [(hcell c h1).1]
    · subst h1
      show 0 ≤ wrap32 (m[0].arrivals_tot + 1)
      rw [e0]
      norm_num
  · show sumTot _ = 1
    unfold sumTot
    rw [sum_map_set (fun c => c.arrivals_tot) m 0 m[0] _ (List.getElem?_eq_getElem h0)]
    have hz : (m.map fun c => c.arrivals_tot).sum = 0 := by
      apply List.sum_eq_zero
      intro x hx
      obtain ⟨y, hy, rfl⟩ := List.mem_map.mp hx
      exact (hcell y hy).1
    show (m.map fun c => c.arrivals_tot).sum - m[0].arrivals_tot
      + wrap32 (m[0].arrivals_tot + 1) = 1
    rw [e0, hz, (hcell _ hm0).1]
    norm_num
  · intro c hc hvis
    rcases List.mem_or_eq_of_mem_set hc with h1 | h1
    · rw [(hcell c h1).1] at hvis
      exact absurd hvis (lt_irrefl 0)
    · subst h1
      show m[0].oldp = roundDouble (((wrap32 (m[0].arrivals_tot + 1) : ℤ) : ℚ) / ((1 : ℤ) : ℚ))
      rw [e0, (hcell _ hm0).2]
      norm_num
      exact roundDouble_one.symm

theorem generationStepDbl_counted (E : ℕ) (eps : ℚ) (draws : ℕ → ℚ) (s t : Sim) (B : ℤ)
    (h : TotCountedDbl s B) (hB : B + E ≤ INT_MAX)
    (ht : generationStepDbl E eps draws s = some t) : TotCountedDbl t (B + E) := by
  obtain ⟨hcells, hsum, h1, hle, -⟩ := h
  cases hrun : eventsLoop draws E
      { states := clearGen s.states, cur := s.cur, arrivals_gen := 0, drawn := s.drawn } with
  | none => simp [generationStepDbl, hrun] at ht
  | some w =>
    rw [generationStepDbl_of_run hrun] at ht
    cases ht
    -- the run phase
    have hstart : GenCounted
        { states := clearGen s.states, cur := s.cur, arrivals_gen := 0, drawn := s.drawn } 0 := by
      refine ⟨?_, sumGen_clearGen s.states, le_refl 0⟩
      intro c hc
      obtain ⟨c', -, rfl⟩ := List.mem_map.mp hc
      exact le_refl 0
    have hE0 : (0 : ℤ) ≤ E := Int.natCast_nonneg E
    obtain ⟨⟨hgnn, hgsum, hgle⟩, hfro⟩ :=
      eventsLoop_counted draws E _ w 0 hstart (by omega) hrun
    rw [zero_add] at hgle
    have hclear : (clearGen s.states).map frozen = s.states.map frozen := by
      unfold clearGen
      rw [List.map_map]
      rfl
    obtain ⟨hwsum, -⟩ := frozen_transfer (hfro.trans hclear)
    have hwc := frozen_nonneg (hfro.trans hclear) hcells
    have hg0 : 0 ≤ w.arrivals_gen := by
      rw [← hgsum]
      unfold sumGen
      apply List.sum_nonneg
      intro x hx
      obtain ⟨y, hy, rfl⟩ := List.mem_map.mp hx
      exact hgnn y hy
    -- the scalar total does not overflow
    have eT : wrap32 (s.arrivals_tot + w.arrivals_gen) = s.arrivals_tot + w.arrivals_gen :=
      wrap32_of_range (by omega) (by omega)
    have hT1 : 1 ≤ s.arrivals_tot + w.arrivals_gen := by omega
    -- nor do the per-state totals
    have hadd : (w.states.map fun c => c.arrivals_tot + c.arrivals_gen).sum
        = s.arrivals_tot + w.arrivals_gen := by
      rw [List.sum_map_add]
      have e1 : (w.states.map fun c => c.arrivals_tot).sum = sumTot w.states := rfl
      have e2 : (w.states.map fun c => c.arrivals_gen).sum = sumGen w.states := rfl
      rw [e1, e2, hwsum, hsum, hgsum]
    have hcell0 : ∀ c ∈ w.states, 0 ≤ c.arrivals_tot + c.arrivals_gen := by
      intro c hc
      have := hwc c hc
      have := hgnn c hc
      omega
    have hcellle : ∀ c ∈ w.states,
        c.arrivals_tot + c.arrivals_gen ≤ s.arrivals_tot + w.arrivals_gen := by
      intro c hc
      rw [← hadd]
      exact le_sum_of_mem (fun c => c.arrivals_tot + c.arrivals_gen) w.states hcell0 c hc
    have ecell : ∀ c ∈ w.states,
        wrap32 (c.arrivals_tot + c.arrivals_gen) = c.arrivals_tot + c.arrivals_gen := by
      intro c hc
      have := hcell0 c hc
      have := hcellle c hc
      exact wrap32_of_range (by omega) (by omega)
    simp only [eT]
    refine ⟨?_, ?_, hT1, by show s.arrivals_tot + w.arrivals_gen ≤ B + E; omega, ?_⟩
    · intro d hd
      obtain ⟨c, hc, rfl⟩ := List.mem_map.mp hd
      have hc0 := hcell0 c hc
      unfold settleCellDbl
      rw [ecell c hc]
      split_ifs with hpos
      · exact hc0
      · exact hc0
    · show sumTot (w.states.map (settleCellDbl (s.arrivals_tot + w.arrivals_gen)))
        = s.arrivals_tot + w.arrivals_gen
      refine Eq.trans ?_ hadd
      unfold sumTot
      rw [List.map_map]
      apply congrArg List.sum
      apply List.map_congr_left
      intro c hc
      show (settleCellDbl (s.arrivals_tot + w.arrivals_gen) c).arrivals_tot
        = c.arrivals_tot + c.arrivals_gen
      unfold settleCellDbl
      split_ifs <;> exact ecell c hc
    · intro d hd hvis
      obtain ⟨c, hc, rfl⟩ := List.mem_map.mp hd
      unfold settleCellDbl at hvis ⊢
      split_ifs at hvis ⊢ with hpos
      · rfl
      · exact absurd hvis hpos

theorem gensFromDbl_counted (E : ℕ) (eps : ℚ) (draws : ℕ → ℚ) :
    ∀ (g : ℕ) (s t : Sim) (B : ℤ), TotCountedDbl s B → B + (g : ℤ) * E ≤ INT_MAX →
      gensFromDbl E eps draws g s = some t → TotCountedDbl t (B + (g : ℤ) * E) := by
  intro g
  induction g with
  | zero =>
    intro s t B h _ ht
    simp only [gensFromDbl, Option.some.injEq] at ht
    subst ht
    simpa using h
  | succ g ih =>
    intro s t B h hB ht
    push_cast at hB
    have hE0 : (0 : ℤ) ≤ E := Int.natCast_nonneg E
    have hgE : (0 : ℤ) ≤ (g : ℤ) * E := mul_nonneg (Int.natCast_nonneg g) hE0
    simp only [gensFromDbl] at ht
    cases hstep : generationStepDbl E eps draws s with
    | none => simp [hstep] at ht
    | some u =>
      simp only [hstep] at ht
      have hu := generationStepDbl_counted E eps draws s u B h (by nlinarith) hstep
      have := ih u t (B + E) hu (by nlinarith) ht
      have e : B + (E : ℤ) + (g : ℤ) * E = B + ((g + 1 : ℕ) : ℤ) * E := by push_cast; ring
      rw [← e]
      exact this

/-! ## C1: topology table -/

/-- C1 (as stated) fails: with `K = 1` the service-initiation block is written
over the full state, so index `N` does not carry the row of the full state; with
`K = 0` the builder writes `states[N]` outside the array of `N` cells. -/
theorem graph_table_fails_for_small_threshold :
    ¬ GraphMatchesTable 1 1 1 1 ∧ buildStates 2 0 1 1 = none := by
  refine ⟨?_, ?_⟩
  · rintro ⟨m, hm, -, -, -, hfull, -⟩
    obtain ⟨m', hm', -, hcells⟩ := buildStates_cells 1 1 1 1 (le_refl 1) (le_refl 1)
    rw [hm] at hm'
    cases hm'
    have h1 := hcells 1 (by norm_num)
    unfold FullRow rowOf at hfull
    rw [h1] at hfull
    simp [builtCell, initCell] at hfull
  · simp [buildStates, store, forLoop, initCell, fresh, List.replicate]

/-- C1 (amended): for `N ≥ 1`, `K ≥ 1` and rates with `λ + μ > 0` the builder
returns `N + K` cells in which the rows of the empty state, of the ordinary states
`1 ≤ i < N` and of the buffering states `N+1 ≤ i < N+K-1` are those of the table;
for `K ≥ 2` the rows of the full state `N` and of the service-initiation state
`N+K-1` are those of the table as well, so the whole table holds. -/
theorem graph_table_of_threshold (N K : ℕ) (lam mu : ℚ)
    (hN : 1 ≤ N) (hK : 1 ≤ K) (_hrate : 0 < lam + mu) :
    ∃ m, buildStates N K lam mu = some m ∧ m.length = N + K ∧
      EmptyRow N K m ∧ OrdinaryRows N lam mu m ∧ BufferingRows N K m ∧
      (2 ≤ K → FullRow N lam mu m ∧ ServiceInitRow N K m ∧ GraphMatchesTable N K lam mu) := by
  obtain ⟨m, hm, hlen, hcells⟩ := buildStates_cells N K lam mu hN hK
  have hE : EmptyRow N K m := by
    unfold EmptyRow rowOf
    rw [hcells 0 (by omega)]
    have h1 : ¬ (0 = N + K - 1) := by omega
    have h2 : ¬ (N + 1 ≤ 0) := by omega
    have h3 : ¬ (0 = N) := by omega
    simp only [builtCell, if_neg h1, if_neg h2, if_neg h3]
    by_cases hk : K ≤ 1 <;> simp [initCell, hk]
  have hO : OrdinaryRows N lam mu m := by
    intro i hi1 hi2
    unfold rowOf
    rw [hcells i (by omega)]
    have h1 : ¬ (i = N + K - 1) := by omega
    have h2 : ¬ (N + 1 ≤ i) := by omega
    have h3 : ¬ (i = N) := by omega
    simp only [builtCell, if_neg h1, if_neg h2, if_neg h3, if_pos hi1]
    simp [initCell]
  have hB : BufferingRows N K m := by
    intro i hi1 hi2
    unfold rowOf
    rw [hcells i (by omega)]
    have h1 : ¬ (i = N + K - 1) := by omega
    simp only [builtCell, if_neg h1, if_pos hi1]
    simp [initCell]
  have hF : 2 ≤ K → FullRow N lam mu m := by
    intro hk
    unfold FullRow rowOf
    rw [hcells N (by omega)]
    have h1 : ¬ (N = N + K - 1) := by omega
    have h2 : ¬ (N + 1 ≤ N) := by omega
    simp only [builtCell, if_neg h1, if_neg h2, if_true]
    simp [initCell]
  have hS : ServiceInitRow N K m := by
    unfold ServiceInitRow rowOf
    rw [hcells (N + K - 1) (by omega)]
    simp [builtCell, initCell]
  exact ⟨m, hm, hlen, hE, hO, hB, fun hk =>
    ⟨hF hk, hS, m, hm, hlen, hE, hO, hF hk, hB, hS⟩⟩

theorem graph_table_of_threshold_witness :
    (1 ≤ 2 ∧ 1 ≤ 3 ∧ (0 : ℚ) < 1 + 2) ∧
    ∃ m, buildStates 2 3 1 2 = some m ∧ m.length = 2 + 3 ∧
      EmptyRow 2 3 m ∧ OrdinaryRows 2 1 2 m ∧ BufferingRows 2 3 m ∧
      (2 ≤ 3 → FullRow 2 1 2 m ∧ ServiceInitRow 2 3 m ∧ GraphMatchesTable 2 3 1 2) :=
  ⟨⟨by decide, by decide, by norm_num⟩,
    graph_table_of_threshold 2 3 1 2 (by decide) (by decide) (by norm_num)⟩

/-! ## C2: walker step -/

/-- C2: one walker step at cursor `c` with source state `s` and next draw `u`.
The arrival transition is taken exactly when `s.probup = 1` or `u < s.probup`:
then the cursor becomes `s.next_up`, the source cell's `arrivals_gen` and the
generation's arrival count grow by one and no other cell changes.  Otherwise the
service transition is taken: the cursor becomes `s.next_down` and neither the
array nor the generation's arrival count changes.  (The counters are below
`INT_MAX`, as they are inside a generation of at most `INT_MAX` events.) -/
theorem walker_step_rule (draws : ℕ → ℚ) (w : Walk) (c : ℕ) (s : state_t)
    (hcur : w.cur = some c) (hs : w.states[c]? = some s)
    (hgen : 0 ≤ s.arrivals_gen ∧ s.arrivals_gen < INT_MAX)
    (hcount : 0 ≤ w.arrivals_gen ∧ w.arrivals_gen < INT_MAX) :
    ∃ v, walkerStep draws w = some v ∧
      ((s.probup = 1 ∨ draws w.drawn < s.probup) →
        v.cur = s.next_up ∧
        v.arrivals_gen = w.arrivals_gen + 1 ∧
        v.states[c]? = some { s with arrivals_gen := s.arrivals_gen + 1 } ∧
        (∀ j, j ≠ c → v.states[j]? = w.states[j]?) ∧
        v.states.length = w.states.length) ∧
      (¬ (s.probup = 1 ∨ draws w.drawn < s.probup) →
        v.cur = s.next_down ∧
        v.arrivals_gen = w.arrivals_gen ∧
        v.states = w.states) := by
  have hc : c < w.states.length := by
    rcases List.getElem?_eq_some.mp hs with ⟨h, -⟩
    exact h
  have e1 : wrap32 (s.arrivals_gen + 1) = s.arrivals_gen + 1 :=
    wrap32_of_range (by omega) (by omega)
  have e2 : wrap32 (w.arrivals_gen + 1) = w.arrivals_gen + 1 :=
    wrap32_of_range (by omega) (by omega)
  by_cases h1 : s.probup = 1
  · refine ⟨_, by simp only [walkerStep, hcur, hs, if_pos h1]; rfl, ?_, ?_⟩
    · intro _
      refine ⟨rfl, e2, ?_, ?_, by simp⟩
      · simp [List.getElem?_set, hc, e1]
      · intro j hj
        exact List.getElem?_set_ne (fun e => hj e.symm)
    · intro h
      exact absurd (Or.inl h1) h
  · by_cases h2 : draws w.drawn < s.probup
    · refine ⟨_, by simp only [walkerStep, hcur, hs, if_neg h1, if_pos h2]; rfl, ?_, ?_⟩
      · intro _
        refine ⟨rfl, e2, ?_, ?_, by simp⟩
        · simp [List.getElem?_set, hc, e1]
        · intro j hj
          exact List.getElem?_set_ne (fun e => hj e.symm)
      · intro h
        exact absurd (Or.inr h2) h
    · refine ⟨_, by simp only [walkerStep, hcur, hs, if_neg h1, if_neg h2]; rfl, ?_, ?_⟩
      · rintro (h | h)
        · exact absurd h h1
        · exact absurd h h2
      · intro _
        exact ⟨rfl, rfl, rfl⟩

theorem walker_step_rule_witness :
    ∃ v, walkerStep (constDraws (1 / 4)) demoWalk = some v ∧
      (((1 / 2 : ℚ) = 1 ∨ constDraws (1 / 4) demoWalk.drawn < (1 / 2 : ℚ)) →
        v.cur = some 1 ∧ v.arrivals_gen = demoWalk.arrivals_gen + 1 ∧
        v.states[1]? = some
          { probup := 1 / 2, next_up := some 1, next_down := some 0, arrivals_gen := 0 + 1,
            arrivals_tot := 0, oldp := 1 } ∧
        (∀ j, j ≠ 1 → v.states[j]? = demoWalk.states[j]?) ∧
        v.states.length = demoWalk.states.length) ∧
      (¬ ((1 / 2 : ℚ) = 1 ∨ constDraws (1 / 4) demoWalk.drawn < (1 / 2 : ℚ)) →
        v.cur = some 0 ∧ v.arrivals_gen = demoWalk.arrivals_gen ∧
        v.states = demoWalk.states) :=
  walker_step_rule (constDraws (1 / 4)) demoWalk 1
    { probup := 1 / 2, next_up := some 1, next_down := some 0, arrivals_gen := 0,
      arrivals_tot := 0, oldp := 1 }
    rfl rfl (by norm_num [INT_MAX]) (by norm_num [INT_MAX, demoWalk])

/-! ## C3, C4: settle phase -/

/-- C3: the settle phase of a generation whose run phase ended in `w`.  The scalar
`arrivals_tot` becomes the old total plus this generation's arrivals; every cell's
`arrivals_tot` grows by its `arrivals_gen`; a cell whose new `arrivals_tot` is
positive gets `oldp = arrivals_tot / (scalar arrivals_tot)`, a cell whose new
`arrivals_tot` is zero keeps its `oldp`; and when every cell has been visited,
`conv` is the largest `|new oldp - old oldp| / old oldp` over the cells.  (The
counters are in the `int` range and the cached probabilities are positive, as
they are on a run without overflow.) -/
theorem settle_phase_rule (E : ℕ) (eps : ℚ) (draws : ℕ → ℚ) (s : Sim) (w : Walk)
    (hrun : eventsLoop draws E
      { states := clearGen s.states, cur := s.cur, arrivals_gen := 0, drawn := s.drawn }
        = some w)
    (htot : 0 ≤ s.arrivals_tot + w.arrivals_gen ∧ s.arrivals_tot + w.arrivals_gen ≤ INT_MAX)
    (hrange : ∀ c ∈ w.states,
      0 ≤ c.arrivals_tot + c.arrivals_gen ∧ c.arrivals_tot + c.arrivals_gen ≤ INT_MAX)
    (hold : ∀ c ∈ w.states, 0 < c.oldp) :
    ∃ t, generationStep E eps draws s = some t ∧
      t.arrivals_tot = s.arrivals_tot + w.arrivals_gen ∧
      t.states.length = w.states.length ∧
      (∀ (i : ℕ) (c : state_t), w.states[i]? = some c → ∃ d : state_t, t.states[i]? = some d ∧
        d.arrivals_tot = c.arrivals_tot + c.arrivals_gen ∧
        (0 < d.arrivals_tot → d.oldp = (d.arrivals_tot : ℚ) / (t.arrivals_tot : ℚ)) ∧
        (d.arrivals_tot = 0 → d.oldp = c.oldp)) ∧
      ((∀ d ∈ t.states, 0 < d.arrivals_tot) → t.states ≠ [] →
        (∀ (i : ℕ) (c d : state_t), w.states[i]? = some c → t.states[i]? = some d →
          |d.oldp - c.oldp| / c.oldp ≤ t.conv) ∧
        (∃ (i : ℕ) (c d : state_t), w.states[i]? = some c ∧ t.states[i]? = some d ∧
          t.conv = |d.oldp - c.oldp| / c.oldp)) := by
  have etot : wrap32 (s.arrivals_tot + w.arrivals_gen) = s.arrivals_tot + w.arrivals_gen :=
    wrap32_of_range (by omega) htot.2
  have ecell : ∀ c ∈ w.states,
      wrap32 (c.arrivals_tot + c.arrivals_gen) = c.arrivals_tot + c.arrivals_gen :=
    fun c hc => wrap32_of_range (by have := (hrange c hc).1; omega) (hrange c hc).2
  -- the cell written at index `i`
  have hcellAt : ∀ (i : ℕ) (c : state_t), w.states[i]? = some c →
      (w.states.map (settleCell (s.arrivals_tot + w.arrivals_gen)))[i]? =
        some (settleCell (s.arrivals_tot + w.arrivals_gen) c) := by
    intro i c hc
    rw [List.getElem?_map, hc]
    rfl
  have hrel : ∀ c ∈ w.states, 0 < c.arrivals_tot + c.arrivals_gen →
      relChange (s.arrivals_tot + w.arrivals_gen) c =
        |(settleCell (s.arrivals_tot + w.arrivals_gen) c).oldp - c.oldp| / c.oldp := by
    intro c hc hpos
    have hp := hold c hc
    simp only [relChange, settleCell, ecell c hc, if_pos hpos]
    rw [abs_div, abs_of_pos hp]
  refine ⟨_, generationStep_of_run hrun, ?_, ?_, ?_, ?_⟩
  · exact etot
  · simp
  · intro i c hc
    have hmem : c ∈ w.states := List.mem_iff_getElem?.mpr ⟨i, hc⟩
    refine ⟨settleCell (s.arrivals_tot + w.arrivals_gen) c, ?_, ?_, ?_, ?_⟩
    · simp only [etot]
      exact hcellAt i c hc
    · unfold settleCell
      split_ifs <;> exact ecell c hmem
    · intro hpos
      simp only [etot]
      unfold settleCell at hpos ⊢
      split_ifs at hpos ⊢ with h
      · simp only [ecell c hmem]
      · simp only [ecell c hmem] at h hpos
        exact absurd hpos h
    · intro hz
      unfold settleCell at hz ⊢
      split_ifs at hz ⊢ with h
      · simp only [ecell c hmem] at h hz
        omega
      · rfl
  · intro hall hne
    simp only [etot] at hall hne ⊢
    have hvis : ∀ c ∈ w.states, 0 < wrap32 (c.arrivals_tot + c.arrivals_gen) := by
      intro c hc
      have := hall _ (List.mem_map_of_mem (settleCell (s.arrivals_tot + w.arrivals_gen)) hc)
      unfold settleCell at this
      split_ifs at this with h
      · exact h
      · exact this
    have hvis' : ∀ c ∈ w.states, 0 < c.arrivals_tot + c.arrivals_gen := by
      intro c hc
      have := hvis c hc
      rwa [ecell c hc] at this
    obtain ⟨hge0, hge⟩ := settleLoop_conv_ge (s.arrivals_tot + w.arrivals_gen) eps w.states 0 hvis
    refine ⟨?_, ?_⟩
    · intro i c d hc hd
      have hmem : c ∈ w.states := List.mem_iff_getElem?.mpr ⟨i, hc⟩
      rw [hcellAt i c hc] at hd
      cases hd
      rw [← hrel c hmem (hvis' c hmem)]
      exact hge c hmem
    · have hne' : w.states ≠ [] := by
        intro e
        apply hne
        rw [e]
        rfl
      rcases settleLoop_conv_attained (s.arrivals_tot + w.arrivals_gen) eps w.states 0 hvis with
        e | ⟨c, hc, e⟩
      · -- the maximum is `0`: then every relative change is `0`
        obtain ⟨c, rest, hcons⟩ := List.exists_cons_of_ne_nil hne'
        have hmem : c ∈ w.states := by rw [hcons]; exact List.mem_cons_self _ _
        have h0 : w.states[0]? = some c := by rw [hcons]; simp
        refine ⟨0, c, _, h0, hcellAt 0 c h0, ?_⟩
        have hle := hge c hmem
        rw [e] at hle
        have hnn : 0 ≤ relChange (s.arrivals_tot + w.arrivals_gen) c := abs_nonneg _
        rw [e, ← hrel c hmem (hvis' c hmem)]
        exact le_antisymm hnn hle
      · obtain ⟨i, hi⟩ := List.mem_iff_getElem?.mp hc
        refine ⟨i, c, _, hi, hcellAt i c hi, ?_⟩
        rw [e, hrel c hc (hvis' c hc)]

theorem demo_run_arrival :
    eventsLoop (constDraws (1 / 4)) 1
      { states := clearGen demoSim.states, cur := demoSim.cur, arrivals_gen := 0,
        drawn := demoSim.drawn } = some demoWalkArrived := by
  simp [eventsLoop, walkerStep, clearGen, demoSim, demoStates, demoWalkArrived, constDraws,
    wrap32]
  norm_num

theorem settle_phase_rule_witness :
    ∃ t, generationStep 1 (1 / 100) (constDraws (1 / 4)) demoSim = some t ∧
      t.arrivals_tot = demoSim.arrivals_tot + demoWalkArrived.arrivals_gen ∧
      t.states.length = demoWalkArrived.states.length ∧
      (∀ (i : ℕ) (c : state_t), demoWalkArrived.states[i]? = some c →
        ∃ d : state_t, t.states[i]? = some d ∧
        d.arrivals_tot = c.arrivals_tot + c.arrivals_gen ∧
        (0 < d.arrivals_tot → d.oldp = (d.arrivals_tot : ℚ) / (t.arrivals_tot : ℚ)) ∧
        (d.arrivals_tot = 0 → d.oldp = c.oldp)) ∧
      ((∀ d ∈ t.states, 0 < d.arrivals_tot) → t.states ≠ [] →
        (∀ (i : ℕ) (c d : state_t), demoWalkArrived.states[i]? = some c →
          t.states[i]? = some d → |d.oldp - c.oldp| / c.oldp ≤ t.conv) ∧
        (∃ (i : ℕ) (c d : state_t), demoWalkArrived.states[i]? = some c ∧
          t.states[i]? = some d ∧ t.conv = |d.oldp - c.oldp| / c.oldp)) :=
  settle_phase_rule 1 (1 / 100) (constDraws (1 / 4)) demoSim demoWalkArrived demo_run_arrival
    (by norm_num [demoSim, demoWalkArrived, INT_MAX])
    (by simp [demoWalkArrived, INT_MAX])
    (by simp [demoWalkArrived])

theorem demo_run_service :
    eventsLoop (constDraws (3 / 4)) 1
      { states := clearGen demoSim.states, cur := demoSim.cur, arrivals_gen := 0,
        drawn := demoSim.drawn } = some demoWalkServed := by
  simp [eventsLoop, walkerStep, clearGen, demoSim, demoStates, demoWalkServed, constDraws]
  norm_num

theorem startSim_two_two (E : ℕ) (G : ℤ) (eps : ℚ) :
    startSim ⟨2, 2, 1, 1, E, G, eps⟩ = some
      { states := twoTwoStates 0 0 0 0 1 0 0 0 1 1 1 1
        cur := some 1, arrivals_tot := 1, generation := 0, conv := 0, drawn := 0 } := by
  simp [startSim, buildStates, store, forLoop, initCell, fresh, List.replicate, initSim,
    wrap32, twoTwoStates]
  norm_num

theorem two_two_service_run :
    eventsLoop (constDraws (3 / 4)) 1
      { states := clearGen (twoTwoStates 0 0 0 0 1 0 0 0 1 1 1 1), cur := some 1,
        arrivals_gen := 0, drawn := 0 }
      = some { states := twoTwoStates 0 0 0 0 1 0 0 0 1 1 1 1, cur := some 0,
               arrivals_gen := 0, drawn := 1 } := by
  simp [eventsLoop, walkerStep, clearGen, twoTwoStates, constDraws]
  norm_num

theorem huge_tolerance_generation :
    generationStepDbl 1 9007199254740992 (constDraws (3 / 4))
      { states := twoTwoStates 0 0 0 0 1 0 0 0 1 1 1 1
        cur := some 1, arrivals_tot := 1, generation := 0, conv := 0, drawn := 0 }
      = some { states := twoTwoStates 0 0 0 0 1 0 0 0 1 1 1 1, cur := some 0
               arrivals_tot := 1, generation := 1, conv := 9007199254740992, drawn := 1 } := by
  rw [generationStepDbl_of_run two_two_service_run]
  simp [settleLoopDbl, settleCellDbl, twoTwoStates, wrap32, ddiv, dsub, dadd,
    roundDouble_one, roundDouble_zero]
  norm_num [roundDouble_two_pow_53_succ]

theorem huge_tolerance_run :
    simulateDbl hugeTolParams (constDraws (3 / 4)) = some
      { states := twoTwoStates 0 0 0 0 1 0 0 0 1 1 1 1, cur := some 0
        arrivals_tot := 1, generation := 1, conv := 9007199254740992, drawn := 1 } := by
  have hs : startSim hugeTolParams = some
      { states := twoTwoStates 0 0 0 0 1 0 0 0 1 1 1 1
        cur := some 1, arrivals_tot := 1, generation := 0, conv := 0, drawn := 0 } :=
    startSim_two_two 1 1 9007199254740992
  have hc : clampMaxGens hugeTolParams.max_gens hugeTolParams.events_per_gen = 1 := by
    unfold clampMaxGens INT_MAX hugeTolParams
    norm_num
  have hloop : doWhileDbl 1 9007199254740992 1 (constDraws (3 / 4)) 1
      { states := twoTwoStates 0 0 0 0 1 0 0 0 1 1 1 1
        cur := some 1, arrivals_tot := 1, generation := 0, conv := 0, drawn := 0 } = some
      { states := twoTwoStates 0 0 0 0 1 0 0 0 1 1 1 1, cur := some 0
        arrivals_tot := 1, generation := 1, conv := 9007199254740992, drawn := 1 } := by
    unfold doWhileDbl
    simp only [huge_tolerance_generation]
    rw [if_neg]
    rintro ⟨-, h⟩
    exact absurd h (lt_irrefl _)
  unfold simulateDbl
  rw [hs, hc, Option.some_bind]
  exact hloop

/-- C4 fails as stated: `N = 2`, `K = 2`, `λ = μ = 1`, `E = 1`, `max_gens = 1` and
the tolerance `ε = 2^53`, a `double`.  With the first draw `3/4` the only event of
generation 1 is a service completion, so states 1, 2 and 3 are still unvisited
after the settle phase; line 208 sets `conv` to the rounded sum `2^53 + 1`, which
is `2^53`: the `conv` of the generation equals `ε` and is not strictly greater. -/
theorem unvisited_conv_equals_tolerance :
    0 ≤ hugeTolParams.eps ∧ roundDouble hugeTolParams.eps = hugeTolParams.eps ∧
    ∃ s t, startSim hugeTolParams = some s ∧
      generationStepDbl 1 hugeTolParams.eps (constDraws (3 / 4)) s = some t ∧
      simulateDbl hugeTolParams (constDraws (3 / 4)) = some t ∧
      (∃ d ∈ t.states, d.arrivals_tot = 0) ∧ t.conv = hugeTolParams.eps ∧
      ¬ UnvisitedExceedsTolerance 1 hugeTolParams.eps (constDraws (3 / 4)) s := by
  refine ⟨by norm_num [hugeTolParams], roundDouble_two_pow_53, _, _,
    startSim_two_two 1 1 9007199254740992, huge_tolerance_generation, huge_tolerance_run,
    ⟨_, List.mem_cons_of_mem _ (List.mem_cons_self _ _), rfl⟩, rfl, ?_⟩
  rintro ⟨t, ht, himp⟩
  rw [show hugeTolParams.eps = 9007199254740992 from rfl, huge_tolerance_generation] at ht
  cases ht
  exact lt_irrefl _ (himp ⟨_, List.mem_cons_of_mem _ (List.mem_cons_self _ _), rfl⟩)

/-- C4, amended: for every tolerance `eps ≥ 0` that is a `double`, if some cell
still has `arrivals_tot == 0` after the settle phase of a generation, the `conv`
of that generation is at least the rounded sum `eps + 1` of line 208 and hence at
least `eps`, so the loop condition `conv >= eps` holds and the generation does not
count as converged, wherever the cell sits in the array and whatever the other
cells contribute; `conv` is strictly greater than `eps` whenever `eps < 2^53`. -/
theorem unvisited_blocks_convergence (E : ℕ) (eps : ℚ) (draws : ℕ → ℚ) (s : Sim) (w : Walk)
    (h0 : 0 ≤ eps) (hdbl : roundDouble eps = eps)
    (hrun : eventsLoop draws E
      { states := clearGen s.states, cur := s.cur, arrivals_gen := 0, drawn := s.drawn }
        = some w) :
    ∃ t, generationStepDbl E eps draws s = some t ∧
      ((∃ d ∈ t.states, d.arrivals_tot = 0) →
        dadd eps 1 ≤ t.conv ∧ eps ≤ t.conv ∧ (eps < 2 ^ 53 → eps < t.conv)) := by
  refine ⟨_, generationStepDbl_of_run hrun, ?_⟩
  rintro ⟨d, hd, hz⟩
  obtain ⟨c, hc, rfl⟩ := List.mem_map.mp hd
  have hun : ¬ 0 < wrap32 (c.arrivals_tot + c.arrivals_gen) := by
    intro h
    unfold settleCellDbl at hz
    rw [if_pos h] at hz
    simp only at hz
    omega
  have h1 := settleLoopDbl_conv_unvisited (wrap32 (s.arrivals_tot + w.arrivals_gen)) eps
    w.states 0 ⟨c, hc, hun⟩
  exact ⟨h1, le_trans (dadd_one_ge h0 hdbl) h1,
    fun hlt => lt_of_lt_of_le (dadd_one_gt h0 hlt) h1⟩

theorem roundDouble_quarter : roundDouble (1 / 4) = 1 / 4 := by
  rw [roundDouble_of_binade (-2) (2 ^ 52) (by norm_num) (by norm_num)
    (rne_of_lt_half _ (by norm_num) (by norm_num))]
  norm_num

theorem unvisited_blocks_convergence_witness :
    ∃ t, generationStepDbl 1 (1 / 4) (constDraws (3 / 4)) demoSim = some t ∧
      ((∃ d ∈ t.states, d.arrivals_tot = 0) →
        dadd (1 / 4) 1 ≤ t.conv ∧ (1 / 4 : ℚ) ≤ t.conv ∧
          ((1 / 4 : ℚ) < 2 ^ 53 → (1 / 4 : ℚ) < t.conv)) :=
  unvisited_blocks_convergence 1 (1 / 4) (constDraws (3 / 4)) demoSim demoWalkServed
    (by norm_num) roundDouble_quarter demo_run_service

/-! ## C5: stopping rule of the generation loop -/

/-- C5: for `N ≥ 1`, `K ≥ 1`, `λ + μ > 0` and `E ≥ 1` the generation loop returns
after some number `G ≥ 1` of generations, with `generation = G`; after every
earlier generation `1 ≤ g < G` the measure `conv` was at least `eps` and `g` was
below the (clamped) `max_gens`; and after generation `G` either `conv < eps` or
the generation counter has reached `max_gens`. -/
theorem generation_loop_stopping_rule (p : Params) (draws : ℕ → ℚ)
    (hN : 1 ≤ p.N) (hK : 1 ≤ p.K) (_hrate : 0 < p.lam + p.mu)
    (hE : 1 ≤ p.events_per_gen) :
    ∃ (G : ℕ) (r : Sim), 1 ≤ G ∧ simulate p draws = some r ∧
      afterGens p draws G = some r ∧ r.generation = (G : ℤ) ∧
      (∀ g : ℕ, 1 ≤ g → g < G → ∃ t, afterGens p draws g = some t ∧
        p.eps ≤ t.conv ∧ (g : ℤ) < clampMaxGens p.max_gens p.events_per_gen) ∧
      (r.conv < p.eps ∨ clampMaxGens p.max_gens p.events_per_gen ≤ (G : ℤ)) := by
  obtain ⟨s, hs, hok, hgen, -, -, -⟩ := startSim_ok p hN hK
  have hmax := clampMaxGens_le p.max_gens p.events_per_gen hE
  obtain ⟨k, r, hk, hr, hgr, hrg, hbefore, hlast⟩ :=
    doWhile_spec p.events_per_gen p.eps (clampMaxGens p.max_gens p.events_per_gen) draws hmax
      (clampMaxGens p.max_gens p.events_per_gen).toNat s hok (by omega)
      (by rw [hgen]; unfold INT_MAX; norm_num) (by rw [hgen]; omega)
  rw [hgen, zero_add] at hrg
  refine ⟨k, r, hk, ?_, ?_, hrg, ?_, ?_⟩
  · simp only [simulate, hs, Option.bind]
    exact hr
  · simp only [afterGens, hs, Option.bind]
    exact hgr
  · intro g hg1 hg2
    obtain ⟨t, ht, hconv, hlt⟩ := hbefore g hg1 hg2
    refine ⟨t, by simp only [afterGens, hs, Option.bind]; exact ht, hconv, ?_⟩
    rw [hgen, zero_add] at hlt
    exact hlt
  · rw [← hrg]
    exact hlast

theorem generation_loop_stopping_rule_witness :
    ∃ (G : ℕ) (r : Sim), 1 ≤ G ∧ simulate demoParams (constDraws (1 / 4)) = some r ∧
      afterGens demoParams (constDraws (1 / 4)) G = some r ∧ r.generation = (G : ℤ) ∧
      (∀ g : ℕ, 1 ≤ g → g < G → ∃ t, afterGens demoParams (constDraws (1 / 4)) g = some t ∧
        demoParams.eps ≤ t.conv ∧
        (g : ℤ) < clampMaxGens demoParams.max_gens demoParams.events_per_gen) ∧
      (r.conv < demoParams.eps ∨
        clampMaxGens demoParams.max_gens demoParams.events_per_gen ≤ (G : ℤ)) :=
  generation_loop_stopping_rule demoParams (constDraws (1 / 4)) (by decide) (by decide)
    (by norm_num [demoParams]) (by decide)

/-! ## C6: initial condition -/

/-- C6 at `N = 2`, `K = 2`: before generation 1 the scalar `arrivals_tot` is `1`
and that arrival is recorded in `states[0].arrivals_tot`, but the cursor is
`&states[1]` while the arrival pointer of state 0 is `&states[3]` (`N + 1`). -/
theorem initial_cursor_is_state_one :
    ∃ s, startSim ⟨2, 2, 1, 1, 10, 5, 1 / 100⟩ = some s ∧ s.arrivals_tot = 1 ∧
      (s.states[0]?).map (fun c => c.arrivals_tot) = some 1 ∧
      s.cur = some 1 ∧
      (s.states[0]?).map (fun c => c.next_up) = some (some 3) := by
  refine ⟨_, by
    simp only [startSim, buildStates, store, forLoop, initCell, fresh, List.replicate,
      initSim, Option.bind, Option.map, List.getElem?_cons_zero, List.getElem?_cons_succ,
      List.set_cons_zero, List.set_cons_succ]
    rfl, ?_⟩
  simp [wrap32]

/-! ## C7, C8: statistics aggregator -/

/-- C7 (as stated) fails for `K = 0`: the array has `N` cells, so `states[N]`
does not exist and the aggregator reads outside the array. -/
theorem aggregate_fails_without_threshold :
    aggregate 1 0 1 [cellWithProb 1] = none ∧ ¬ AggregateMatchesSpec 1 0 1 [cellWithProb 1] := by
  have h : aggregate 1 0 1 [cellWithProb 1] = none := by
    simp [aggregate]
  refine ⟨h, ?_⟩
  rintro ⟨r, hr, -⟩
  rw [h] at hr
  cases hr

/-- C7 (amended): for `K ≥ 1` (and every `N`, in particular `N ≥ 1`), every `λ` and
every final array of `N + K` cells the aggregator returns `pbl = oldp[N]`,
`meanpackets = Σ_{i=1..N} i·oldp[i] + Σ_{i=N+1..N+K-1} (i-N)·oldp[i]` and
`gamma = λ·(1 - oldp[N])`. -/
theorem aggregate_formulas (N K : ℕ) (lam : ℚ) (m : Mem) (hK : 1 ≤ K)
    (hlen : m.length = N + K) : AggregateMatchesSpec N K lam m := by
  have hNl : N < m.length := by omega
  refine ⟨_, aggregate_eq N K lam m hK hlen, ?_, rfl, rfl⟩
  simp only [prob, List.getElem?_eq_getElem hNl, Option.map, Option.getD]

theorem aggregate_formulas_witness :
    (1 ≤ 2 ∧
      [cellWithProb (1 / 10), cellWithProb (2 / 10), cellWithProb (3 / 10),
        cellWithProb (4 / 10)].length = 2 + 2) ∧
    AggregateMatchesSpec 2 2 3
      [cellWithProb (1 / 10), cellWithProb (2 / 10), cellWithProb (3 / 10),
        cellWithProb (4 / 10)] :=
  ⟨⟨by decide, rfl⟩, aggregate_formulas 2 2 3 _ (by decide) rfl⟩

/-- C8 (as stated) fails: with `λ = 0` the throughput is `0` and the mean sojourn
time is the quotient `0 / 0` (`NaN`); with a full-state probability of `1` the
throughput is `0` and the mean sojourn time is `1 / 0` (`+Inf`). -/
theorem sojourn_time_divides_by_zero :
    (∃ r, aggregate 1 1 0 [cellWithProb 1, cellWithProb 0] = some r ∧ r.gamma = 0 ∧
      r.meantime = fdiv r.meanpackets 0 ∧ r.meantime = Dbl.nan) ∧
    (∃ r, aggregate 1 1 1 [cellWithProb 0, cellWithProb 1] = some r ∧ r.gamma = 0 ∧
      r.meantime = fdiv r.meanpackets 0 ∧ r.meantime = Dbl.posInf) := by
  refine ⟨⟨_, aggregate_eq 1 1 0 _ (by decide) rfl, ?_⟩,
    ⟨_, aggregate_eq 1 1 1 _ (by decide) rfl, ?_⟩⟩
  · simp [fdiv, prob, cellWithProb]
  · simp [fdiv, prob, cellWithProb, fresh]

/-- C8 (amended): the aggregator has no guard.  For `K ≥ 1` and every
final array of `N + K` cells the mean sojourn time is the `double` quotient
`meanpackets / gamma`; when `gamma = 0` this is `NaN` for `meanpackets = 0`,
`+Inf` for `meanpackets > 0` and `-Inf` for `meanpackets < 0`, never a finite
value. -/
theorem sojourn_time_unguarded (N K : ℕ) (lam : ℚ) (m : Mem) (hK : 1 ≤ K)
    (hlen : m.length = N + K) :
    ∃ r, aggregate N K lam m = some r ∧ r.meantime = fdiv r.meanpackets r.gamma ∧
      (r.gamma = 0 →
        (r.meanpackets = 0 → r.meantime = Dbl.nan) ∧
        (0 < r.meanpackets → r.meantime = Dbl.posInf) ∧
        (r.meanpackets < 0 → r.meantime = Dbl.negInf) ∧
        ∀ q, r.meantime ≠ Dbl.finite q) := by
  refine ⟨_, aggregate_eq N K lam m hK hlen, rfl, ?_⟩
  intro hg
  simp only at hg
  simp only [fdiv, hg, if_true]
  refine ⟨fun h => by rw [if_pos h], fun h => ?_, fun h => ?_, fun q => ?_⟩
  · rw [if_neg (ne_of_gt h), if_pos h]
  · rw [if_neg (ne_of_lt h), if_neg (not_lt.mpr (le_of_lt h))]
  · split_ifs <;> simp

theorem sojourn_time_unguarded_witness :
    ∃ r, aggregate 2 2 0 [cellWithProb (1 / 10), cellWithProb (2 / 10), cellWithProb (3 / 10),
        cellWithProb (4 / 10)] = some r ∧ r.meantime = fdiv r.meanpackets r.gamma ∧
      (r.gamma = 0 →
        (r.meanpackets = 0 → r.meantime = Dbl.nan) ∧
        (0 < r.meanpackets → r.meantime = Dbl.posInf) ∧
        (r.meanpackets < 0 → r.meantime = Dbl.negInf) ∧
        ∀ q, r.meantime ≠ Dbl.finite q) :=
  sojourn_time_unguarded 2 2 0 _ (by decide) rfl

/-! ## C9, C10: probabilities after an overflow of `arrivals_tot` -/

/-- C9 at `N = 1`, `K = 1`, `λ = 1`, `μ = 0`, `E = 2147483647`, `max_gens = 1`,
`eps = 0.01`: every event is an arrival, the addition `arrivals_tot += arrivals_gen`
of line 193 leaves the `int` range (`1 + 2147483647`), and after generation 1 state
0 has `arrivals_tot = 1 > 0` with a negative `oldp`. -/
theorem probability_negative_after_overflow :
    ∃ r, simulate ⟨1, 1, 1, 0, 2147483647, 1, 1 / 100⟩ (fun _ => 0) = some r ∧
      r.generation = 1 ∧ r.arrivals_tot = -2147483648 ∧
      ∃ d, r.states[0]? = some d ∧ 0 < d.arrivals_tot ∧ d.oldp < 0 ∧
        ¬ (d.arrivals_tot ≤ r.arrivals_tot) := by
  refine ⟨_, simulate_overflow 2147483647 (by norm_num) 1 (1 / 100) _ (by norm_num),
    rfl, rfl, _, rfl, ?_, ?_, ?_⟩ <;> norm_num

/-- C10 at `N = 1`, `K = 1`, `λ = 1`, `μ = 0`, `E = 2147483647`, `max_gens = 1`,
`eps = 3`: the run ends with `conv < eps`, and the cached probabilities of the two
states sum to `-1`. -/
theorem probability_sum_after_overflow :
    ∃ r, simulate ⟨1, 1, 1, 0, 2147483647, 1, 3⟩ (fun _ => 0) = some r ∧
      r.conv < 3 ∧ r.states.length = 1 + 1 ∧
      (r.states.map fun c => c.oldp).sum = -1 := by
  refine ⟨_, simulate_overflow 2147483647 (by norm_num) 1 3 _ (by norm_num), ?_, rfl, ?_⟩
  · norm_num
  · norm_num

/-! ## C11, C12: number of events of a run -/

/-- C11: for `N ≥ 1`, `K ≥ 1`, `λ + μ > 0`, every `int` value `E ≥ 1` of
`events_per_gen` and every requested `max_gens` (also `≤ 0`), the run returns after
`G` generations of `E` events with `G × E ≤ INT_MAX`, so the product
`generation * events_per_gen` of line 238 does not leave the `int` range. -/
theorem events_fit_in_int (p : Params) (draws : ℕ → ℚ) (hN : 1 ≤ p.N) (hK : 1 ≤ p.K)
    (_hrate : 0 < p.lam + p.mu) (hE : 1 ≤ p.events_per_gen)
    (hEmax : (p.events_per_gen : ℤ) ≤ INT_MAX) :
    ∃ (G : ℕ) (r : Sim), simulate p draws = some r ∧ afterGens p draws G = some r ∧
      r.generation = (G : ℤ) ∧
      (G : ℤ) * (p.events_per_gen : ℤ) ≤ 2 ^ 31 - 1 ∧
      wrap32 (r.generation * (p.events_per_gen : ℤ))
        = (G : ℤ) * (p.events_per_gen : ℤ) := by
  obtain ⟨G, s, r, -, -, hG, hr, -, hgr, hrg, hcase, -, -⟩ := simulate_passes p draws hN hK hE
  have hEpos : (0 : ℤ) < p.events_per_gen := by exact_mod_cast hE
  have hGpos : (0 : ℤ) < G := by exact_mod_cast hG
  have hbound : (G : ℤ) * (p.events_per_gen : ℤ) ≤ INT_MAX := by
    rcases hcase with h1 | h1
    · subst h1
      simpa using hEmax
    · have h2 := clamp_mul_le p.max_gens p.events_per_gen hE
      have h3 : (G : ℤ) * (p.events_per_gen : ℤ)
          ≤ clampMaxGens p.max_gens p.events_per_gen * (p.events_per_gen : ℤ) :=
        mul_le_mul_of_nonneg_right h1 (le_of_lt hEpos)
      nlinarith
  have hnn : 0 ≤ (G : ℤ) * (p.events_per_gen : ℤ) := le_of_lt (mul_pos hGpos hEpos)
  refine ⟨G, r, hr, hgr, hrg, ?_, ?_⟩
  · unfold INT_MAX at hbound
    norm_num
    exact hbound
  · rw [hrg]
    exact wrap32_of_range (by omega) hbound

theorem events_fit_in_int_witness :
    ∃ (G : ℕ) (r : Sim), simulate demoParams (constDraws (1 / 4)) = some r ∧
      afterGens demoParams (constDraws (1 / 4)) G = some r ∧
      r.generation = (G : ℤ) ∧
      (G : ℤ) * (demoParams.events_per_gen : ℤ) ≤ 2 ^ 31 - 1 ∧
      wrap32 (r.generation * (demoParams.events_per_gen : ℤ))
        = (G : ℤ) * (demoParams.events_per_gen : ℤ) :=
  events_fit_in_int demoParams (constDraws (1 / 4)) (by decide) (by decide)
    (by norm_num [demoParams]) (by decide) (by norm_num [demoParams, INT_MAX])

/-- C12 (as stated) fails: with `max_gens = 0` (and `N = K = 1`, `E = 1`) the
`do ... while` loop still runs one generation, so one event is executed while
`max_gens × events_per_gen = 0`. -/
theorem events_exceed_zero_budget :
    ¬ EventsWithinBudget ⟨1, 1, 1, 1, 1, 0, 1 / 100⟩ (constDraws (1 / 4)) := by
  rintro ⟨G, r, hr, -, hrg, hle⟩
  obtain ⟨G', -, r', -, -, hG', hr', -, -, hrg', -, -, -⟩ :=
    simulate_passes ⟨1, 1, 1, 1, 1, 0, 1 / 100⟩ (constDraws (1 / 4)) (le_refl 1) (le_refl 1)
      (le_refl 1)
  rw [hr] at hr'
  cases hr'
  have hGG : (G : ℤ) = (G' : ℤ) := hrg.symm.trans hrg'
  have h1 : (1 : ℤ) ≤ (G' : ℤ) := by exact_mod_cast hG'
  simp only [Nat.cast_one, mul_one, zero_mul] at hle
  omega

/-- C12 (amended): for `N ≥ 1`, `K ≥ 1`, `λ + μ > 0` and `E ≥ 1`, every integer
`max_gens` and every draw stream, the run terminates after `G ≥ 1` generations of
`E` events each, and `G × E ≤ max(1, max_gens) × E`: at most
`max_gens × events_per_gen` events when `max_gens ≥ 1`, and exactly one generation
when `max_gens ≤ 1`. -/
theorem events_within_budget (p : Params) (draws : ℕ → ℚ) (hN : 1 ≤ p.N) (hK : 1 ≤ p.K)
    (_hrate : 0 < p.lam + p.mu) (hE : 1 ≤ p.events_per_gen) :
    ∃ (G : ℕ) (r : Sim), 1 ≤ G ∧ simulate p draws = some r ∧
      afterGens p draws G = some r ∧ r.generation = (G : ℤ) ∧
      (G : ℤ) * (p.events_per_gen : ℤ) ≤ max 1 p.max_gens * (p.events_per_gen : ℤ) ∧
      (1 ≤ p.max_gens → EventsWithinBudget p draws) ∧
      (p.max_gens ≤ 1 → G = 1) := by
  obtain ⟨G, s, r, -, -, hG, hr, -, hgr, hrg, hcase, -, -⟩ := simulate_passes p draws hN hK hE
  have hEpos : (0 : ℤ) < p.events_per_gen := by exact_mod_cast hE
  have hcl : clampMaxGens p.max_gens p.events_per_gen ≤ p.max_gens := min_le_left _ _
  have hGle : (G : ℤ) ≤ max 1 p.max_gens := by
    rcases hcase with h1 | h1
    · subst h1
      exact le_max_left _ _
    · exact le_trans (le_trans h1 hcl) (le_max_right _ _)
  refine ⟨G, r, hG, hr, hgr, hrg, mul_le_mul_of_nonneg_right hGle (le_of_lt hEpos), ?_, ?_⟩
  · intro h1
    rw [max_eq_right h1] at hGle
    exact ⟨G, r, hr, hgr, hrg, mul_le_mul_of_nonneg_right hGle (le_of_lt hEpos)⟩
  · intro h1
    rw [max_eq_left h1] at hGle
    have : (1 : ℤ) ≤ (G : ℤ) := by exact_mod_cast hG
    have : (G : ℤ) = 1 := le_antisymm hGle this
    exact_mod_cast this

theorem events_within_budget_witness :
    ∃ (G : ℕ) (r : Sim), 1 ≤ G ∧ simulate demoParams (constDraws (1 / 4)) = some r ∧
      afterGens demoParams (constDraws (1 / 4)) G = some r ∧ r.generation = (G : ℤ) ∧
      (G : ℤ) * (demoParams.events_per_gen : ℤ)
        ≤ max 1 demoParams.max_gens * (demoParams.events_per_gen : ℤ) ∧
      (1 ≤ demoParams.max_gens → EventsWithinBudget demoParams (constDraws (1 / 4))) ∧
      (demoParams.max_gens ≤ 1 → G = 1) :=
  events_within_budget demoParams (constDraws (1 / 4)) (by decide) (by decide)
    (by norm_num [demoParams]) (by decide)

/-! ## C13, C14, C15: shape of the built graph -/

theorem builtCell_next_up_self (N K : ℕ) (lam mu : ℚ) (hN : 1 ≤ N) (hK : 2 ≤ K) (i : ℕ) :
    (builtCell N K lam mu i).next_up = some i ↔ i = N ∨ (N = 1 ∧ i = N + K - 1) := by
  unfold builtCell
  split_ifs with h1 h2 h3 h4 h5
  · simp only [initCell, Option.some.injEq]
    omega
  · simp only [initCell, Option.some.injEq]
    omega
  · simp only [initCell, Option.some.injEq]
    omega
  · simp only [initCell, Option.some.injEq]
    omega
  · omega
  · simp only [initCell, Option.some.injEq]
    omega

/-- For `K = 1` every index the builder writes, every pointer it stores and the
initial cursor lie inside the array of `N + 1` cells, and the arrival target of the
empty state is state 1. -/
theorem threshold_one_in_bounds (N : ℕ) (lam mu : ℚ) (hN : 1 ≤ N) :
    ∃ m, buildStates N 1 lam mu = some m ∧ m.length = N + 1 ∧ Closed m ∧
      rowOf m 0 = some (1, some 1, none) ∧
      ∃ s, initSim m = some s ∧ s.cur = some 1 ∧ 1 < s.states.length := by
  obtain ⟨m, hm, hlen, hclosed, hcells⟩ := buildStates_closed N 1 lam mu hN (le_refl 1)
  have h0 : 0 < m.length := by omega
  refine ⟨m, hm, hlen, hclosed, ?_, ?_⟩
  · unfold rowOf
    rw [hcells 0 (by omega)]
    have h1 : ¬ (0 = N + 1 - 1) := by omega
    have h2 : ¬ (N + 1 ≤ 0) := by omega
    have h3 : ¬ (0 = N) := by omega
    simp [builtCell, h1, h3, initCell]
  · have hst := store_some (fun s => { s with arrivals_tot := wrap32 (s.arrivals_tot + 1) }) h0
    refine ⟨_, by simp only [initSim, hst, Option.map]; rfl, rfl, ?_⟩
    simp only [List.length_set]
    omega

/-- C13 at `K = 0`: with `N = 2` the array has two cells and the block of lines
120-124 writes `states[2]`; with `N = 1` the array has one cell, lines 120-124
write `states[1]` and line 161 makes `&states[1]` the initial cursor.  In both
cases the builder leaves the array. -/
theorem builder_leaves_array_without_threshold :
    buildStates 2 0 1 1 = none ∧ buildStates 1 0 1 1 = none ∧
      store (List.replicate (2 + 0) fresh) 2
        (initCell (1 / (1 + 1)) (some 2) (some (2 - 1))) = none ∧
      (initSim (List.replicate (1 + 0) fresh)).map (fun s => s.cur) = some (some 1) := by
  refine ⟨?_, ?_, ?_, ?_⟩
  · simp [buildStates, store, forLoop, initCell, fresh, List.replicate]
  · simp [buildStates, store, forLoop, initCell, fresh, List.replicate]
  · simp [store, List.replicate]
  · simp [initSim, store, List.replicate]

/-- C14 (as stated) fails: for `N = 1`, `K = 2` the service-initiation state
(index `N+K-1 = 2 = K`) points to itself as well, so two states have a self-loop on
arrival; for `N = 2`, `K = 1` the full state is overwritten and no state has one. -/
theorem self_loop_not_unique :
    ¬ SelfLoopOnlyAtFull 1 2 1 1 ∧ ¬ SelfLoopOnlyAtFull 2 1 1 1 := by
  constructor
  · rintro ⟨m, hm, -, h⟩
    obtain ⟨m', hm', -, hcells⟩ := buildStates_cells 1 2 1 1 (le_refl 1) (by decide)
    rw [hm] at hm'
    cases hm'
    have h2 := (h 2 (by decide)).mp (by
      unfold SelfLoop
      rw [hcells 2 (by decide)]
      rfl)
    omega
  · rintro ⟨m, hm, -, h⟩
    obtain ⟨m', hm', -, hcells⟩ := buildStates_cells 2 1 1 1 (by decide) (le_refl 1)
    rw [hm] at hm'
    cases hm'
    have h2 := (h 2 (by decide)).mpr rfl
    unfold SelfLoop at h2
    rw [hcells 2 (by decide)] at h2
    simp [builtCell, initCell] at h2

/-- C14 (amended): for `N ≥ 1` and `K ≥ 2` the full state `N` has an arrival
transition to itself; for `N ≥ 2` it is the only such state, and for `N = 1` the
service-initiation state `N+K-1 = K` is the only other one. -/
theorem self_loop_states (N K : ℕ) (lam mu : ℚ) (hN : 1 ≤ N) (hK : 2 ≤ K) :
    ∃ m, buildStates N K lam mu = some m ∧ m.length = N + K ∧
      (∀ i, i < N + K → (SelfLoop m i ↔ i = N ∨ (N = 1 ∧ i = N + K - 1))) ∧
      (2 ≤ N → SelfLoopOnlyAtFull N K lam mu) := by
  obtain ⟨m, hm, hlen, hcells⟩ := buildStates_cells N K lam mu hN (by omega)
  have key : ∀ i, i < N + K → (SelfLoop m i ↔ i = N ∨ (N = 1 ∧ i = N + K - 1)) := by
    intro i hi
    unfold SelfLoop
    rw [hcells i hi]
    exact builtCell_next_up_self N K lam mu hN hK i
  refine ⟨m, hm, hlen, key, fun hN2 => ⟨m, hm, hlen, fun i hi => ?_⟩⟩
  rw [key i hi]
  constructor
  · rintro (h | ⟨h, -⟩)
    · exact h
    · omega
  · exact Or.inl

theorem self_loop_states_witness :
    (1 ≤ 2 ∧ 2 ≤ 3) ∧
    ∃ m, buildStates 2 3 1 2 = some m ∧ m.length = 2 + 3 ∧
      (∀ i, i < 2 + 3 → (SelfLoop m i ↔ i = 2 ∨ (2 = 1 ∧ i = 2 + 3 - 1))) ∧
      (2 ≤ 2 → SelfLoopOnlyAtFull 2 3 1 2) :=
  ⟨⟨by decide, by decide⟩, self_loop_states 2 3 1 2 (by decide) (by decide)⟩

/-- C15 (as stated) fails: for `N = 1`, `K = 2` the arrival target `K = 2` of the
service-initiation state is not in `1..N`; it is the service-initiation state
itself (index `N+K-1 = 2`). -/
theorem service_init_target_outside_ordinary :
    ¬ ServiceInitLeavesChain 1 2 1 1 ∧
      ∃ m, buildStates 1 2 1 1 = some m ∧ rowOf m (1 + 2 - 1) = some (1, some 2, none) := by
  constructor
  · rintro ⟨m, -, -, -, h⟩
    omega
  · obtain ⟨m, hm, -, hcells⟩ := buildStates_cells 1 2 1 1 (le_refl 1) (by decide)
    refine ⟨m, hm, ?_⟩
    unfold rowOf
    rw [hcells 2 (by decide)]
    rfl

/-- C15 (amended): for `N ≥ 1` and `K ≥ 1` the service-initiation state `N+K-1` has
`probup = 1.0`, no service transition and arrival target `K`.  When `K ≤ N` the
target lies in `1..N` (and for `K ≥ 2` it is a state with a service transition to
`K-1`); when `K > N` the target is a state of the buffering chain, with
`probup = 1.0` and no service transition. -/
theorem service_init_target (N K : ℕ) (lam mu : ℚ) (hN : 1 ≤ N) (hK : 1 ≤ K) :
    ∃ m, buildStates N K lam mu = some m ∧ ServiceInitRow N K m ∧
      (K ≤ N → ServiceInitLeavesChain N K lam mu) ∧
      (2 ≤ K → K ≤ N →
        ∃ u, rowOf m K = some (lam / (lam + mu), some u, some (K - 1))) ∧
      (N < K → N + 1 ≤ K ∧ K ≤ N + K - 1 ∧ ∃ u, rowOf m K = some (1, some u, none)) := by
  obtain ⟨m, hm, hlen, hcells⟩ := buildStates_cells N K lam mu hN hK
  have hS : ServiceInitRow N K m := by
    unfold ServiceInitRow rowOf
    rw [hcells (N + K - 1) (by omega)]
    simp [builtCell, initCell]
  refine ⟨m, hm, hS, fun h => ⟨m, hm, hS, hK, h⟩, ?_, ?_⟩
  · intro h2 hle
    unfold rowOf
    rw [hcells K (by omega)]
    have h1 : ¬ (K = N + K - 1) := by omega
    have h3 : ¬ (N + 1 ≤ K) := by omega
    simp only [builtCell, if_neg h1, if_neg h3]
    by_cases h4 : K = N
    · subst h4
      exact ⟨K, by simp [initCell]⟩
    · have h5 : 1 ≤ K := by omega
      exact ⟨K + 1, by simp [initCell, h4, h5]⟩
  · intro hlt
    refine ⟨by omega, by omega, ?_⟩
    unfold rowOf
    rw [hcells K (by omega)]
    by_cases h1 : K = N + K - 1
    · exact ⟨K, by simp [builtCell, initCell, ← h1]⟩
    · have h3 : N + 1 ≤ K := by omega
      exact ⟨K + 1, by simp [builtCell, initCell, h1, h3]⟩

theorem service_init_target_witness :
    (1 ≤ 2 ∧ 1 ≤ 3) ∧
    ∃ m, buildStates 2 3 1 2 = some m ∧ ServiceInitRow 2 3 m ∧
      (3 ≤ 2 → ServiceInitLeavesChain 2 3 1 2) ∧
      (2 ≤ 3 → 3 ≤ 2 →
        ∃ u, rowOf m 3 = some ((1 : ℚ) / (1 + 2), some u, some (3 - 1))) ∧
      (2 < 3 → 2 + 1 ≤ 3 ∧ 3 ≤ 2 + 3 - 1 ∧ ∃ u, rowOf m 3 = some (1, some u, none)) :=
  ⟨⟨by decide, by decide⟩, service_init_target 2 3 1 2 (by decide) (by decide)⟩

/-! ## C16: the walker and absent transitions -/

theorem clearGen_cursorOk {m : Mem} {cur : Option ℕ} (h : CursorOk m cur) :
    CursorOk (clearGen m) cur := by
  have hclear : (clearGen m).map topo = m.map topo := map_topo_map (fun _ => rfl)
  have hlen : (clearGen m).length = m.length := by simp [clearGen]
  obtain ⟨hc, c, hcur, hcl⟩ := h
  exact ⟨closed_of_topo_eq hclear hc, c, hcur, by rw [hlen]; exact hcl⟩

/-- For `N ≥ 1` and `K ≥ 1` the built graph is closed and the walker never fails:
after any number `g` of generations and any number `e` of further events the cursor
points into the array of `N + K` cells, whose every cell has an arrival target in
the array and, unless `probup = 1.0`, a service target in the array. -/
theorem walker_never_dangles (p : Params) (draws : ℕ → ℚ) (hN : 1 ≤ p.N) (hK : 1 ≤ p.K)
    (g e : ℕ) :
    ∃ (s : Sim) (w : Walk), afterGens p draws g = some s ∧
      eventsLoop draws e
        { states := clearGen s.states, cur := s.cur, arrivals_gen := 0, drawn := s.drawn }
        = some w ∧
      CursorOk w.states w.cur ∧ w.states.length = p.N + p.K := by
  obtain ⟨s0, hs0, hok0, -, -, -, hlen0⟩ := startSim_ok p hN hK
  obtain ⟨s, hs, hok, hlen⟩ := gensFrom_ok p.events_per_gen p.eps draws g s0 hok0
  obtain ⟨w, hw, hwok, hwt⟩ := eventsLoop_ok draws e
    { states := clearGen s.states, cur := s.cur, arrivals_gen := 0, drawn := s.drawn }
    (clearGen_cursorOk hok)
  refine ⟨s, w, by simp only [afterGens, hs0, Option.bind]; exact hs, hw, hwok, ?_⟩
  have h1 : w.states.length = (clearGen s.states).length := by
    have := congrArg List.length hwt
    simpa using this
  rw [h1, ← hlen0, ← hlen]
  simp [clearGen]

/-- C16 at `N = 1`, `K = 0`: the array has one cell, the builder writes `states[1]`
outside it, and the initial cursor `&states[1]` is outside it as well, so the first
walker step reads outside the array; the model of the run returns no result. -/
theorem cursor_outside_array_without_threshold :
    simulate ⟨1, 0, 1, 1, 10, 5, 1 / 100⟩ (constDraws (1 / 2)) = none ∧
      (initSim (List.replicate (1 + 0) fresh)).bind (fun s =>
        walkerStep (constDraws (1 / 2))
          { states := clearGen s.states, cur := s.cur, arrivals_gen := 0, drawn := s.drawn })
        = none := by
  constructor
  · simp [simulate, startSim, buildStates, store, forLoop, initCell, fresh, List.replicate]
  · simp [initSim, store, List.replicate, walkerStep, clearGen]

/-! ## C17: a run with arrival rate zero -/

theorem walkerStep_idle (draws : ℕ → ℚ) (hd : ∀ k, 0 ≤ draws k) (w v : Walk)
    (h : ∀ c ∈ w.states, Idle c) (hv : walkerStep draws w = some v) :
    ∀ c ∈ v.states, Idle c := by
  unfold walkerStep at hv
  cases hcur : w.cur with
  | none => simp [hcur] at hv
  | some i =>
    cases hs : w.states[i]? with
    | none => simp [hcur, hs] at hv
    | some s =>
      simp only [hcur, hs] at hv
      have arrival : s.probup ≠ 0 →
          ∀ c ∈ w.states.set i { s with arrivals_gen := wrap32 (s.arrivals_gen + 1) },
            Idle c := by
        intro hne c hc
        rcases List.mem_or_eq_of_mem_set hc with h1 | h1
        · exact h c h1
        · subst h1
          intro h0
          exact absurd h0 hne
      split_ifs at hv with h1 h2
      · cases hv
        exact arrival (by rw [h1]; norm_num)
      · cases hv
        apply arrival
        intro h0
        rw [h0] at h2
        exact absurd h2 (not_lt.mpr (hd _))
      · cases hv
        exact h

theorem eventsLoop_idle (draws : ℕ → ℚ) (hd : ∀ k, 0 ≤ draws k) :
    ∀ (n : ℕ) (w v : Walk), (∀ c ∈ w.states, Idle c) → eventsLoop draws n w = some v →
      ∀ c ∈ v.states, Idle c := by
  intro n
  induction n with
  | zero =>
    intro w v h hv
    simp only [eventsLoop, Option.some.injEq] at hv
    subst hv
    exact h
  | succ n ih =>
    intro w v h hv
    simp only [eventsLoop] at hv
    cases hstep : walkerStep draws w with
    | none => simp [hstep] at hv
    | some u =>
      simp only [hstep] at hv
      exact ih u v (walkerStep_idle draws hd w u h hstep) hv

theorem settleCell_idle (tot : ℤ) (c : state_t) (h : Idle c) : Idle (settleCell tot c) := by
  intro h0
  have hp : c.probup = 0 := by
    unfold settleCell at h0
    split_ifs at h0 <;> exact h0
  obtain ⟨hg, ht, ho⟩ := h hp
  have hw : wrap32 (c.arrivals_tot + c.arrivals_gen) = 0 := by
    rw [hg, ht]
    rfl
  unfold settleCell
  rw [hw]
  rw [if_neg (lt_irrefl 0)]
  exact ⟨hg, rfl, ho⟩

theorem generationStep_idle (E : ℕ) (eps : ℚ) (draws : ℕ → ℚ) (hd : ∀ k, 0 ≤ draws k)
    (s t : Sim) (h : ∀ c ∈ s.states, Idle c) (ht : generationStep E eps draws s = some t) :
    ∀ c ∈ t.states, Idle c := by
  cases hrun : eventsLoop draws E
      { states := clearGen s.states, cur := s.cur, arrivals_gen := 0, drawn := s.drawn } with
  | none => simp [generationStep, hrun] at ht
  | some w =>
    rw [generationStep_of_run hrun] at ht
    cases ht
    have hclear : ∀ c ∈ clearGen s.states, Idle c := by
      intro c hc
      obtain ⟨c', hc', rfl⟩ := List.mem_map.mp hc
      intro h0
      obtain ⟨-, h2, h3⟩ := h c' hc' h0
      exact ⟨rfl, h2, h3⟩
    have hw := eventsLoop_idle draws hd E _ w hclear hrun
    intro d hd'
    obtain ⟨c, hc, rfl⟩ := List.mem_map.mp hd'
    exact settleCell_idle _ c (hw c hc)

theorem gensFrom_idle (E : ℕ) (eps : ℚ) (draws : ℕ → ℚ) (hd : ∀ k, 0 ≤ draws k) :
    ∀ (g : ℕ) (s t : Sim), (∀ c ∈ s.states, Idle c) → gensFrom E eps draws g s = some t →
      ∀ c ∈ t.states, Idle c := by
  intro g
  induction g with
  | zero =>
    intro s t h ht
    simp only [gensFrom, Option.some.injEq] at ht
    subst ht
    exact h
  | succ g ih =>
    intro s t h ht
    simp only [gensFrom] at ht
    cases hstep : generationStep E eps draws s with
    | none => simp [hstep] at ht
    | some u =>
      simp only [hstep] at ht
      exact ih u t (generationStep_idle E eps draws hd s u h hstep) ht

theorem gensFrom_topo (E : ℕ) (eps : ℚ) (draws : ℕ → ℚ) :
    ∀ (g : ℕ) (s t : Sim), CursorOk s.states s.cur → gensFrom E eps draws g s = some t →
      t.states.map topo = s.states.map topo := by
  intro g
  induction g with
  | zero =>
    intro s t _ ht
    simp only [gensFrom, Option.some.injEq] at ht
    subst ht
    rfl
  | succ g ih =>
    intro s t h ht
    obtain ⟨u, hu, huok, htopo, -⟩ := generationStep_ok E eps draws s h
    simp only [gensFrom, hu] at ht
    exact (ih u t huok ht).trans htopo

theorem startSim_cells (p : Params) (hN : 1 ≤ p.N) (hK : 1 ≤ p.K) :
    ∃ s, startSim p = some s ∧ CursorOk s.states s.cur ∧
      s.states.length = p.N + p.K ∧
      (∀ c ∈ s.states, Idle c) ∧
      ∀ j, j < p.N + p.K →
        (s.states[j]?).map topo = some (topo (builtCell p.N p.K p.lam p.mu j)) := by
  obtain ⟨s, hs, hok, -, -, -, hlen⟩ := startSim_ok p hN hK
  obtain ⟨m, hm, hmlen, hcells⟩ := buildStates_cells p.N p.K p.lam p.mu hN hK
  have h0 : 0 < m.length := by omega
  have hst := store_some (fun s => { s with arrivals_tot := wrap32 (s.arrivals_tot + 1) }) h0
  have hs' := hs
  simp only [startSim, hm, Option.bind, initSim, hst, Option.map, Option.some.injEq] at hs'
  have hcell : ∀ c ∈ m, c.arrivals_gen = 0 ∧ c.arrivals_tot = 0 ∧ c.oldp = 1 := by
    intro c hc
    obtain ⟨j, hj⟩ := List.mem_iff_getElem?.mp hc
    have hjl : j < p.N + p.K := by
      rcases List.getElem?_eq_some.mp hj with ⟨h, -⟩
      rw [hmlen] at h
      exact h
    rw [hcells j hjl] at hj
    cases hj
    unfold builtCell
    split_ifs <;> exact ⟨rfl, rfl, rfl⟩
  have hm0 : m[0]? = some (builtCell p.N p.K p.lam p.mu 0) := hcells 0 (by omega)
  have hp0 : m[0].probup = 1 := by
    have e : m[0] = builtCell p.N p.K p.lam p.mu 0 := by
      rw [List.getElem?_eq_getElem h0] at hm0
      exact Option.some.inj hm0
    rw [e]
    have h1 : ¬ (0 = p.N + p.K - 1) := by omega
    have h2 : ¬ (p.N + 1 ≤ 0) := by omega
    have h3 : ¬ (0 = p.N) := by omega
    simp [builtCell, h1, h3, initCell]
  refine ⟨s, hs, hok, hlen, ?_, ?_⟩
  · subst hs'
    intro c hc
    rcases List.mem_or_eq_of_mem_set hc with h1 | h1
    · intro _
      exact hcell c h1
    · subst h1
      intro h
      have h' : m[0].probup = 0 := h
      rw [hp0] at h'
      norm_num at h'
  · intro j hj
    subst hs'
    have ht : (m.set 0 { m[0] with arrivals_tot := wrap32 (m[0].arrivals_tot + 1) }).map topo
        = m.map topo := map_topo_set (List.getElem?_eq_getElem h0) rfl
    have := congrArg (fun l => l[j]?) ht
    simp only [List.getElem?_map] at this
    rw [this, hcells j hj]
    rfl

theorem zero_rate_states (p : Params) (draws : ℕ → ℚ) (hN : 1 ≤ p.N) (hK : 2 ≤ p.K)
    (hlam : p.lam = 0) (hE : 1 ≤ p.events_per_gen) (hd : ∀ k, 0 ≤ draws k) :
    ∃ r, simulate p draws = some r ∧ r.states.length = p.N + p.K ∧
      (r.states[0]?).map topo = some (1, some (p.N + 1), none) ∧
      ∀ i, 1 ≤ i → i ≤ p.N →
        ∃ c, r.states[i]? = some c ∧ c.arrivals_tot = 0 ∧ c.oldp = 1 := by
  obtain ⟨G, s, r, hs, hok, -, hr, hgr, -, -, -, -, -⟩ :=
    simulate_passes p draws hN (by omega) hE
  obtain ⟨s', hs', -, hlen, hidle, hcells⟩ := startSim_cells p hN (by omega)
  rw [hs] at hs'
  cases hs'
  have hri := gensFrom_idle p.events_per_gen p.eps draws hd G s r hidle hgr
  have hrt := gensFrom_topo p.events_per_gen p.eps draws G s r hok hgr
  have hrlen : r.states.length = p.N + p.K := by
    have := congrArg List.length hrt
    simp only [List.length_map] at this
    rw [this, hlen]
  have hat : ∀ j, j < p.N + p.K →
      (r.states[j]?).map topo = some (topo (builtCell p.N p.K p.lam p.mu j)) := by
    intro j hj
    have := congrArg (fun l => l[j]?) hrt
    simp only [List.getElem?_map] at this
    rw [this]
    exact hcells j hj
  refine ⟨r, hr, hrlen, ?_, ?_⟩
  · rw [hat 0 (by omega)]
    have h1 : ¬ (0 = p.N + p.K - 1) := by omega
    have h3 : ¬ (0 = p.N) := by omega
    have h4 : ¬ (p.K ≤ 1) := by omega
    simp [builtCell, h1, h3, h4, initCell, topo]
  · intro i hi1 hi2
    have hil : i < r.states.length := by omega
    have hget : r.states[i]? = some r.states[i] := List.getElem?_eq_getElem hil
    have ht := hat i (by omega)
    rw [hget] at ht
    have hp : r.states[i].probup = 0 := by
      have e := congrArg Prod.fst (Option.some.inj ht)
      have h1 : ¬ (i = p.N + p.K - 1) := by omega
      have h2 : ¬ (p.N + 1 ≤ i) := by omega
      simp only [Option.map, topo, builtCell, if_neg h1, if_neg h2] at e
      rw [e]
      split_ifs <;> simp [initCell, hlam]
    obtain ⟨-, h2, h3⟩ := hri _ (List.getElem_mem hil) hp
    exact ⟨_, hget, h2, h3⟩

/-- C17 (as stated) fails: for `N = 2`, `K = 2`, `λ = 0`, `μ = 1` the ordinary state
1 and the full state 2 never count an arrival and keep the initial probability
`1.0`, so the other probabilities are not `0` and the overflow probability is
not `0`. -/
theorem zero_rate_report_fails :
    ¬ ZeroRateReport ⟨2, 2, 0, 1, 5, 1, 1 / 100⟩ (constDraws (1 / 2)) := by
  rintro ⟨r, rep, hr, -, -, -, hzero, -, -⟩
  obtain ⟨r', hr', -, -, hkeep⟩ :=
    zero_rate_states ⟨2, 2, 0, 1, 5, 1, 1 / 100⟩ (constDraws (1 / 2)) (by decide) (by decide)
      rfl (by decide) (fun _ => by norm_num [constDraws])
  rw [hr] at hr'
  cases hr'
  obtain ⟨c, hc, -, ho⟩ := hkeep 1 (le_refl 1) (by decide)
  have h0 := hzero 1 (le_refl 1) (by decide)
  unfold prob at h0
  rw [hc] at h0
  simp only [Option.map, Option.getD] at h0
  rw [ho] at h0
  norm_num at h0

/-- C17 (amended): for `λ = 0`, `μ > 0`, `N ≥ 1`, `K ≥ 2`, `E ≥ 1` and draws in
`[0, 1)` the run returns; the empty state keeps `probup = 1.0` with arrival target
`N + 1`, so it is left at every visit; the states `1..N` never count an arrival
and keep the initial probability `1.0`; the reported overflow probability is `1`
and the throughput is `0`. -/
theorem zero_arrival_rate_run (p : Params) (draws : ℕ → ℚ) (hN : 1 ≤ p.N) (hK : 2 ≤ p.K)
    (hlam : p.lam = 0) (_hmu : 0 < p.mu) (hE : 1 ≤ p.events_per_gen)
    (hd : ∀ k, 0 ≤ draws k ∧ draws k < 1) :
    ∃ r rep, simulate p draws = some r ∧ aggregate p.N p.K p.lam r.states = some rep ∧
      (r.states[0]?).map topo = some (1, some (p.N + 1), none) ∧
      (∀ i, 1 ≤ i → i ≤ p.N →
        ∃ c, r.states[i]? = some c ∧ c.arrivals_tot = 0 ∧ c.oldp = 1) ∧
      rep.pbl = 1 ∧ rep.gamma = 0 := by
  obtain ⟨r, hr, hlen, h0, hkeep⟩ :=
    zero_rate_states p draws hN hK hlam hE (fun k => (hd k).1)
  have hagg := aggregate_eq p.N p.K p.lam r.states (by omega) hlen
  obtain ⟨c, hc, -, ho⟩ := hkeep p.N hN (le_refl _)
  have hp : prob r.states p.N = 1 := by
    unfold prob
    rw [hc]
    exact ho
  refine ⟨r, _, hr, hagg, h0, hkeep, hp, ?_⟩
  show p.lam * (1 - prob r.states p.N) = 0
  rw [hlam, zero_mul]

theorem zero_arrival_rate_run_witness :
    ∃ r rep, simulate ⟨2, 2, 0, 1, 5, 1, 1 / 100⟩ (constDraws (1 / 2)) = some r ∧
      aggregate 2 2 0 r.states = some rep ∧
      (r.states[0]?).map topo = some (1, some (2 + 1), none) ∧
      (∀ i, 1 ≤ i → i ≤ 2 →
        ∃ c, r.states[i]? = some c ∧ c.arrivals_tot = 0 ∧ c.oldp = 1) ∧
      rep.pbl = 1 ∧ rep.gamma = 0 :=
  zero_arrival_rate_run ⟨2, 2, 0, 1, 5, 1, 1 / 100⟩ (constDraws (1 / 2)) (by decide)
    (by decide) rfl (by norm_num) (by decide) (fun _ => by norm_num [constDraws])

/-! ## C18: the run for `N = 1`, `K = 1` -/

theorem startSim_threshold_one (lam mu : ℚ) (E : ℕ) (G : ℤ) (eps : ℚ) :
    startSim ⟨1, 1, lam, mu, E, G, eps⟩ = some
      { states := [{ probup := 1, next_up := some 1, next_down := none, arrivals_gen := 0,
                     arrivals_tot := 1, oldp := 1 },
                   { probup := 1, next_up := some 1, next_down := none, arrivals_gen := 0,
                     arrivals_tot := 0, oldp := 1 }]
        cur := some 1, arrivals_tot := 1, generation := 0, conv := 0, drawn := 0 } := by
  simp [startSim, buildStates, store, forLoop, initCell, fresh, List.replicate, initSim,
    wrap32]

theorem selfloop_generation (n : ℕ) (eps : ℚ) (draws : ℕ → ℚ) (a b T g : ℤ) (x z c : ℚ)
    (d : ℕ) (hT : 0 ≤ T) (hn : 1 ≤ n) (hb : 1 + T + n ≤ INT_MAX) :
    generationStep n eps draws
      { states := [{ probup := 1, next_up := some 1, next_down := none, arrivals_gen := a,
                     arrivals_tot := 1, oldp := x },
                   { probup := 1, next_up := some 1, next_down := none, arrivals_gen := b,
                     arrivals_tot := T, oldp := z }]
        cur := some 1, arrivals_tot := 1 + T, generation := g, conv := c, drawn := d }
    = some
      { states := [{ probup := 1, next_up := some 1, next_down := none, arrivals_gen := 0,
                     arrivals_tot := 1, oldp := 1 / ((1 + T + n : ℤ) : ℚ) },
                   { probup := 1, next_up := some 1, next_down := none, arrivals_gen := n,
                     arrivals_tot := T + n,
                     oldp := ((T + n : ℤ) : ℚ) / ((1 + T + n : ℤ) : ℚ) }]
        cur := some 1, arrivals_tot := 1 + T + n, generation := wrap32 (g + 1)
        conv := max (max 0 |(1 / ((1 + T + n : ℤ) : ℚ) - x) / x|)
          |(((T + n : ℤ) : ℚ) / ((1 + T + n : ℤ) : ℚ) - z) / z|
        drawn := d } := by
  have hn0 : (1 : ℤ) ≤ n := by exact_mod_cast hn
  have hrun := eventsLoop_selfloop draws
    { probup := 1, next_up := some 1, next_down := none, arrivals_gen := 0,
      arrivals_tot := 1, oldp := x }
    { probup := 1, next_up := some 1, next_down := none, arrivals_gen := 0,
      arrivals_tot := T, oldp := z } rfl rfl n 0 0 d (le_refl 0)
    (by omega) (le_refl 0) (by omega)
  have hgen := @generationStep_of_run n eps draws
    { states := [{ probup := 1, next_up := some 1, next_down := none, arrivals_gen := a,
                   arrivals_tot := 1, oldp := x },
                 { probup := 1, next_up := some 1, next_down := none, arrivals_gen := b,
                   arrivals_tot := T, oldp := z }]
      cur := some 1, arrivals_tot := 1 + T, generation := g, conv := c, drawn := d } _ hrun
  rw [hgen]
  have e1 : wrap32 (1 + T + (0 + (n : ℤ))) = 1 + T + n :=
    by rw [zero_add]; exact wrap32_of_range (by omega) hb
  have e2 : wrap32 (1 + (0 : ℤ)) = 1 := rfl
  have e3 : wrap32 (T + (0 + (n : ℤ))) = T + n :=
    by rw [zero_add]; exact wrap32_of_range (by omega) (by omega)
  have p2 : (0 : ℤ) < 1 := by norm_num
  have p3 : (0 : ℤ) < T + n := by omega
  simp only [List.map, settleLoop, settleCell, e1, e2, e3, if_pos p2, if_pos p3]
  simp

theorem selfloop_generations (n : ℕ) (eps : ℚ) (draws : ℕ → ℚ) (hn : 1 ≤ n) :
    ∀ (g : ℕ) (s : Sim) (T a b : ℤ) (z : ℚ),
      s.states =
        [{ probup := 1, next_up := some 1, next_down := none, arrivals_gen := a,
           arrivals_tot := 1, oldp := 1 / ((1 + T : ℤ) : ℚ) },
         { probup := 1, next_up := some 1, next_down := none, arrivals_gen := b,
           arrivals_tot := T, oldp := z }] →
      s.cur = some 1 → s.arrivals_tot = 1 + T → 0 ≤ T →
      1 + T + (n : ℤ) * ((g : ℤ) + 1) ≤ INT_MAX →
      ∃ t, gensFrom n eps draws (g + 1) s = some t ∧
        LoopShape t (T + (n : ℤ) * ((g : ℤ) + 1)) ∧
        (n : ℚ) / ((1 + T + (n : ℤ) * ((g : ℤ) + 1) : ℤ) : ℚ) ≤ t.conv := by
  have hn0 : (1 : ℤ) ≤ n := by exact_mod_cast hn
  -- one generation from a state of this form
  have step : ∀ (s : Sim) (T a b : ℤ) (z : ℚ),
      s.states =
        [{ probup := 1, next_up := some 1, next_down := none, arrivals_gen := a,
           arrivals_tot := 1, oldp := 1 / ((1 + T : ℤ) : ℚ) },
         { probup := 1, next_up := some 1, next_down := none, arrivals_gen := b,
           arrivals_tot := T, oldp := z }] →
      s.cur = some 1 → s.arrivals_tot = 1 + T → 0 ≤ T → 1 + T + (n : ℤ) ≤ INT_MAX →
      ∃ t, generationStep n eps draws s = some t ∧ LoopShape t (T + n) ∧
        (n : ℚ) / ((1 + T + n : ℤ) : ℚ) ≤ t.conv := by
    intro s T a b z hst hcur htot hT hb
    obtain ⟨st, cur, tot, gen, conv, drawn⟩ := s
    simp only at hst hcur htot
    subst hst hcur htot
    refine ⟨_, selfloop_generation n eps draws a b T gen _ z conv drawn hT hn hb, ?_, ?_⟩
    · refine ⟨0, n, ?_, rfl, ?_⟩
      · simp only [List.cons.injEq, and_true]
        refine ⟨?_, ?_⟩
        · congr 2
          push_cast
          ring
        · congr 2
          push_cast
          ring
      · show 1 + T + (n : ℤ) = 1 + (T + n)
        ring
    · show (n : ℚ) / ((1 + T + n : ℤ) : ℚ) ≤
        max (max 0 |(1 / ((1 + T + n : ℤ) : ℚ) - 1 / ((1 + T : ℤ) : ℚ))
          / (1 / ((1 + T : ℤ) : ℚ))|) _
      apply le_trans _ (le_max_left _ _)
      apply le_trans _ (le_max_right _ _)
      have h1 : (0 : ℚ) < ((1 + T : ℤ) : ℚ) := by exact_mod_cast (by omega : (0 : ℤ) < 1 + T)
      have h2 : (0 : ℚ) < ((1 + T + n : ℤ) : ℚ) := by
        exact_mod_cast (by omega : (0 : ℤ) < 1 + T + n)
      have e : (1 / ((1 + T + n : ℤ) : ℚ) - 1 / ((1 + T : ℤ) : ℚ)) / (1 / ((1 + T : ℤ) : ℚ))
          = -((n : ℚ) / ((1 + T + n : ℤ) : ℚ)) := by
        field_simp
        ring
      rw [e, abs_neg]
      exact le_abs_self _
  intro g
  induction g with
  | zero =>
    intro s T a b z hst hcur htot hT hb
    simp only [Nat.cast_zero, zero_add, mul_one] at hb ⊢
    obtain ⟨t, ht, hshape, hconv⟩ := step s T a b z hst hcur htot hT hb
    exact ⟨t, by simp only [gensFrom, ht], hshape, hconv⟩
  | succ g ih =>
    intro s T a b z hst hcur htot hT hb
    have hg0 : (0 : ℤ) ≤ (g : ℤ) := Int.natCast_nonneg g
    have hng : (0 : ℤ) ≤ (n : ℤ) * ((g : ℤ) + 1) := by positivity
    push_cast at hb
    obtain ⟨u, hu, ⟨a', b', hust, hucur, hutot⟩, -⟩ :=
      step s T a b z hst hcur htot hT (by nlinarith)
    obtain ⟨t, ht, hshape, hconv⟩ :=
      ih u (T + n) a' b' _ hust hucur hutot (by omega) (by nlinarith)
    have e : T + (n : ℤ) + (n : ℤ) * ((g : ℤ) + 1) = T + (n : ℤ) * (((g + 1 : ℕ) : ℤ) + 1) := by
      push_cast
      ring
    have e' : 1 + (T + (n : ℤ)) + (n : ℤ) * ((g : ℤ) + 1)
        = 1 + T + (n : ℤ) * (((g + 1 : ℕ) : ℤ) + 1) := by
      push_cast
      ring
    rw [e] at hshape
    rw [e'] at hconv
    exact ⟨t, by simp only [gensFrom, hu]; exact ht, hshape, hconv⟩

/-- C18 at its own input `N = 1`, `K = 1`, `λ = μ = 1`, `E = 1000`, `max_gens = 100`,
`ε = 0.01`: state 1 is left by the builder with `probup = 1.0`, arrival target 1
and no service transition, and for every draw stream the run ends after 100
generations with `oldp[0] = 1/100001` and `oldp[1] = 100000/100001`. -/
theorem half_half_scenario_runs_to_one :
    (∃ m, buildStates 1 1 1 1 = some m ∧ m.length = 1 + 1 ∧
      rowOf m 1 = some (1, some 1, none)) ∧
    ∀ draws : ℕ → ℚ, ∃ r, simulate ⟨1, 1, 1, 1, 1000, 100, 1 / 100⟩ draws = some r ∧
      r.generation = 100 ∧ prob r.states 0 = 1 / 100001 ∧
      prob r.states 1 = 100000 / 100001 := by
  constructor
  · obtain ⟨m, hm, hlen, hcells⟩ := buildStates_cells 1 1 1 1 (le_refl 1) (le_refl 1)
    refine ⟨m, hm, hlen, ?_⟩
    unfold rowOf
    rw [hcells 1 (by decide)]
    rfl
  · intro draws
    obtain ⟨G, s, r, hs, -, hG, hr, hgr, -, hrg, hcase, -, hlast⟩ :=
      simulate_passes ⟨1, 1, 1, 1, 1000, 100, 1 / 100⟩ draws (le_refl 1) (le_refl 1)
        (by decide)
    have hclamp : clampMaxGens 100 1000 = 100 := by
      unfold clampMaxGens INT_MAX
      norm_num
    simp only [hclamp] at hcase hlast
    rw [startSim_threshold_one] at hs
    have hs' := (Option.some.inj hs).symm
    have hG100 : G ≤ 100 := by
      rcases hcase with h | h
      · omega
      · exact_mod_cast h
    obtain ⟨g, rfl⟩ : ∃ g, G = g + 1 := ⟨G - 1, by omega⟩
    obtain ⟨t, ht, ⟨a, b, hst, -, -⟩, hconv⟩ :=
      selfloop_generations 1000 (1 / 100) draws (by decide) g s 0 0 0 1
        (by rw [hs']; simp) (by rw [hs']) (by rw [hs']; rfl) (le_refl 0)
        (by
          have : (g : ℤ) + 1 ≤ 100 := by exact_mod_cast hG100
          unfold INT_MAX
          push_cast
          omega)
    have htr : t = r := by
      have := ht.symm.trans hgr
      exact Option.some.inj this
    subst htr
    have hgq : (0 : ℚ) ≤ (g : ℚ) := Nat.cast_nonneg g
    -- the loop cannot stop before generation 100
    have hg99 : g = 99 := by
      by_contra hne
      have hlt : g + 1 < 100 := by omega
      rcases hlast with h | h
      · have hgle : (g : ℚ) + 1 ≤ 99 := by exact_mod_cast (by omega : g + 1 ≤ 99)
        have hpos : (0 : ℚ) < 1 + 0 + 1000 * ((g : ℚ) + 1) := by positivity
        have h2 : (1 : ℚ) / 100 < 1000 / (1 + 0 + 1000 * ((g : ℚ) + 1)) := by
          rw [div_lt_div_iff₀ (by norm_num) hpos]
          linarith
        push_cast at hconv
        linarith
      · have : ((g + 1 : ℕ) : ℤ) < 100 := by exact_mod_cast hlt
        omega
    subst hg99
    refine ⟨t, hr, ?_, ?_, ?_⟩
    · rw [hrg]
      norm_num
    · unfold prob
      rw [hst]
      simp
    · unfold prob
      rw [hst]
      simp

/-! ## C19: a run with service rate zero -/

theorem walkerStep_upward (draws : ℕ → ℚ) (N : ℕ) (w : Walk) (c : ℕ) (k : ℤ)
    (hup : UpwardOnly N w.states) (hcur : w.cur = some c) (hc1 : 1 ≤ c) (hcN : c ≤ N)
    (hk : w.arrivals_gen = k) (hk0 : 0 ≤ k) (hkm : k < INT_MAX) :
    ∃ v, walkerStep draws w = some v ∧ UpwardOnly N v.states ∧
      v.cur = some (min (c + 1) N) ∧ v.arrivals_gen = k + 1 ∧ v.drawn = w.drawn := by
  obtain ⟨s, hs, hp, hnext⟩ := hup c hc1 hcN
  have hcl : c < w.states.length := by
    rcases List.getElem?_eq_some.mp hs with ⟨h, -⟩
    exact h
  refine ⟨{ states := w.states.set c { s with arrivals_gen := wrap32 (s.arrivals_gen + 1) }
            cur := s.next_up, arrivals_gen := wrap32 (w.arrivals_gen + 1), drawn := w.drawn },
    by simp only [walkerStep, hcur, hs, if_pos hp], ?_, hnext, ?_, rfl⟩
  · intro j hj1 hjN
    obtain ⟨d, hd, hdp, hdn⟩ := hup j hj1 hjN
    by_cases hjc : c = j
    · subst hjc
      rw [hs] at hd
      cases hd
      exact ⟨{ s with arrivals_gen := wrap32 (s.arrivals_gen + 1) },
        by simp [List.getElem?_set, hcl], hdp, hdn⟩
    · exact ⟨d, by simp only [List.getElem?_set_ne hjc]; exact hd, hdp, hdn⟩
  · show wrap32 (w.arrivals_gen + 1) = k + 1
    rw [hk]
    exact wrap32_of_range (by omega) (by omega)

theorem eventsLoop_upward (draws : ℕ → ℚ) (N : ℕ) :
    ∀ (n : ℕ) (w : Walk) (c : ℕ) (k : ℤ), UpwardOnly N w.states → w.cur = some c →
      1 ≤ c → c ≤ N → w.arrivals_gen = k → 0 ≤ k → k + n ≤ INT_MAX →
      ∃ v, eventsLoop draws n w = some v ∧ UpwardOnly N v.states ∧
        v.cur = some (min (c + n) N) ∧ v.arrivals_gen = k + n ∧ v.drawn = w.drawn := by
  intro n
  induction n with
  | zero =>
    intro w c k hup hcur hc1 hcN hk _ _
    refine ⟨w, rfl, hup, ?_, by simpa using hk, rfl⟩
    rw [hcur, add_zero, min_eq_left hcN]
  | succ n ih =>
    intro w c k hup hcur hc1 hcN hk hk0 hkm
    push_cast at hkm
    have hn0 : (0 : ℤ) ≤ n := Int.natCast_nonneg n
    obtain ⟨u, hu, huup, hucur, huk, hud⟩ :=
      walkerStep_upward draws N w c k hup hcur hc1 hcN hk hk0 (by omega)
    obtain ⟨v, hv, hvup, hvcur, hvk, hvd⟩ :=
      ih u (min (c + 1) N) (k + 1) huup hucur (by omega) (min_le_right _ _) huk (by omega)
        (by omega)
    refine ⟨v, by simp only [eventsLoop, hu]; exact hv, hvup, ?_, ?_, hvd.trans hud⟩
    · rw [hvcur]
      congr 1
      omega
    · rw [hvk]
      push_cast
      ring

/-- For `μ = 0`, `λ > 0`, `N ≥ 1` and `K ≥ 2` the walk started at state 1 takes an
arrival transition at each of its first `e` events, without consuming a draw, and
its cursor is then `min (1 + e) N`: one state up per event until `N`, and `N`
from then on. -/
theorem upward_walk (p : Params) (draws : ℕ → ℚ) (hN : 1 ≤ p.N) (hK : 2 ≤ p.K)
    (hmu : p.mu = 0) (hlam : 0 < p.lam) (e : ℕ) (he : (e : ℤ) ≤ INT_MAX) :
    ∃ (s : Sim) (w : Walk), startSim p = some s ∧ s.cur = some 1 ∧
      eventsLoop draws e
        { states := clearGen s.states, cur := s.cur, arrivals_gen := 0, drawn := s.drawn }
        = some w ∧
      w.cur = some (min (1 + e) p.N) ∧ w.arrivals_gen = (e : ℤ) ∧ w.drawn = s.drawn := by
  obtain ⟨s, hs, -, hlen, -, hcells⟩ := startSim_cells p hN (by omega)
  obtain ⟨s', hs', -, -, -, hcur, -⟩ := startSim_ok p hN (by omega)
  rw [hs] at hs'
  cases hs'
  have hup : UpwardOnly p.N (clearGen s.states) := by
    intro j hj1 hjN
    have hjl : j < s.states.length := by omega
    have hget : s.states[j]? = some s.states[j] := List.getElem?_eq_getElem hjl
    have ht := hcells j (by omega)
    rw [hget] at ht
    have ht' : topo s.states[j] = topo (builtCell p.N p.K p.lam p.mu j) := Option.some.inj ht
    have h1 : ¬ (j = p.N + p.K - 1) := by omega
    have h2 : ¬ (p.N + 1 ≤ j) := by omega
    have hrate : p.lam / (p.lam + p.mu) = 1 := by
      rw [hmu, add_zero]
      exact div_self (ne_of_gt hlam)
    have e1 : s.states[j].probup = 1 := by
      have := congrArg Prod.fst ht'
      simp only [topo, builtCell, if_neg h1, if_neg h2] at this
      rw [this]
      split_ifs <;> simp [initCell, hrate]
    have e2 : s.states[j].next_up = some (min (j + 1) p.N) := by
      have := congrArg (fun x => x.2.1) ht'
      simp only [topo, builtCell, if_neg h1, if_neg h2] at this
      rw [this]
      by_cases hjeq : j = p.N
      · subst hjeq
        simp [initCell]
      · have hlt : j + 1 ≤ p.N := by omega
        simp [initCell, hjeq, hj1, min_eq_left hlt]
    refine ⟨{ s.states[j] with arrivals_gen := 0 }, ?_, e1, e2⟩
    simp only [clearGen, List.getElem?_map, hget, Option.map]
  obtain ⟨w, hw, -, hwcur, hwk, hwd⟩ :=
    eventsLoop_upward draws p.N e
      { states := clearGen s.states, cur := s.cur, arrivals_gen := 0, drawn := s.drawn }
      1 0 hup hcur (le_refl 1) hN rfl (le_refl 0) (by omega)
  exact ⟨s, w, hs, hcur, hw, hwcur, by rw [hwk, zero_add], hwd⟩

/-- C19 at `N = 2`, `K = 1`, `λ = 1`, `μ = 0`: the walk starts at state 1, its first
event is an arrival that moves the cursor to state `N = 2`, and its second event
is an arrival that moves the cursor from state 2 back to state 1 (the arrival
target `K` written by lines 134-138 over the full state). -/
theorem upward_walk_leaves_full_state :
    ∃ (s : Sim) (w1 w2 : Walk), startSim ⟨2, 1, 1, 0, 10, 5, 1 / 100⟩ = some s ∧
      s.cur = some 1 ∧
      eventsLoop (constDraws (1 / 2)) 1
        { states := clearGen s.states, cur := s.cur, arrivals_gen := 0, drawn := s.drawn }
        = some w1 ∧ w1.cur = some 2 ∧ w1.arrivals_gen = 1 ∧
      eventsLoop (constDraws (1 / 2)) 2
        { states := clearGen s.states, cur := s.cur, arrivals_gen := 0, drawn := s.drawn }
        = some w2 ∧ w2.cur = some 1 ∧ w2.arrivals_gen = 2 := by
  have hs : startSim ⟨2, 1, 1, 0, 10, 5, 1 / 100⟩ = some
      { states := [{ probup := 1, next_up := some 1, next_down := none, arrivals_gen := 0,
                     arrivals_tot := 1, oldp := 1 },
                   { probup := 1, next_up := some 2, next_down := some 0, arrivals_gen := 0,
                     arrivals_tot := 0, oldp := 1 },
                   { probup := 1, next_up := some 1, next_down := none, arrivals_gen := 0,
                     arrivals_tot := 0, oldp := 1 }]
        cur := some 1, arrivals_tot := 1, generation := 0, conv := 0, drawn := 0 } := by
    simp [startSim, buildStates, store, forLoop, initCell, fresh, List.replicate, initSim,
      wrap32]
  refine ⟨_,
    { states := [{ probup := 1, next_up := some 1, next_down := none, arrivals_gen := 0,
                   arrivals_tot := 1, oldp := 1 },
                 { probup := 1, next_up := some 2, next_down := some 0, arrivals_gen := 1,
                   arrivals_tot := 0, oldp := 1 },
                 { probup := 1, next_up := some 1, next_down := none, arrivals_gen := 0,
                   arrivals_tot := 0, oldp := 1 }]
      cur := some 2, arrivals_gen := 1, drawn := 0 },
    { states := [{ probup := 1, next_up := some 1, next_down := none, arrivals_gen := 0,
                   arrivals_tot := 1, oldp := 1 },
                 { probup := 1, next_up := some 2, next_down := some 0, arrivals_gen := 1,
                   arrivals_tot := 0, oldp := 1 },
                 { probup := 1, next_up := some 1, next_down := none, arrivals_gen := 1,
                   arrivals_tot := 0, oldp := 1 }]
      cur := some 1, arrivals_gen := 2, drawn := 0 },
    hs, rfl, ?_, rfl, rfl, ?_, rfl, rfl⟩
  · simp [eventsLoop, walkerStep, clearGen, wrap32]
  · simp [eventsLoop, walkerStep, clearGen, wrap32]

/-! ## C20: counter consistency -/

theorem sum_filter_visited :
    ∀ m : Mem, (∀ c ∈ m, 0 ≤ c.arrivals_tot) →
      ((m.filter fun c => decide (0 < c.arrivals_tot)).map fun c => c.arrivals_tot).sum
        = sumTot m := by
  intro m
  induction m with
  | nil => intro _; rfl
  | cons a m ih =>
    intro h
    have ha : 0 ≤ a.arrivals_tot := h a (List.mem_cons_self _ _)
    have ih' := ih (fun c hc => h c (List.mem_cons_of_mem _ hc))
    unfold sumTot at ih' ⊢
    by_cases hp : 0 < a.arrivals_tot
    · simp only [List.filter_cons, hp, decide_True, if_true, List.map_cons, List.sum_cons, ih']
    · have hz : a.arrivals_tot = 0 := by omega
      simp only [List.filter_cons, hp, decide_False, List.map_cons, List.sum_cons, hz,
        zero_add, Bool.false_eq_true, if_false]
      exact ih'

theorem sum_filter_shares (T : ℤ) :
    ∀ m : Mem, (∀ c ∈ m, 0 ≤ c.arrivals_tot) →
      visitedShareSum m T = ((sumTot m : ℤ) : ℚ) / (T : ℚ) := by
  intro m h
  unfold visitedShareSum
  have e1 : ((m.filter fun c => decide (0 < c.arrivals_tot)).map
      fun c => ((c.arrivals_tot : ℤ) : ℚ) / (T : ℚ))
      = (m.filter fun c => decide (0 < c.arrivals_tot)).map
          fun c => ((c.arrivals_tot : ℤ) : ℚ) * ((T : ℤ) : ℚ)⁻¹ := by
    apply List.map_congr_left
    intro c _
    rw [div_eq_mul_inv]
  rw [e1, List.sum_map_mul_right]
  have e2 : ((m.filter fun c => decide (0 < c.arrivals_tot)).map
      fun c => ((c.arrivals_tot : ℤ) : ℚ)).sum = ((sumTot m : ℤ) : ℚ) := by
    rw [← sum_filter_visited m h, Int.cast_list_sum, List.map_map]
    rfl
  rw [e2, div_eq_mul_inv]

theorem visitedShareSum_eq_one (s : Sim) (B : ℤ) (h : TotCountedDbl s B) :
    visitedShareSum s.states s.arrivals_tot = 1 := by
  obtain ⟨hcells, hsum, h1, -, -⟩ := h
  have hT : ((s.arrivals_tot : ℤ) : ℚ) ≠ 0 := by
    have : (0 : ℚ) < ((s.arrivals_tot : ℤ) : ℚ) := by
      exact_mod_cast (by omega : 0 < s.arrivals_tot)
    exact ne_of_gt this
  rw [sum_filter_shares s.arrivals_tot s.states hcells, hsum]
  exact div_self hT

theorem abs_sum_sub_le (k : ℚ) (f g : state_t → ℚ) :
    ∀ l : Mem, (∀ c ∈ l, |f c - g c| ≤ k * g c) →
      |(l.map f).sum - (l.map g).sum| ≤ k * (l.map g).sum := by
  intro l
  induction l with
  | nil => intro _; simp
  | cons a l ih =>
    intro h
    have ha := h a (List.mem_cons_self _ _)
    have hl := ih (fun c hc => h c (List.mem_cons_of_mem _ hc))
    simp only [List.map_cons, List.sum_cons]
    have e : f a + (l.map f).sum - (g a + (l.map g).sum)
        = (f a - g a) + ((l.map f).sum - (l.map g).sum) := by ring
    rw [e]
    calc |(f a - g a) + ((l.map f).sum - (l.map g).sum)|
        ≤ |f a - g a| + |(l.map f).sum - (l.map g).sum| := abs_add _ _
      _ ≤ k * g a + k * (l.map g).sum := add_le_add ha hl
      _ = k * (g a + (l.map g).sum) := by ring

/-- The relative error of a rounding to `double` is at most `2^-53`. -/
theorem roundDouble_rel {x : ℚ} (hx : 0 < x) : |roundDouble x - x| ≤ 1 / 2 ^ 53 * x := by
  have h1 := roundDouble_near x
  have h2 := ulp_le hx
  have e : (1 : ℚ) / 2 ^ 53 * x = x / 2 ^ 52 / 2 := by ring
  rw [e]
  linarith

theorem visitedProbSum_near_one (s : Sim) (B : ℤ) (h : TotCountedDbl s B) :
    |visitedProbSum s.states - 1| ≤ 1 / 2 ^ 53 := by
  have hone := visitedShareSum_eq_one s B h
  obtain ⟨-, -, h1, -, hshare⟩ := h
  have hT : (0 : ℚ) < ((s.arrivals_tot : ℤ) : ℚ) := by
    exact_mod_cast (by omega : 0 < s.arrivals_tot)
  have hb := abs_sum_sub_le (1 / 2 ^ 53) (fun c => c.oldp)
    (fun c => ((c.arrivals_tot : ℤ) : ℚ) / ((s.arrivals_tot : ℤ) : ℚ))
    (s.states.filter fun c => decide (0 < c.arrivals_tot)) (by
      intro c hc
      obtain ⟨hmem, hvis⟩ := List.mem_filter.mp hc
      have hv : 0 < c.arrivals_tot := of_decide_eq_true hvis
      show |c.oldp - ((c.arrivals_tot : ℤ) : ℚ) / ((s.arrivals_tot : ℤ) : ℚ)|
        ≤ 1 / 2 ^ 53 * (((c.arrivals_tot : ℤ) : ℚ) / ((s.arrivals_tot : ℤ) : ℚ))
      rw [hshare c hmem hv]
      apply roundDouble_rel
      apply div_pos _ hT
      exact_mod_cast hv)
  unfold visitedShareSum at hone
  unfold visitedProbSum
  rw [hone, mul_one] at hb
  exact hb

/-- On a rounded run with `N ≥ 1`, `K ≥ 1` and `1 ≤ E < INT_MAX` no counter
overflows: the loop returns after `G ≥ 1` generations, and after every generation
`g ≤ G` the per-state totals add up to the scalar `arrivals_tot` and the cached
probability of a visited state is its share of the arrivals rounded to a
`double`. -/
theorem run_countedDbl (p : Params) (draws : ℕ → ℚ) (hN : 1 ≤ p.N) (hK : 1 ≤ p.K)
    (hE1 : 1 ≤ p.events_per_gen) (hE : (p.events_per_gen : ℤ) < INT_MAX) :
    ∃ (G : ℕ) (r : Sim), 1 ≤ G ∧ simulateDbl p draws = some r ∧
      afterGensDbl p draws G = some r ∧
      ∀ g : ℕ, g ≤ G → ∃ t, afterGensDbl p draws g = some t ∧
        TotCountedDbl t (1 + (g : ℤ) * p.events_per_gen) := by
  obtain ⟨s, hs, hok, hgen, -, -, -⟩ := startSim_ok p hN hK
  have hs1 := startSim_countedDbl p s hN hK hs
  have hmax := clampMaxGens_le p.max_gens p.events_per_gen hE1
  obtain ⟨k, r, hk, hr, hgr, -, hbefore, -⟩ :=
    doWhileDbl_spec p.events_per_gen p.eps (clampMaxGens p.max_gens p.events_per_gen) draws hmax
      (clampMaxGens p.max_gens p.events_per_gen).toNat s hok (by omega)
      (by rw [hgen]; unfold INT_MAX; norm_num) (by rw [hgen]; omega)
  have hEpos : (0 : ℤ) < p.events_per_gen := by exact_mod_cast hE1
  -- the event budget of the whole run fits in an `int`
  have hbound : 1 + (k : ℤ) * p.events_per_gen ≤ INT_MAX := by
    by_cases hk1 : k = 1
    · subst hk1
      push_cast
      omega
    · obtain ⟨-, -, -, hlt⟩ := hbefore (k - 1) (by omega) (by omega)
      rw [hgen, zero_add] at hlt
      have hcl : clampMaxGens p.max_gens p.events_per_gen
          ≤ INT_MAX / (p.events_per_gen : ℤ) - 1 := min_le_right _ _
      have hk' : ((k - 1 : ℕ) : ℤ) = (k : ℤ) - 1 := by
        have : 1 ≤ k := hk
        push_cast [Nat.cast_sub this]
        ring
      rw [hk'] at hlt
      have h2 : (k : ℤ) + 1 ≤ INT_MAX / (p.events_per_gen : ℤ) := by omega
      have h3 : INT_MAX / (p.events_per_gen : ℤ) * p.events_per_gen ≤ INT_MAX :=
        Int.ediv_mul_le _ (ne_of_gt hEpos)
      have h4 : ((k : ℤ) + 1) * p.events_per_gen
          ≤ INT_MAX / (p.events_per_gen : ℤ) * p.events_per_gen :=
        mul_le_mul_of_nonneg_right h2 (le_of_lt hEpos)
      nlinarith
  refine ⟨k, r, hk, by simp only [simulateDbl, hs, Option.bind]; exact hr,
    by simp only [afterGensDbl, hs, Option.bind]; exact hgr, ?_⟩
  intro g hg
  obtain ⟨t, ht, -, -⟩ := gensFromDbl_ok p.events_per_gen p.eps draws g s hok
  refine ⟨t, by simp only [afterGensDbl, hs, Option.bind]; exact ht, ?_⟩
  have hgk : (g : ℤ) * p.events_per_gen ≤ (k : ℤ) * p.events_per_gen :=
    mul_le_mul_of_nonneg_right (by exact_mod_cast hg) (le_of_lt hEpos)
  exact gensFromDbl_counted p.events_per_gen p.eps draws g s t 1 hs1 (by omega) ht

theorem thirds_run_phase :
    eventsLoop thirdsDraws 7
      { states := clearGen (twoTwoStates 0 0 0 0 1 0 0 0 1 1 1 1), cur := some 1,
        arrivals_gen := 0, drawn := 0 }
      = some { states := twoTwoStates 1 1 2 1 1 0 0 0 1 1 1 1, cur := some 2,
               arrivals_gen := 5, drawn := 5 } := by
  simp [eventsLoop, walkerStep, clearGen, twoTwoStates, thirdsDraws, wrap32]
  norm_num

theorem thirds_generation :
    generationStepDbl 7 (1 / 4) thirdsDraws
      { states := twoTwoStates 0 0 0 0 1 0 0 0 1 1 1 1
        cur := some 1, arrivals_tot := 1, generation := 0, conv := 0, drawn := 0 }
      = some
        { states := twoTwoStates 1 1 2 1 2 1 2 1
            (6004799503160661 / 18014398509481984) (6004799503160661 / 36028797018963968)
            (6004799503160661 / 18014398509481984) (6004799503160661 / 36028797018963968)
          cur := some 2, arrivals_tot := 6, generation := 1
          conv := (settleLoopDbl 6 (1 / 4) (twoTwoStates 1 1 2 1 1 0 0 0 1 1 1 1) 0).2
          drawn := 5 } := by
  rw [generationStepDbl_of_run thirds_run_phase]
  have ew : wrap32 (1 + 5) = 6 := rfl
  simp only [ew]
  simp [settleCellDbl, twoTwoStates, wrap32, ddiv]
  norm_num
  exact ⟨roundDouble_third, roundDouble_sixth, roundDouble_third, roundDouble_sixth⟩

theorem thirds_run :
    simulateDbl thirdsParams thirdsDraws = some
      { states := twoTwoStates 1 1 2 1 2 1 2 1
          (6004799503160661 / 18014398509481984) (6004799503160661 / 36028797018963968)
          (6004799503160661 / 18014398509481984) (6004799503160661 / 36028797018963968)
        cur := some 2, arrivals_tot := 6, generation := 1
        conv := (settleLoopDbl 6 (1 / 4) (twoTwoStates 1 1 2 1 1 0 0 0 1 1 1 1) 0).2
        drawn := 5 } := by
  have hs : startSim thirdsParams = some
      { states := twoTwoStates 0 0 0 0 1 0 0 0 1 1 1 1
        cur := some 1, arrivals_tot := 1, generation := 0, conv := 0, drawn := 0 } :=
    startSim_two_two 7 1 (1 / 4)
  have hc : clampMaxGens thirdsParams.max_gens thirdsParams.events_per_gen = 1 := by
    unfold clampMaxGens INT_MAX thirdsParams
    norm_num
  have hloop : doWhileDbl 7 (1 / 4) 1 thirdsDraws 1
      { states := twoTwoStates 0 0 0 0 1 0 0 0 1 1 1 1
        cur := some 1, arrivals_tot := 1, generation := 0, conv := 0, drawn := 0 } = some
      { states := twoTwoStates 1 1 2 1 2 1 2 1
          (6004799503160661 / 18014398509481984) (6004799503160661 / 36028797018963968)
          (6004799503160661 / 18014398509481984) (6004799503160661 / 36028797018963968)
        cur := some 2, arrivals_tot := 6, generation := 1
        conv := (settleLoopDbl 6 (1 / 4) (twoTwoStates 1 1 2 1 1 0 0 0 1 1 1 1) 0).2
        drawn := 5 } := by
    unfold doWhileDbl
    simp only [thirds_generation]
    rw [if_neg]
    rintro ⟨-, h⟩
    exact absurd h (lt_irrefl _)
  unfold simulateDbl
  rw [hs, hc, Option.some_bind]
  exact hloop

theorem thirds_after_one :
    afterGensDbl thirdsParams thirdsDraws 1 = some
      { states := twoTwoStates 1 1 2 1 2 1 2 1
          (6004799503160661 / 18014398509481984) (6004799503160661 / 36028797018963968)
          (6004799503160661 / 18014398509481984) (6004799503160661 / 36028797018963968)
        cur := some 2, arrivals_tot := 6, generation := 1
        conv := (settleLoopDbl 6 (1 / 4) (twoTwoStates 1 1 2 1 1 0 0 0 1 1 1 1) 0).2
        drawn := 5 } := by
  have hs : startSim thirdsParams = some
      { states := twoTwoStates 0 0 0 0 1 0 0 0 1 1 1 1
        cur := some 1, arrivals_tot := 1, generation := 0, conv := 0, drawn := 0 } :=
    startSim_two_two 7 1 (1 / 4)
  have hstep : gensFromDbl 7 (1 / 4) thirdsDraws 1
      { states := twoTwoStates 0 0 0 0 1 0 0 0 1 1 1 1
        cur := some 1, arrivals_tot := 1, generation := 0, conv := 0, drawn := 0 } = some
      { states := twoTwoStates 1 1 2 1 2 1 2 1
          (6004799503160661 / 18014398509481984) (6004799503160661 / 36028797018963968)
          (6004799503160661 / 18014398509481984) (6004799503160661 / 36028797018963968)
        cur := some 2, arrivals_tot := 6, generation := 1
        conv := (settleLoopDbl 6 (1 / 4) (twoTwoStates 1 1 2 1 1 0 0 0 1 1 1 1) 0).2
        drawn := 5 } := by
    simp only [gensFromDbl, thirds_generation]
  unfold afterGensDbl
  rw [hs, Option.some_bind]
  exact hstep

/-- C20 fails as stated: `N = 2`, `K = 2`, `λ = μ = 1`, `E = 7`, `max_gens = 1`,
`ε = 0.25`, and the draws `3/4, 1/4, 3/4, 1/4, 1/4`.  The seven events of the only
generation are a service at state 1, arrivals at states 0, 3 and 2, a service at
state 2 and arrivals at states 1 and 2.  After the settle phase the per-state
totals are `2, 1, 2, 1` and add up to the scalar `arrivals_tot = 6`, every state is
visited, and the cached probabilities are the `double` values nearest to `2/6`
and `1/6`: their sum is `1 - 2^-54`, not `1`.  With `K = 0` instead, the builder
writes `states[N]` outside the array of `N` cells and there is no state before
the first generation. -/
theorem cached_probabilities_sum_below_one :
    ∃ r, simulateDbl thirdsParams thirdsDraws = some r ∧
      afterGensDbl thirdsParams thirdsDraws 1 = some r ∧
      r.arrivals_tot = 6 ∧ sumTot r.states = r.arrivals_tot ∧
      (r.states.map fun c => c.arrivals_tot) = [2, 1, 2, 1] ∧
      (r.states.map fun c => c.oldp)
        = [6004799503160661 / 18014398509481984, 6004799503160661 / 36028797018963968,
           6004799503160661 / 18014398509481984, 6004799503160661 / 36028797018963968] ∧
      visitedProbSum r.states = 1 - 1 / 2 ^ 54 ∧ visitedProbSum r.states ≠ 1 ∧
      startSim { thirdsParams with K := 0 } = none := by
  have hsum : visitedProbSum (twoTwoStates 1 1 2 1 2 1 2 1
      (6004799503160661 / 18014398509481984) (6004799503160661 / 36028797018963968)
      (6004799503160661 / 18014398509481984) (6004799503160661 / 36028797018963968))
      = 1 - 1 / 2 ^ 54 := by
    simp [visitedProbSum, twoTwoStates]
    norm_num
  refine ⟨_, thirds_run, thirds_after_one, rfl, rfl, rfl, rfl, hsum, ?_, ?_⟩
  · rw [hsum]
    norm_num
  · simp [startSim, thirdsParams, buildStates, store, forLoop, initCell, fresh,
      List.replicate]

/-- C20, amended: for `N ≥ 1`, `K ≥ 1`, `λ + μ > 0` and every `int` value `E ≥ 1`
of `events_per_gen`, before the first generation (`g = 0`) and after the settle
phase of every generation `g ≤ G` of the run: if the scalar `arrivals_tot` is
positive, that is, if the addition of line 193 has not left the `int` range, then
it equals the sum of the per-state `arrivals_tot`; consequently the exact shares
`arrivals_tot[i] / arrivals_tot` of the visited states sum to exactly `1`, the
cached probability of every visited state is its share rounded to the nearest
`double`, and the cached probabilities of the visited states sum to `1` within
`2^-53`.  For `E < INT_MAX` the scalar is always positive. -/
theorem counters_consistent (p : Params) (draws : ℕ → ℚ) (hN : 1 ≤ p.N) (hK : 1 ≤ p.K)
    (_hrate : 0 < p.lam + p.mu) (hE1 : 1 ≤ p.events_per_gen)
    (hE : (p.events_per_gen : ℤ) ≤ INT_MAX) :
    ∃ (G : ℕ) (r : Sim), 1 ≤ G ∧ simulateDbl p draws = some r ∧
      afterGensDbl p draws G = some r ∧
      ∀ g : ℕ, g ≤ G → ∃ t, afterGensDbl p draws g = some t ∧
        (0 < t.arrivals_tot →
          sumTot t.states = t.arrivals_tot ∧
          (∀ c ∈ t.states, 0 < c.arrivals_tot →
            c.oldp = roundDouble ((c.arrivals_tot : ℚ) / (t.arrivals_tot : ℚ))) ∧
          visitedShareSum t.states t.arrivals_tot = 1 ∧
          |visitedProbSum t.states - 1| ≤ 1 / 2 ^ 53) ∧
        ((p.events_per_gen : ℤ) < INT_MAX → 0 < t.arrivals_tot) := by
  by_cases hlt : (p.events_per_gen : ℤ) < INT_MAX
  · obtain ⟨G, r, hG, hr, hgr, hall⟩ := run_countedDbl p draws hN hK hE1 hlt
    refine ⟨G, r, hG, hr, hgr, fun g hg => ?_⟩
    obtain ⟨t, ht, hcount⟩ := hall g hg
    have hpos : 0 < t.arrivals_tot := by
      have := hcount.2.2.1
      omega
    exact ⟨t, ht, fun _ => ⟨hcount.2.1, hcount.2.2.2.2, visitedShareSum_eq_one t _ hcount,
      visitedProbSum_near_one t _ hcount⟩, fun _ => hpos⟩
  · have hEeq : (p.events_per_gen : ℤ) = INT_MAX := le_antisymm hE (not_lt.mp hlt)
    obtain ⟨G, s, r, hs, -, hG, hr, hgr, hagr, -, hcase, -, -⟩ :=
      simulateDbl_passes p draws hN hK hE1
    have hs1 := startSim_countedDbl p s hN hK hs
    have hG1 : G = 1 := by
      rcases hcase with h | h
      · exact h
      · have hcl : clampMaxGens p.max_gens p.events_per_gen
            ≤ INT_MAX / (p.events_per_gen : ℤ) - 1 := min_le_right _ _
        have hdiv : INT_MAX / (p.events_per_gen : ℤ) = 1 := by
          rw [hEeq]
          rfl
        rw [hdiv] at hcl
        have : (1 : ℤ) ≤ (G : ℤ) := by exact_mod_cast hG
        omega
    subst hG1
    refine ⟨1, r, le_refl 1, hr, hagr, fun g hg => ?_⟩
    by_cases hg0 : g = 0
    · subst hg0
      refine ⟨s, by simp only [afterGensDbl, hs, Option.bind, gensFromDbl], fun _ => ?_,
        fun h => absurd h hlt⟩
      exact ⟨hs1.2.1, hs1.2.2.2.2, visitedShareSum_eq_one s 1 hs1,
        visitedProbSum_near_one s 1 hs1⟩
    · have hg1 : g = 1 := by omega
      subst hg1
      refine ⟨r, hagr, fun hpos => ?_, fun h => absurd h hlt⟩
      have hstep : generationStepDbl p.events_per_gen p.eps draws s = some r := by
        simp only [gensFromDbl] at hgr
        cases hx : generationStepDbl p.events_per_gen p.eps draws s with
        | none => simp [hx] at hgr
        | some u =>
          simp only [hx, Option.some.injEq] at hgr
          rw [hgr]
      have hcount := generationStepDbl_counted_pos p.events_per_gen p.eps draws s r 1 hs1
        (by unfold INT_MAX; norm_num) hE hstep hpos
      exact ⟨hcount.2.1, hcount.2.2.2.2, visitedShareSum_eq_one r _ hcount,
        visitedProbSum_near_one r _ hcount⟩

theorem counters_consistent_witness :
    ∃ (G : ℕ) (r : Sim), 1 ≤ G ∧ simulateDbl demoParams (constDraws (1 / 4)) = some r ∧
      afterGensDbl demoParams (constDraws (1 / 4)) G = some r ∧
      ∀ g : ℕ, g ≤ G → ∃ t, afterGensDbl demoParams (constDraws (1 / 4)) g = some t ∧
        (0 < t.arrivals_tot →
          sumTot t.states = t.arrivals_tot ∧
          (∀ c ∈ t.states, 0 < c.arrivals_tot →
            c.oldp = roundDouble ((c.arrivals_tot : ℚ) / (t.arrivals_tot : ℚ))) ∧
          visitedShareSum t.states t.arrivals_tot = 1 ∧
          |visitedProbSum t.states - 1| ≤ 1 / 2 ^ 53) ∧
        ((demoParams.events_per_gen : ℤ) < INT_MAX → 0 < t.arrivals_tot) :=
  counters_consistent demoParams (constDraws (1 / 4)) (by decide) (by decide)
    (by norm_num [demoParams]) (by decide) (by norm_num [demoParams, INT_MAX])

end Markov
